import Mathlib

/-!
BigBuffer (src/bigBuffer.cpp): a chunked sparse buffer.

Shallow embedding of `BigBuffer::read`, `BigBuffer::write`, `BigBuffer::truncate`
and of the constructor that loads an archive entry, followed by the properties of the
buffer that the specification states.

Modelling conventions.

* `chunkSize`, a positive constant below `2^32` declared in `bigBuffer.h`, is the parameter
  `cs` of the definitions.
* A chunk (`char*` to a block obtained from `malloc(chunkSize)`) is the function giving the
  byte stored at each position of the block; a `NULL` slot is `none`.
* `std::vector<char*>` is its size together with its slots.  `operator[]` is unchecked
  in C++; here an access outside the vector makes the whole call undefined (`none`).
* `malloc` does not initialise memory and may fail.  Every call that allocates takes an
  oracle `malloc : Nat → Option Chunk`: `malloc k` is what the allocation made for slot `k`
  returns during this call (a call allocates each slot at most once), `none` being `NULL`.
* Offsets, lengths and sizes (`offset_t`, `size_t`, `ssize_t`, 64 bits wide) are natural
  numbers: no negative offset is considered and no 64-bit value overflows.
* The 32-bit variables of the source keep their width.  `unsigned(len - offset)`,
  `unsigned int i` and `unsigned int pos` hold their value modulo `2^32` (`toUInt32`).
  The counters `int nread` and `int nwritten`, and with them the `int` a call returns, are
  32-bit two's complement (`toInt32`), and so is `int chunk`: a negative `chunk` is an
  index outside the vector.  `++chunk` at `INT_MAX` overflows, which is undefined (`none`).
  `int pos` holds `offset % chunkSize`; when that value is `2^31` or more the `int` is
  negative and `chunks[chunk] + pos` points before the block, which is undefined (`none`).
* The loops run on fuel.  The fuel handed over is the largest number of rounds a loop
  that ends can make (the number of bytes to move for the copy loops, which suffices as
  soon as `cs > 0`); running out of fuel means that the loop does not end and is reported
  as `none`, never as a result.
-/

namespace BigBuffer

/-- One byte of file content (`char`). -/
abbrev Byte := UInt8

/-- A block of `chunkSize` bytes: the byte held at each position of the block. -/
abbrev Chunk := Nat → Byte

/-- `EINVAL` of `<cerrno>`. -/
def EINVAL : Int := 22

/-- `EIO` of `<cerrno>`. -/
def EIO : Int := 5

/-- `INT_MAX` of `<climits>` for the 32-bit `int`: `2^31 - 1`. -/
def INT_MAX : Int := 2147483647

/-- Conversion of an integer value to `int`: its residue modulo `2^32 = 4294967296` in
`[-2^31, 2^31)`. -/
def toInt32 (x : Int) : Int := (x + 2147483648) % 4294967296 - 2147483648

/-- Conversion of a non-negative value to `unsigned int`: its residue modulo `2^32`. -/
def toUInt32 (n : Nat) : Nat := n % 2 ^ 32

/-- The vector `chunks_t = std::vector<char*>`: its size and its slots (`none` is `NULL`).
Slots at or beyond `size` are not part of the vector. -/
structure ChunkVec where
  size : Nat
  slot : Nat → Option Chunk

namespace ChunkVec

/-- The vector without elements. -/
def nil : ChunkVec := ⟨0, fun _ => none⟩

/-- `chunks[i]`; `none` when `i` is outside the vector (undefined behaviour in C++). -/
def get? (v : ChunkVec) (i : Nat) : Option (Option Chunk) :=
  if i < v.size then some (v.slot i) else none

/-- `chunks[i]` for an `int` index: the index is converted to the unsigned `size_type`, so
a negative `i` lies outside the vector. -/
def getInt? (v : ChunkVec) (i : Int) : Option (Option Chunk) :=
  if 0 ≤ i then v.get? i.toNat else none

/-- `chunks[i] = c` for an index inside the vector. -/
def set (v : ChunkVec) (i : Nat) (c : Option Chunk) : ChunkVec :=
  ⟨v.size, fun j => if j = i then c else v.slot j⟩

/-- `chunks.push_back(c)`. -/
def push_back (v : ChunkVec) (c : Option Chunk) : ChunkVec :=
  ⟨v.size + 1, fun j => if j = v.size then c else v.slot j⟩

/-- `chunks.resize(n, c)`: keeps the first `n` elements, fills up with `c`. -/
def resize (v : ChunkVec) (n : Nat) (c : Option Chunk) : ChunkVec :=
  ⟨n, fun j => if j < v.size ∧ j < n then v.slot j else c⟩

end ChunkVec

end BigBuffer

/-- The class `BigBuffer`: the chunk vector and the logical length `len`. -/
structure BigBuffer where
  chunks : BigBuffer.ChunkVec
  len : Nat

namespace BigBuffer

/-- `BigBuffer::BigBuffer()`: no chunks, length 0. -/
def empty : BigBuffer := ⟨ChunkVec.nil, 0⟩

/-- `memcpy(c + pos, buf + k, n)`: the block `c` after the copy. -/
def memcpy (c : Chunk) (pos : Nat) (buf : Nat → Byte) (k n : Nat) : Chunk :=
  fun i => if pos ≤ i ∧ i < pos + n then buf (k + (i - pos)) else c i

/-- `memset(c + start, 0, n)`: the block `c` after the fill. -/
def memset0 (c : Chunk) (start n : Nat) : Chunk :=
  fun i => if start ≤ i ∧ i < start + n then 0 else c i

/-- The `n` bytes that `memcpy(buf, c + pos, n)` stores at `buf`. -/
def copyOut (c : Chunk) (pos n : Nat) : List Byte :=
  (List.range n).map fun i => c (pos + i)

/-- What `BigBuffer::read` hands back: the returned `int` and the bytes stored at `buf`
(`buf[0]`, `buf[1]`, ... in order; nothing else of the destination is touched). -/
structure ReadResult where
  ret : Int
  dst : List Byte
  deriving DecidableEq

/-- The `while (size > 0)` loop of `BigBuffer::read`.  `chunk` and `nread` are the `int`
variables of the source, `pos` is the value `offset % chunkSize` that `int pos` holds (0
from the second round on), `dst` the bytes stored so far.  `size_t r = chunkSize - pos`
is computed in unsigned arithmetic and is `cs - pos`. -/
def readLoop (cs : Nat) (v : ChunkVec) :
    Nat → Nat → Int → Nat → Int → List Byte → Option (Int × List Byte)
  | 0, size, _, _, nread, dst => if size > 0 then none else some (nread, dst)
  | fuel + 1, size, chunk, pos, nread, dst =>
    if size > 0 then
      let r := if cs - pos > size then size else cs - pos
      match v.getInt? chunk with
      | none => none
      | some (some c) =>
        if pos < 2 ^ 31 ∧ chunk < INT_MAX then
          readLoop cs v fuel (size - r) (chunk + 1) 0 (toInt32 (nread + r))
            (dst ++ copyOut c pos r)
        else none
      | some none =>
        if chunk < INT_MAX then
          readLoop cs v fuel (size - r) (chunk + 1) 0 (toInt32 (nread + r))
            (dst ++ List.replicate r 0)
        else none
    else some (nread, dst)

/-- `BigBuffer::read(buf, size, offset)`. -/
def read (cs : Nat) (b : BigBuffer) (size offset : Nat) : Option ReadResult :=
  if offset > b.len then some ⟨-EINVAL, []⟩
  else
    let chunk := toInt32 (offset / cs : Nat)
    let pos := offset % cs
    let size := if size > (b.len - offset) % 2 ^ 32 then b.len - offset else size
    match readLoop cs b.chunks size size chunk pos 0 [] with
    | none => none
    | some (nread, dst) => some ⟨nread, dst⟩

/-- The loop `for (unsigned int i = chunks.size(); i <= bound; ++i) chunks.push_back(NULL)`
of `BigBuffer::write`, from `i` on; `++i` is taken modulo `2^32`.  For
`bound ≥ 2^32 - 1` the test `i <= bound` cannot fail and the loop does not end. -/
def extendLoop (bound : Nat) : Nat → Nat → ChunkVec → Option ChunkVec
  | 0, i, v => if i ≤ bound then none else some v
  | fuel + 1, i, v =>
    if i ≤ bound then extendLoop bound fuel (toUInt32 (i + 1)) (v.push_back none) else some v

/-- The `while (size > 0)` loop of `BigBuffer::write`.  `chunk` and `nwritten` are the
`int` variables of the source, `pos` is the value `offset % chunkSize` that `int pos`
holds, `k` is how far `buf` has been advanced; the result is the vector and the returned
`int`.  The allocation made for slot `chunk` is `malloc chunk`. -/
def writeLoop (cs : Nat) (malloc : Nat → Option Chunk) (buf : Nat → Byte) :
    Nat → Nat → Int → Nat → Int → Nat → ChunkVec → Option (ChunkVec × Int)
  | 0, size, _, _, nwritten, _, v => if size > 0 then none else some (v, nwritten)
  | fuel + 1, size, chunk, pos, nwritten, k, v =>
    if size > 0 then
      let w := if cs - pos > size then size else cs - pos
      match v.getInt? chunk with
      | none => none
      | some none =>
        match malloc chunk.toNat with
        | none => some (v, - EIO)
        | some c =>
          if pos < 2 ^ 31 ∧ chunk < INT_MAX then
            writeLoop cs malloc buf fuel (size - w) (chunk + 1) 0 (toInt32 (nwritten + w))
              (k + w) (v.set chunk.toNat (some (memcpy c pos buf k w)))
          else none
      | some (some c) =>
        if pos < 2 ^ 31 ∧ chunk < INT_MAX then
          writeLoop cs malloc buf fuel (size - w) (chunk + 1) 0 (toInt32 (nwritten + w))
            (k + w) (v.set chunk.toNat (some (memcpy c pos buf k w)))
        else none
    else some (v, nwritten)

/-- `BigBuffer::write(buf, size, offset)`: the buffer afterwards and the returned `int`.
The slot loop makes at most `bound + 1` rounds when it ends. -/
def write (cs : Nat) (malloc : Nat → Option Chunk) (b : BigBuffer) (buf : Nat → Byte)
    (size offset : Nat) : Option (BigBuffer × Int) :=
  let chunk := toInt32 (offset / cs : Nat)
  let pos := offset % cs
  let bound := (offset + size) / cs
  match extendLoop bound (bound + 1) (toUInt32 b.chunks.size) b.chunks with
  | none => none
  | some chunks =>
    let len := if b.len < offset ∨ size > (b.len - offset) % 2 ^ 32 then size + offset else b.len
    match writeLoop cs malloc buf size size chunk pos 0 0 chunks with
    | none => none
    | some (v, ret) => some (⟨v, len⟩, ret)

/-- The loop `for (unsigned int i = ...; i < chunks.size(); ++i) if (chunks[i] != NULL)
free(chunks[i]);` of `BigBuffer::truncate`, from `i` on; `++i` is taken modulo `2^32`.
`keep` is the number of slots that the `resize` after the loop keeps.  The blocks
released belong to slots that `resize` drops, so the loop changes nothing in the vector
that remains.  When the 32-bit `i` starts below `keep` and the loop releases the block of
a slot that stays, the vector is left with a pointer to a released block and the call is
undefined (`none`).  With `2^32` slots or more the test `i < chunks.size()` cannot fail
and the loop does not end. -/
def freeLoop (v : ChunkVec) (keep : Nat) : Nat → Nat → Option Unit
  | 0, i => if i < v.size then none else some ()
  | fuel + 1, i =>
    if i < v.size then
      if i < keep ∧ (v.slot i).isSome then none
      else freeLoop v keep fuel (toUInt32 (i + 1))
    else some ()

/-- `BigBuffer::truncate(offset)`: the buffer afterwards and the returned `int`.  The
`free` loop makes at most `chunks.size()` rounds when it ends. -/
def truncate (cs : Nat) (b : BigBuffer) (offset : Nat) : Option (BigBuffer × Int) :=
  let n := (offset + cs - 1) / cs
  match (if offset < b.len then freeLoop b.chunks n b.chunks.size (toUInt32 n) else some ()) with
  | none => none
  | some _ =>
    let chunks := b.chunks.resize n none
    if offset > b.len then
      let pos := toUInt32 (b.len / cs)
      match chunks.get? pos with
      | none => none
      | some none => some (⟨chunks, offset⟩, 0)
      | some (some c) =>
        let end_ := if offset / cs > pos then cs - 1 else offset % cs
        let start := b.len % cs
        some (⟨chunks.set pos (some (memset0 c start (end_ - start + 1))), offset⟩, 0)
    else some (⟨chunks, offset⟩, 0)

/-- The exceptions the constructor throws: `std::bad_alloc` and `std::exception`. -/
inductive CtorExn where
  | bad_alloc
  | exception
  deriving DecidableEq

/-- One call `zip_fread(zf, buf, chunkSize)` that delivers the block `p`: the bytes of `p`
are stored at the start of `buf`, the rest of `buf` keeps what it held. -/
def fread (buf : Chunk) (p : List Byte) : Chunk :=
  fun i => if i < p.length then p.getD i 0 else buf i

/-- The loop `while ((nr = zip_fread(zf, buf, chunkSize)) > 0)` of the constructor.
The entry stream is the list of the blocks that the successive `zip_fread` calls deliver;
an empty block, or the end of the list, is the call that returns 0.  `buf` is the block
obtained by the `k`-th allocation. -/
def ctorLoop (malloc : Nat → Option Chunk) :
    List (List Byte) → Nat → Chunk → ChunkVec → Except CtorExn ChunkVec
  | [], _, _, v => Except.ok v
  | p :: ps, k, buf, v =>
    if p.length > 0 then
      match malloc (k + 1) with
      | none => Except.error CtorExn.bad_alloc
      | some nb => ctorLoop malloc ps (k + 1) nb (v.push_back (some (fread buf p)))
    else Except.ok v

/-- `BigBuffer::BigBuffer(struct zip *z, int nodeId, ssize_t length)`.  `pulls` is the
entry stream opened by `zip_fopen_index`, `fclose` the value `zip_fclose` returns. -/
def ofEntry (malloc : Nat → Option Chunk) (pulls : List (List Byte)) (fclose : Int)
    (length : Nat) : Except CtorExn BigBuffer :=
  match malloc 0 with
  | none => Except.error CtorExn.bad_alloc
  | some buf =>
    match ctorLoop malloc pulls 0 buf ChunkVec.nil with
    | Except.error e => Except.error e
    | Except.ok v =>
      if fclose ≠ 0 then Except.error CtorExn.exception else Except.ok ⟨v, length⟩

/-- The bytes of a list as a source buffer (`const char *buf`). -/
def ofList (l : List Byte) : Nat → Byte := fun i => l.getD i 0

/-- A call made on a buffer. -/
inductive Op where
  | write (malloc : Nat → Option Chunk) (buf : Nat → Byte) (size offset : Nat)
  | truncate (offset : Nat)

/-- One successful call: a `write` that did not return a negative code, or a `truncate`. -/
def step (cs : Nat) (b : BigBuffer) : Op → Option BigBuffer
  | Op.write malloc buf size offset =>
    match write cs malloc b buf size offset with
    | some (b', ret) => if 0 ≤ ret then some b' else none
    | none => none
  | Op.truncate offset =>
    match truncate cs b offset with
    | some (b', _) => some b'
    | none => none

/-- A sequence of successful calls, first call first. -/
def run (cs : Nat) : List Op → BigBuffer → Option BigBuffer
  | [], b => some b
  | op :: ops, b =>
    match step cs b op with
    | some b' => run cs ops b'
    | none => none

/-- The states reachable from the empty buffer by successful `write` and `truncate` calls. -/
def Reachable (cs : Nat) (b : BigBuffer) : Prop :=
  ∃ ops : List Op, run cs ops empty = some b

/-- The allocator that always succeeds and hands out blocks filled with the byte `g`. -/
def mallocFill (g : Byte) : Nat → Option Chunk := fun _ => some fun _ => g

/-- The bytes of "hello". -/
def hello : List Byte := [104, 101, 108, 108, 111]

/-! ## Vocabulary of the statements -/

/-- The vector `write` works on after its slot loop (the vector itself when that loop
does not end). -/
def extended (cs : Nat) (v : ChunkVec) (size offset : Nat) : ChunkVec :=
  (extendLoop ((offset + size) / cs) ((offset + size) / cs + 1) (toUInt32 v.size) v).getD v

/-- Slot `j` holds at least one byte of the range `[a, a + size)`. -/
def touched (cs a size j : Nat) : Prop :=
  0 < size ∧ a < j * cs + cs ∧ j * cs < a + size

/-- The block slot `j` starts from when it is written: the block it holds, or the fresh
block `malloc` hands out when the slot is `NULL`. -/
def baseOf (malloc : Nat → Option Chunk) (v : ChunkVec) (j : Nat) (c0 : Chunk) : Prop :=
  v.slot j = some c0 ∨ (v.slot j = none ∧ malloc j = some c0)

/-- The byte the chunk vector holds for position `p` of the file: the byte of the block
when the slot of `p` holds one, zero when the slot is `NULL`. -/
def byteAt (cs : Nat) (v : ChunkVec) (p : Nat) : Byte :=
  match v.slot (p / cs) with
  | some c => c (p % cs)
  | none => 0

/-- The slot vector reaches the end of the data: every position below `len` has a slot. -/
def Covers (cs : Nat) (b : BigBuffer) : Prop :=
  b.len ≤ b.chunks.size * cs

/-- The number of bytes `read` sets out to copy, after its comparison
`size > unsigned(len - offset)`. -/
def clamped (len size offset : Nat) : Nat :=
  if size > (len - offset) % 2 ^ 32 then len - offset else size

/-- The length `write` leaves, after its test `len < offset || size > unsigned(len - offset)`. -/
def newLen (len size offset : Nat) : Nat :=
  if len < offset ∨ size > (len - offset) % 2 ^ 32 then size + offset else len

/-- The buffer left by `write` of the first four bytes of "hello" at offset 0 on the empty
buffer, with `chunkSize = 4` and zero-filled fresh blocks. -/
def afterAlignedWrite : BigBuffer :=
  (run 4 [Op.write (mallocFill 0) (ofList hello) 4 0] empty).getD empty

/-- No chunk beyond the end: every slot that holds a block starts below `len`. -/
def NoStale (cs : Nat) (b : BigBuffer) : Prop :=
  ∀ j, j < b.chunks.size → b.chunks.slot j ≠ none → j * cs < b.len

/-- An entry stream whose every block but the last fills a whole chunk; the last block is
not empty and holds at most `cs` bytes. -/
def FullPulls (cs : Nat) : List (List Byte) → Prop
  | [] => True
  | [p] => 0 < p.length ∧ p.length ≤ cs
  | p :: q :: rest => p.length = cs ∧ FullPulls cs (q :: rest)

/-- The buffer left by `write("hello", 5, 0)` on the empty buffer, with `chunkSize = 4` and
fresh blocks filled with `0xaa`. -/
def afterHello : BigBuffer :=
  (run 4 [Op.write (mallocFill 170) (ofList hello) 5 0] empty).getD empty

/-- Slot `k` is the first slot of the range `[a, a + size)` that is `NULL` and for which
`malloc` fails: every `NULL` slot of the range before it gets a block. -/
def failsAt (cs : Nat) (malloc : Nat → Option Chunk) (v : ChunkVec) (a size k : Nat) : Prop :=
  touched cs a size k ∧ v.slot k = none ∧ malloc k = none ∧
    ∀ j, j < k → touched cs a size j → v.slot j = none → ∃ c, malloc j = some c

/-- Slot `j` of the vector holds a block (the chunk is present, materialized). -/
def Present (v : ChunkVec) (j : Nat) : Prop :=
  j < v.size ∧ v.slot j ≠ none

/-- The allocator that succeeds for the slots below `n`, with blocks filled with the byte
`g`, and fails for the others. -/
def mallocUpTo (n : Nat) (g : Byte) : Nat → Option Chunk :=
  fun k => if k < n then some fun _ => g else none

/-- A sequence of successful calls in which no `write` meets the 32-bit conversion with a
difference `len - offset` of `2^32` or more, and every `write` is made on a vector of
less than `2^32` slots. -/
def runNoWrap (cs : Nat) : List Op → BigBuffer → Option BigBuffer
  | [], b => some b
  | Op.write malloc buf size offset :: ops, b =>
    if b.len - offset < 2 ^ 32 ∧ b.chunks.size < 2 ^ 32 then
      match step cs b (Op.write malloc buf size offset) with
      | some b' => runNoWrap cs ops b'
      | none => none
    else none
  | Op.truncate offset :: ops, b =>
    match step cs b (Op.truncate offset) with
    | some b' => runNoWrap cs ops b'
    | none => none

/-- The states reachable from the empty buffer by such a sequence. -/
def ReachableNoWrap (cs : Nat) (b : BigBuffer) : Prop :=
  ∃ ops : List Op, runNoWrap cs ops empty = some b

/-- `enum zip_source_cmd` of `<zip.h>`. -/
inductive zip_source_cmd where
  | ZIP_SOURCE_OPEN
  | ZIP_SOURCE_READ
  | ZIP_SOURCE_CLOSE
  | ZIP_SOURCE_STAT
  | ZIP_SOURCE_ERROR
  | ZIP_SOURCE_FREE
  deriving DecidableEq

/-- `struct CallBackStruct`: the cursor `pos`, the buffer `buf` points to and, of the file
node, the modification time `fileNode->stat.mtime`. -/
structure CallBackStruct where
  pos : Nat
  buf : BigBuffer
  mtime : Int

/-- What a call of the callback stores at `data`: nothing, bytes, or the fields of a
`struct zip_stat` it sets after `zip_stat_init`. -/
inductive SourceData where
  | untouched
  | bytes (l : List Byte)
  | stat (size : Nat) (mtime : Int)
  deriving DecidableEq

/-- The outcome of a call of the callback: the state afterwards (`none` once it has been
deleted), the value returned and what was stored at `data`. -/
structure CallBackResult where
  state : Option CallBackStruct
  ret : Int
  data : SourceData

/-- `b->pos += r` for the `size_t` cursor and the `int` `r`. -/
def advance (pos : Nat) (r : Int) : Nat :=
  (((pos : Int) + r) % 2 ^ 64).toNat

/-- `BigBuffer::zipUserFunctionCallback(state, data, len, cmd)`.  `sizeofStat` is
`sizeof(struct zip_stat)`. -/
def zipUserFunctionCallback (cs : Nat) (sizeofStat : Int) (b : CallBackStruct) (len : Nat) :
    zip_source_cmd → Option CallBackResult
  | zip_source_cmd.ZIP_SOURCE_OPEN => some ⟨some { b with pos := 0 }, 0, SourceData.untouched⟩
  | zip_source_cmd.ZIP_SOURCE_READ =>
    match read cs b.buf len b.pos with
    | none => none
    | some r => some ⟨some { b with pos := advance b.pos r.ret }, r.ret, SourceData.bytes r.dst⟩
  | zip_source_cmd.ZIP_SOURCE_STAT =>
    some ⟨some b, sizeofStat, SourceData.stat b.buf.len b.mtime⟩
  | zip_source_cmd.ZIP_SOURCE_FREE => some ⟨none, 0, SourceData.untouched⟩
  | _ => some ⟨some b, 0, SourceData.untouched⟩

/-- The pull loop of the archive library on an opened source: `ZIP_SOURCE_READ` with
requests of `n` bytes until a call returns 0 or a negative code.  The result lists, for
every call made, the value returned and the bytes stored, and gives the cursor at the
end. -/
def pullLoop (cs : Nat) (sizeofStat : Int) (n : Nat) :
    Nat → CallBackStruct → Option (List (Int × List Byte) × Nat)
  | 0, _ => none
  | fuel + 1, b =>
    match zipUserFunctionCallback cs sizeofStat b n zip_source_cmd.ZIP_SOURCE_READ with
    | some ⟨some b', ret, SourceData.bytes l⟩ =>
      if ret > 0 then
        match pullLoop cs sizeofStat n fuel b' with
        | some (calls, pos) => some ((ret, l) :: calls, pos)
        | none => none
      else some ([(ret, l)], b'.pos)
    | _ => none

/-- `ZIP_SOURCE_OPEN` followed by the pull loop. -/
def drain (cs : Nat) (sizeofStat : Int) (n fuel : Nat) (b : CallBackStruct) :
    Option (List (Int × List Byte) × Nat) :=
  match zipUserFunctionCallback cs sizeofStat b 0 zip_source_cmd.ZIP_SOURCE_OPEN with
  | some ⟨some b', _, _⟩ => pullLoop cs sizeofStat n fuel b'
  | _ => none

/-! ## The copy loops on natural numbers

The two copy loops once more, with `chunk` and the byte counter as natural numbers and
without the limits of `int`.  They are not part of the model of the program.  They serve
in the proofs: `readLoop_of_nat`, `writeLoop_of_nat` and `writeLoop_to_nat` relate the
loops of the program to them. -/

/-- The loop of `read` on natural numbers. -/
def readLoopNat (cs : Nat) (v : ChunkVec) :
    Nat → Nat → Nat → Nat → Nat → List Byte → Option (Nat × List Byte)
  | 0, size, _, _, nread, dst => if size > 0 then none else some (nread, dst)
  | fuel + 1, size, chunk, pos, nread, dst =>
    if size > 0 then
      let r := if cs - pos > size then size else cs - pos
      match v.get? chunk with
      | none => none
      | some (some c) =>
        readLoopNat cs v fuel (size - r) (chunk + 1) 0 (nread + r) (dst ++ copyOut c pos r)
      | some none =>
        readLoopNat cs v fuel (size - r) (chunk + 1) 0 (nread + r) (dst ++ List.replicate r 0)
    else some (nread, dst)

/-- The loop of `write` on natural numbers; the result is the vector and either the number
of bytes counted or `-EIO`. -/
def writeLoopNat (cs : Nat) (malloc : Nat → Option Chunk) (buf : Nat → Byte) :
    Nat → Nat → Nat → Nat → Nat → Nat → ChunkVec → Option (ChunkVec × Int)
  | 0, size, _, _, nwritten, _, v => if size > 0 then none else some (v, nwritten)
  | fuel + 1, size, chunk, pos, nwritten, k, v =>
    if size > 0 then
      let w := if cs - pos > size then size else cs - pos
      match v.get? chunk with
      | none => none
      | some none =>
        match malloc chunk with
        | none => some (v, - EIO)
        | some c =>
          writeLoopNat cs malloc buf fuel (size - w) (chunk + 1) 0 (nwritten + w) (k + w)
            (v.set chunk (some (memcpy c pos buf k w)))
      | some (some c) =>
        writeLoopNat cs malloc buf fuel (size - w) (chunk + 1) 0 (nwritten + w) (k + w)
          (v.set chunk (some (memcpy c pos buf k w)))
    else some (v, nwritten)

end BigBuffer

/-!
FuseZipData (src/fuseZipData.cpp): the tree of file nodes and its life cycle.

The constructor and the destructor only sequence calls into the archive library, the C
library and the `FileNode` class; each is modelled by the list of the calls it makes, in
order.  What the called functions return is a parameter.
-/

namespace FuseZipData

/-- `ROOT_NODE_INDEX`. -/
def ROOT_NODE_INDEX : Int := -1

/-- A call made by the constructor or the destructor.  `newFileNode name index` is
`new FileNode(this, name, index)`, `setIsDir index` the assignment `is_dir = true` on the
node constructed with that index, `chdir none` the call `chdir(NULL)`, `deleteNode n` the
`delete` of the node `n` of the registry, `free_cwd` the call `free(m_cwd)`. -/
inductive Event where
  | newFileNode (name : Option String) (index : Int)
  | setIsDir (index : Int)
  | zip_get_num_files
  | zip_get_name (index : Int)
  | chdir (path : Option String)
  | getenv (name : String)
  | syslog (format : String)
  | zip_close
  | zip_strerror
  | deleteNode (node : Nat)
  | free_cwd
  deriving DecidableEq

/-- The loop `for (int i = 0; i < n; ++i)` of `build_tree`, from `i` on.  `name i` is what
`zip_get_name(m_zip, i, 0)` returns. -/
def buildLoop (n : Int) (name : Int → Option String) : Nat → Int → List Event
  | 0, _ => []
  | fuel + 1, i =>
    if i < n then
      Event.zip_get_name i :: Event.newFileNode (name i) i :: buildLoop n name fuel (i + 1)
    else []

/-- `FuseZipData::build_tree()`.  `n` is what `zip_get_num_files(m_zip)` returns. -/
def build_tree (n : Int) (name : Int → Option String) : List Event :=
  Event.newFileNode (some "") ROOT_NODE_INDEX :: Event.setIsDir ROOT_NODE_INDEX ::
    Event.zip_get_num_files :: buildLoop n name n.toNat 0

set_option linter.dupNamespace false in
/-- `FuseZipData::FuseZipData(z, cwd)`: the calls made and the exception thrown, if any.
`cwd = none` is the null pointer. -/
def FuseZipData (cwd : Option String) (n : Int) (name : Int → Option String) :
    List Event × Option BigBuffer.CtorExn :=
  match cwd with
  | none => ([], some BigBuffer.CtorExn.bad_alloc)
  | some _ => (build_tree n name, none)

/-- The format of the message logged when the first `chdir` fails. -/
def msgChdir : String :=
  "Unable to chdir() to archive directory %s. Trying to save file into /tmp"

/-- The format of the message logged when `zip_close` fails. -/
def msgClose : String := "Error while closing archive: %s"

/-- `FuseZipData::~FuseZipData()`.  `tmp` is what `getenv("TMP")` returns (`none` when the
variable is unset), `chdirRes k` what the `k`-th `chdir` call returns, `closeRes` what
`zip_close` returns, `files` the nodes of the registry in iteration order. -/
def destroy (cwd : String) (tmp : Option String) (chdirRes : Nat → Int) (closeRes : Int)
    (files : List Nat) : List Event :=
  (Event.chdir (some cwd) ::
    (if chdirRes 0 ≠ 0 then
      Event.syslog msgChdir :: Event.getenv "TMP" :: Event.chdir tmp ::
        (if chdirRes 1 ≠ 0 then [Event.chdir (some "/tmp")] else [])
    else [])) ++
  (Event.zip_close ::
    (if closeRes ≠ 0 then [Event.zip_strerror, Event.syslog msgClose] else [])) ++
  files.map Event.deleteNode ++ [Event.free_cwd]

/-- The nodes constructed by a sequence of calls, in order: name and index. -/
def nodesOf : List Event → List (Option String × Int)
  | [] => []
  | Event.newFileNode name index :: es => (name, index) :: nodesOf es
  | _ :: es => nodesOf es

/-- The call is a `chdir`. -/
def isChdir : Event → Bool
  | Event.chdir _ => true
  | _ => false

/-- The call is a `syslog`. -/
def isSyslog : Event → Bool
  | Event.syslog _ => true
  | _ => false

/-- The call releases a node. -/
def isDelete : Event → Bool
  | Event.deleteNode _ => true
  | _ => false

end FuseZipData

namespace BigBuffer

/-! ## Arithmetic on chunk coordinates -/

theorem mul_succ_le_of_lt {j c : Nat} (cs : Nat) (h : j < c) : j * cs + cs ≤ c * cs := by
  have h1 : (j + 1) * cs ≤ c * cs := Nat.mul_le_mul_right cs h
  rw [Nat.add_mul, Nat.one_mul] at h1
  exact h1

theorem lt_of_mul_lt (cs : Nat) {j n : Nat} (h : j * cs < n * cs) : j < n :=
  Nat.lt_of_mul_lt_mul_right h

theorem div_of_coord {cs j i : Nat} (h : i < cs) : (j * cs + i) / cs = j := by
  have hcs : 0 < cs := by omega
  rw [Nat.mul_comm, Nat.mul_add_div hcs, Nat.div_eq_of_lt h, Nat.add_zero]

theorem mod_of_coord {cs j i : Nat} (h : i < cs) : (j * cs + i) % cs = i := by
  rw [Nat.mul_comm, Nat.mul_add_mod, Nat.mod_eq_of_lt h]

theorem coord_of_pos (cs p : Nat) : p / cs * cs + p % cs = p := by
  rw [Nat.mul_comm]
  exact Nat.div_add_mod p cs


/-! ## The 32-bit integers of the source -/

theorem toInt32_of_range {x : Int} (h1 : -2147483648 ≤ x) (h2 : x < 2147483648) :
    toInt32 x = x := by
  unfold toInt32
  omega

theorem toInt32_natCast {n : Nat} (h : n < 2 ^ 31) : toInt32 (n : Int) = (n : Int) := by
  unfold toInt32
  omega

theorem toInt32_range (x : Int) : -2147483648 ≤ toInt32 x ∧ toInt32 x < 2147483648 := by
  unfold toInt32
  omega

theorem toInt32_idem (x : Int) : toInt32 (toInt32 x) = toInt32 x := by
  unfold toInt32
  omega

theorem toInt32_add_left (a b : Int) : toInt32 (toInt32 a + b) = toInt32 (a + b) := by
  unfold toInt32
  omega

theorem toInt32_nonneg {n : Nat} (h : n % 2 ^ 32 < 2 ^ 31) :
    toInt32 (n : Int) = ((n % 2 ^ 32 : Nat) : Int) := by
  unfold toInt32
  omega

theorem toUInt32_of_lt {n : Nat} (h : n < 2 ^ 32) : toUInt32 n = n :=
  Nat.mod_eq_of_lt h

theorem getInt?_natCast (v : ChunkVec) (i : Nat) : v.getInt? (i : Int) = v.get? i := by
  simp [ChunkVec.getInt?]

theorem getInt?_neg (v : ChunkVec) {i : Int} (h : i < 0) : v.getInt? i = none := by
  have h' : ¬ 0 ≤ i := by omega
  simp [ChunkVec.getInt?, h']

/-! ## The slot loop of `write` -/

theorem extendLoop_spec (bound : Nat) (hb : bound + 1 < 2 ^ 32) :
    ∀ (fuel i : Nat) (v : ChunkVec), i = v.size → bound + 1 - i ≤ fuel →
      ∃ v', extendLoop bound fuel i v = some v' ∧
        v'.size = max v.size (bound + 1) ∧
        (∀ j, j < v.size → v'.slot j = v.slot j) ∧
        (∀ j, v.size ≤ j → j < v'.size → v'.slot j = none) := by
  intro fuel
  induction fuel with
  | zero =>
    intro i v hi hf
    have hle : ¬ i ≤ bound := by omega
    refine ⟨v, by simp only [extendLoop, if_neg hle], by omega, fun _ _ => rfl, ?_⟩
    intro j h1 h2
    omega
  | succ fuel ih =>
    intro i v hi hf
    by_cases hle : i ≤ bound
    · simp only [extendLoop, if_pos hle]
      have hw : toUInt32 (i + 1) = i + 1 := toUInt32_of_lt (by omega)
      rw [hw]
      obtain ⟨v', h0, h1, h2, h3⟩ :=
        ih (i + 1) (v.push_back none) (by simp [ChunkVec.push_back, hi]) (by omega)
      have hs : (v.push_back none).size = v.size + 1 := rfl
      rw [hs] at h1 h2 h3
      refine ⟨v', h0, by rw [h1]; omega, ?_, ?_⟩
      · intro j hj
        rw [h2 j (by omega)]
        simp [ChunkVec.push_back, Nat.ne_of_lt hj]
      · intro j hj1 hj2
        rcases Nat.eq_or_lt_of_le hj1 with heq | hlt
        · rw [h2 j (by omega)]
          simp [ChunkVec.push_back, heq]
        · exact h3 j (by omega) hj2
    · refine ⟨v, by simp only [extendLoop, if_neg hle], by omega, fun _ _ => rfl, ?_⟩
      intro j h1 h2
      omega

/-- When the slot loop ends, the vector has grown beyond `bound`, its old slots are
unchanged and the slots added are `NULL`. -/
theorem extendLoop_sound (bound : Nat) :
    ∀ (fuel i : Nat) (v v' : ChunkVec), extendLoop bound fuel i v = some v' →
      i = v.size % 2 ^ 32 →
      v.size ≤ v'.size ∧ bound < v'.size ∧
        (∀ j, j < v.size → v'.slot j = v.slot j) ∧
        (∀ j, v.size ≤ j → j < v'.size → v'.slot j = none) := by
  intro fuel
  induction fuel with
  | zero =>
    intro i v v' h hi
    simp only [extendLoop] at h
    split at h
    · exact absurd h (by simp)
    · simp only [Option.some.injEq] at h
      subst h
      have := Nat.mod_le v.size (2 ^ 32)
      exact ⟨Nat.le_refl _, by omega, fun _ _ => rfl, fun j h1 h2 => by omega⟩
  | succ fuel ih =>
    intro i v v' h hi
    simp only [extendLoop] at h
    split at h
    · have hs : (v.push_back none).size = v.size + 1 := rfl
      obtain ⟨h0, h1, h2, h3⟩ := ih _ _ _ h (by rw [hs, hi]; unfold toUInt32; omega)
      rw [hs] at h0 h2 h3
      refine ⟨by omega, h1, ?_, ?_⟩
      · intro j hj
        rw [h2 j (by omega)]
        simp [ChunkVec.push_back, Nat.ne_of_lt hj]
      · intro j hj1 hj2
        rcases Nat.eq_or_lt_of_le hj1 with heq | hlt
        · rw [h2 j (by omega)]
          simp [ChunkVec.push_back, heq]
        · exact h3 j (by omega) hj2
    · simp only [Option.some.injEq] at h
      subst h
      have := Nat.mod_le v.size (2 ^ 32)
      exact ⟨Nat.le_refl _, by omega, fun _ _ => rfl, fun j h1 h2 => by omega⟩

/-- For `bound ≥ 2^32 - 1` the slot loop does not end. -/
theorem extendLoop_none (bound : Nat) (hb : 2 ^ 32 - 1 ≤ bound) :
    ∀ (fuel i : Nat) (v : ChunkVec), i < 2 ^ 32 → extendLoop bound fuel i v = none := by
  intro fuel
  induction fuel with
  | zero =>
    intro i v hi
    have hle : i ≤ bound := by omega
    simp only [extendLoop, if_pos hle]
  | succ fuel ih =>
    intro i v hi
    have hle : i ≤ bound := by omega
    simp only [extendLoop, if_pos hle]
    exact ih _ _ (Nat.mod_lt _ (by decide))

/-- When the slot loop ends on a vector of less than `2^32` slots, the vector has
`max(old count, bound + 1)` slots. -/
theorem extendLoop_size (bound : Nat) :
    ∀ (fuel i : Nat) (v v' : ChunkVec), extendLoop bound fuel i v = some v' →
      i = v.size → v.size < 2 ^ 32 → v'.size = max v.size (bound + 1) := by
  intro fuel
  induction fuel with
  | zero =>
    intro i v v' h hi hv
    simp only [extendLoop] at h
    split at h
    · exact absurd h (by simp)
    · simp only [Option.some.injEq] at h
      subst h
      omega
  | succ fuel ih =>
    intro i v v' h hi hv
    simp only [extendLoop] at h
    split at h
    · rename_i hle
      have hs : (v.push_back none).size = v.size + 1 := rfl
      by_cases hw : i + 1 < 2 ^ 32
      · rw [toUInt32_of_lt hw] at h
        have := ih _ _ _ h (by rw [hs, hi]) (by rw [hs]; omega)
        rw [hs] at this
        omega
      · have hnone := extendLoop_none bound (by omega) fuel (toUInt32 (i + 1))
          (v.push_back none) (Nat.mod_lt _ (by decide))
        rw [hnone] at h
        exact absurd h (by simp)
    · simp only [Option.some.injEq] at h
      subst h
      omega

theorem extended_of_some {cs : Nat} {v v1 : ChunkVec} {size offset : Nat}
    (h : extendLoop ((offset + size) / cs) ((offset + size) / cs + 1) (toUInt32 v.size) v
      = some v1) : extended cs v size offset = v1 := by
  simp only [extended, h, Option.getD_some]

/-- For `bound + 1 < 2^32` the slot loop ends, whatever the vector. -/
theorem extendLoop_ends (bound : Nat) (hb : bound + 1 < 2 ^ 32) :
    ∀ (fuel i : Nat) (v : ChunkVec), bound + 1 - i ≤ fuel →
      ∃ v', extendLoop bound fuel i v = some v' := by
  intro fuel
  induction fuel with
  | zero =>
    intro i v hf
    have hle : ¬ i ≤ bound := by omega
    exact ⟨v, by simp only [extendLoop, if_neg hle]⟩
  | succ fuel ih =>
    intro i v hf
    by_cases hle : i ≤ bound
    · simp only [extendLoop, if_pos hle]
      rw [toUInt32_of_lt (by omega)]
      exact ih (i + 1) _ (by omega)
    · exact ⟨v, by simp only [extendLoop, if_neg hle]⟩

/-- The slot loop of `write` ends when the last slot index asked for is below
`2^32 - 1`. -/
theorem extendLoop_extended (cs : Nat) (v : ChunkVec) (size offset : Nat)
    (hb : (offset + size) / cs + 1 < 2 ^ 32) :
    extendLoop ((offset + size) / cs) ((offset + size) / cs + 1) (toUInt32 v.size) v
      = some (extended cs v size offset) := by
  obtain ⟨v', h⟩ := extendLoop_ends ((offset + size) / cs) hb ((offset + size) / cs + 1)
    (toUInt32 v.size) v (Nat.sub_le _ _)
  rw [extended_of_some h, h]

theorem extended_size (cs : Nat) (v : ChunkVec) (size offset : Nat)
    (hb : (offset + size) / cs + 1 < 2 ^ 32) (hv : v.size < 2 ^ 32) :
    (extended cs v size offset).size = max v.size ((offset + size) / cs + 1) :=
  extendLoop_size _ _ _ _ _ (extendLoop_extended cs v size offset hb) (toUInt32_of_lt hv) hv

theorem extended_slot_old (cs : Nat) (v : ChunkVec) (size offset j : Nat) (h : j < v.size) :
    (extended cs v size offset).slot j = v.slot j := by
  cases hx : extendLoop ((offset + size) / cs) ((offset + size) / cs + 1) (toUInt32 v.size) v with
  | none => simp only [extended, hx, Option.getD_none]
  | some v1 =>
    rw [extended_of_some hx]
    exact (extendLoop_sound _ _ _ _ _ hx rfl).2.2.1 j h

theorem extended_slot_new (cs : Nat) (v : ChunkVec) (size offset j : Nat) (h1 : v.size ≤ j)
    (h2 : j < (extended cs v size offset).size) :
    (extended cs v size offset).slot j = none := by
  cases hx : extendLoop ((offset + size) / cs) ((offset + size) / cs + 1) (toUInt32 v.size) v with
  | none =>
    simp only [extended, hx, Option.getD_none] at h2
    omega
  | some v1 =>
    rw [extended_of_some hx] at h2 ⊢
    exact (extendLoop_sound _ _ _ _ _ hx rfl).2.2.2 j h1 h2

theorem extended_size_le (cs : Nat) (v : ChunkVec) (size offset : Nat) :
    v.size ≤ (extended cs v size offset).size := by
  cases hx : extendLoop ((offset + size) / cs) ((offset + size) / cs + 1) (toUInt32 v.size) v with
  | none => simp only [extended, hx, Option.getD_none]; exact Nat.le_refl _
  | some v1 =>
    rw [extended_of_some hx]
    exact (extendLoop_sound _ _ _ _ _ hx rfl).1

/-- When the slot loop ends, the vector reaches beyond `offset + size`. -/
theorem extended_covers {cs : Nat} (hcs : 0 < cs) {v v1 : ChunkVec} {size offset : Nat}
    (h : extendLoop ((offset + size) / cs) ((offset + size) / cs + 1) (toUInt32 v.size) v
      = some v1) :
    offset + size < (extended cs v size offset).size * cs := by
  rw [extended_of_some h]
  exact (Nat.div_lt_iff_lt_mul hcs).1 (extendLoop_sound _ _ _ _ _ h rfl).2.1

/-! ## The copy loops on natural numbers -/

theorem writeLoopNat_size (cs : Nat) (malloc : Nat → Option Chunk) (buf : Nat → Byte) :
    ∀ (fuel size chunk pos nwritten k : Nat) (v v' : ChunkVec) (ret : Int),
      writeLoopNat cs malloc buf fuel size chunk pos nwritten k v = some (v', ret) →
      v'.size = v.size := by
  intro fuel
  induction fuel with
  | zero =>
    intro size chunk pos nwritten k v v' ret h
    simp only [writeLoopNat] at h
    split at h
    · exact absurd h (by simp)
    · simp only [Option.some.injEq, Prod.mk.injEq] at h
      rw [← h.1]
  | succ fuel ih =>
    intro size chunk pos nwritten k v v' ret h
    simp only [writeLoopNat] at h
    split at h
    · split at h
      · exact absurd h (by simp)
      · split at h
        · simp only [Option.some.injEq, Prod.mk.injEq] at h
          rw [← h.1]
        · exact (ih _ _ _ _ _ _ _ _ h).trans rfl
      · exact (ih _ _ _ _ _ _ _ _ h).trans rfl
    · simp only [Option.some.injEq, Prod.mk.injEq] at h
      rw [← h.1]

theorem writeLoopNat_unfold {cs : Nat} (malloc : Nat → Option Chunk) (buf : Nat → Byte)
    (fuel size chunk pos nwritten k : Nat) (v : ChunkVec) (c0 : Chunk)
    (hs : 0 < size) (hin : chunk < v.size) (hb : baseOf malloc v chunk c0) :
    writeLoopNat cs malloc buf (fuel + 1) size chunk pos nwritten k v =
      writeLoopNat cs malloc buf fuel (size - if cs - pos > size then size else cs - pos)
        (chunk + 1) 0 (nwritten + if cs - pos > size then size else cs - pos)
        (k + if cs - pos > size then size else cs - pos)
        (v.set chunk (some (memcpy c0 pos buf k
          (if cs - pos > size then size else cs - pos)))) := by
  have hs' : size > 0 := hs
  rcases hb with h | ⟨h1, h2⟩
  · simp only [writeLoopNat, if_pos hs', ChunkVec.get?, if_pos hin, h]
  · simp only [writeLoopNat, if_pos hs', ChunkVec.get?, if_pos hin, h1, h2]

theorem writeLoopNat_spec {cs : Nat} (hcs : 0 < cs) (malloc : Nat → Option Chunk)
    (buf : Nat → Byte) :
    ∀ (fuel size chunk pos nwritten k : Nat) (v : ChunkVec),
      size ≤ fuel → pos < cs → chunk * cs + pos + size ≤ v.size * cs →
      (∀ j, touched cs (chunk * cs + pos) size j → v.slot j = none → ∃ c, malloc j = some c) →
      ∃ v', writeLoopNat cs malloc buf fuel size chunk pos nwritten k v
            = some (v', ((nwritten + size : Nat) : Int)) ∧
        v'.size = v.size ∧
        (∀ j, ¬ touched cs (chunk * cs + pos) size j → v'.slot j = v.slot j) ∧
        (∀ j, touched cs (chunk * cs + pos) size j →
          ∃ c0 c', baseOf malloc v j c0 ∧ v'.slot j = some c' ∧
            ∀ i, i < cs → c' i =
              if chunk * cs + pos ≤ j * cs + i ∧ j * cs + i < chunk * cs + pos + size
              then buf (k + (j * cs + i - (chunk * cs + pos))) else c0 i) := by
  intro fuel
  induction fuel with
  | zero =>
    intro size chunk pos nwritten k v hf _ _ _
    have h0 : size = 0 := by omega
    subst h0
    refine ⟨v, by simp [writeLoopNat], rfl, fun _ _ => rfl, ?_⟩
    intro j hj
    exact absurd hj.1 (by omega)
  | succ fuel ih =>
    intro size chunk pos nwritten k v hf hpos hin hm
    by_cases hs : 0 < size
    · -- one round of the loop
      have hchunk : chunk < v.size := by
        apply lt_of_mul_lt cs
        omega
      have htc : touched cs (chunk * cs + pos) size chunk := ⟨hs, by omega, by omega⟩
      have hb : ∃ c0, baseOf malloc v chunk c0 := by
        cases hsl : v.slot chunk with
        | none =>
          obtain ⟨c, hc⟩ := hm chunk htc hsl
          exact ⟨c, Or.inr ⟨hsl, hc⟩⟩
        | some c => exact ⟨c, Or.inl hsl⟩
      obtain ⟨c0, hc0⟩ := hb
      rw [writeLoopNat_unfold malloc buf fuel size chunk pos nwritten k v c0 hs hchunk hc0]
      generalize hw : (if cs - pos > size then size else cs - pos) = w
      have hwv : (cs - pos > size ∧ w = size) ∨ (¬ cs - pos > size ∧ w = cs - pos) := by
        by_cases hgt : cs - pos > size
        · rw [if_pos hgt] at hw; exact Or.inl ⟨hgt, hw.symm⟩
        · rw [if_neg hgt] at hw; exact Or.inr ⟨hgt, hw.symm⟩
      clear hw
      have hw1 : w ≤ size := by omega
      have hw2 : w ≤ cs - pos := by omega
      have hw3 : 0 < w := by omega
      have hw4 : w < size → w = cs - pos := by omega
      clear hwv
      have hsucc : (chunk + 1) * cs = chunk * cs + cs := by
        rw [Nat.add_mul, Nat.one_mul]
      have hvs : chunk * cs + cs ≤ v.size * cs := mul_succ_le_of_lt cs hchunk
      have hsub : ∀ j, touched cs ((chunk + 1) * cs + 0) (size - w) j →
          touched cs (chunk * cs + pos) size j ∧ chunk < j := by
        intro j ⟨h1, h2, h3⟩
        rw [hsucc] at h2 h3
        have hw5 := hw4 (by omega)
        have hcj : chunk < j := by
          rcases Nat.lt_or_ge chunk j with h | h
          · exact h
          · rcases Nat.eq_or_lt_of_le h with h | h
            · subst h; omega
            · have := mul_succ_le_of_lt cs h; omega
        exact ⟨⟨hs, by omega, by omega⟩, hcj⟩
      obtain ⟨v', hv1, hv2, hv3, hv4⟩ :=
        ih (size - w) (chunk + 1) 0 (nwritten + w) (k + w)
          (v.set chunk (some (memcpy c0 pos buf k w))) (by omega) hcs
          (by
            show (chunk + 1) * cs + 0 + (size - w) ≤ v.size * cs
            rw [hsucc]
            rcases Nat.eq_or_lt_of_le hw1 with h | h
            · omega
            · have := hw4 h; omega)
          (by
            intro j hj hnone
            have hj' := hsub j hj
            have hne : j ≠ chunk := by omega
            simp only [ChunkVec.set, if_neg hne] at hnone
            exact hm j hj'.1 hnone)
      refine ⟨v', ?_, ?_, ?_, ?_⟩
      · rw [hv1]
        have : nwritten + w + (size - w) = nwritten + size := by omega
        rw [this]
      · rw [hv2]; rfl
      · intro j hj
        have hne : j ≠ chunk := fun h => hj (h ▸ htc)
        have hnt : ¬ touched cs ((chunk + 1) * cs + 0) (size - w) j :=
          fun h => hj (hsub j h).1
        rw [hv3 j hnt]
        simp only [ChunkVec.set, if_neg hne]
      · intro j hj
        by_cases hjc : j = chunk
        · subst hjc
          have hnt : ¬ touched cs ((j + 1) * cs + 0) (size - w) j := by
            intro ⟨_, h2, _⟩
            rw [hsucc] at h2
            omega
          refine ⟨c0, memcpy c0 pos buf k w, hc0, ?_, ?_⟩
          · rw [hv3 j hnt]
            simp [ChunkVec.set]
          · intro i hi
            simp only [memcpy]
            by_cases hc : pos ≤ i ∧ i < pos + w
            · have hc' : j * cs + pos ≤ j * cs + i ∧ j * cs + i < j * cs + pos + size := by
                omega
              rw [if_pos hc, if_pos hc']
              congr 1
              omega
            · have hc' : ¬ (j * cs + pos ≤ j * cs + i ∧ j * cs + i < j * cs + pos + size) := by
                intro h
                apply hc
                rcases Nat.eq_or_lt_of_le hw1 with h' | h'
                · omega
                · have := hw4 h'; omega
              rw [if_neg hc, if_neg hc']
        · have hcj : chunk < j := by
            obtain ⟨_, h2, _⟩ := hj
            rcases Nat.lt_or_ge chunk j with h | h
            · exact h
            · rcases Nat.eq_or_lt_of_le h with h | h
              · exact absurd h hjc
              · have := mul_succ_le_of_lt cs h; omega
          have hjcs : chunk * cs + cs ≤ j * cs := mul_succ_le_of_lt cs hcj
          have hw5 : w = cs - pos := by
            apply hw4
            obtain ⟨_, _, h3⟩ := hj
            omega
          have ht : touched cs ((chunk + 1) * cs + 0) (size - w) j := by
            obtain ⟨_, h2, h3⟩ := hj
            refine ⟨by omega, ?_, ?_⟩ <;> rw [hsucc] <;> omega
          obtain ⟨c1, c', hb1, hsl, hbytes⟩ := hv4 j ht
          refine ⟨c1, c', ?_, hsl, ?_⟩
          · simpa only [baseOf, ChunkVec.set, if_neg hjc] using hb1
          · intro i hi
            rw [hbytes i hi, hsucc]
            by_cases hc : chunk * cs + pos ≤ j * cs + i ∧ j * cs + i < chunk * cs + pos + size
            · have hc' : chunk * cs + cs + 0 ≤ j * cs + i ∧
                  j * cs + i < chunk * cs + cs + 0 + (size - w) := by omega
              rw [if_pos hc, if_pos hc']
              congr 1
              omega
            · have hc' : ¬ (chunk * cs + cs + 0 ≤ j * cs + i ∧
                  j * cs + i < chunk * cs + cs + 0 + (size - w)) := by
                intro h; apply hc; omega
              rw [if_neg hc, if_neg hc']
    · have h0 : size = 0 := by omega
      subst h0
      refine ⟨v, by simp [writeLoopNat], rfl, fun _ _ => rfl, ?_⟩
      intro j hj
      exact absurd hj.1 (by omega)

theorem range_map_split {α : Type} (f : Nat → α) (r n : Nat) (h : r ≤ n) :
    (List.range n).map f = (List.range r).map f ++ (List.range (n - r)).map fun t => f (r + t) := by
  have hn : n = r + (n - r) := by omega
  conv => lhs; rw [hn, List.range_add, List.map_append, List.map_map]
  rfl

theorem readLoopNat_spec {cs : Nat} (hcs : 0 < cs) (v : ChunkVec) :
    ∀ (fuel size chunk pos nread : Nat) (dst : List Byte),
      size ≤ fuel → pos < cs → chunk * cs + pos + size ≤ v.size * cs →
      readLoopNat cs v fuel size chunk pos nread dst =
        some (nread + size,
          dst ++ (List.range size).map fun t => byteAt cs v (chunk * cs + pos + t)) := by
  intro fuel
  induction fuel with
  | zero =>
    intro size chunk pos nread dst hf _ _
    have h0 : size = 0 := by omega
    subst h0
    simp [readLoopNat]
  | succ fuel ih =>
    intro size chunk pos nread dst hf hpos hin
    by_cases hs : 0 < size
    · have hs' : size > 0 := hs
      have hchunk : chunk < v.size := by
        apply lt_of_mul_lt cs
        omega
      have hsucc : (chunk + 1) * cs = chunk * cs + cs := by
        rw [Nat.add_mul, Nat.one_mul]
      have hvs : chunk * cs + cs ≤ v.size * cs := mul_succ_le_of_lt cs hchunk
      generalize hw : (if cs - pos > size then size else cs - pos) = r at *
      have hwv : (cs - pos > size ∧ r = size) ∨ (¬ cs - pos > size ∧ r = cs - pos) := by
        by_cases hgt : cs - pos > size
        · rw [if_pos hgt] at hw; exact Or.inl ⟨hgt, hw.symm⟩
        · rw [if_neg hgt] at hw; exact Or.inr ⟨hgt, hw.symm⟩
      have hw1 : r ≤ size := by omega
      have hw2 : r ≤ cs - pos := by omega
      have hw4 : r < size → r = cs - pos := by omega
      have hrec := ih (size - r) (chunk + 1) 0 (nread + r)
      have hin' : (chunk + 1) * cs + 0 + (size - r) ≤ v.size * cs := by
        rw [hsucc]
        rcases Nat.eq_or_lt_of_le hw1 with h | h
        · omega
        · have := hw4 h; omega
      -- the bytes of this round
      have hfirst : ∀ blk : List Byte,
          (blk = match v.slot chunk with
            | some c => copyOut c pos r
            | none => List.replicate r 0) →
          blk = (List.range r).map fun t => byteAt cs v (chunk * cs + pos + t) := by
        intro blk hblk
        rw [hblk]
        cases hsl : v.slot chunk with
        | none =>
          simp only
          apply List.ext_getElem
          · simp
          · intro n h1 h2
            simp only [List.length_replicate] at h1
            have hd : (chunk * cs + pos + n) / cs = chunk := by
              rw [Nat.add_assoc]; exact div_of_coord (by omega)
            simp [byteAt, hd, hsl]
        | some c =>
          simp only [copyOut]
          apply List.map_congr_left
          intro t ht
          have ht' : t < r := List.mem_range.1 ht
          have hd : (chunk * cs + pos + t) / cs = chunk := by
            rw [Nat.add_assoc]; exact div_of_coord (by omega)
          have hm : (chunk * cs + pos + t) % cs = pos + t := by
            rw [Nat.add_assoc]; exact mod_of_coord (by omega)
          simp [byteAt, hd, hm, hsl]
      have hrest : ((List.range (size - r)).map fun t => byteAt cs v ((chunk + 1) * cs + 0 + t))
          = (List.range (size - r)).map fun t => byteAt cs v (chunk * cs + pos + (r + t)) := by
        apply List.map_congr_left
        intro t ht
        have ht' : t < size - r := List.mem_range.1 ht
        have := hw4 (by omega)
        rw [hsucc]
        congr 1
        omega
      have hsum : nread + r + (size - r) = nread + size := by omega
      rw [range_map_split (fun t => byteAt cs v (chunk * cs + pos + t)) r size hw1]
      simp only [readLoopNat, if_pos hs', ChunkVec.get?, if_pos hchunk, hw]
      cases hsl : v.slot chunk with
      | none =>
        simp only
        rw [hrec _ (by omega) hcs hin', hrest, hsum, List.append_assoc]
        rw [hfirst (List.replicate r 0) (by rw [hsl])]
      | some c =>
        simp only
        rw [hrec _ (by omega) hcs hin', hrest, hsum, List.append_assoc]
        rw [hfirst (copyOut c pos r) (by rw [hsl])]
    · have h0 : size = 0 := by omega
      subst h0
      simp [readLoopNat]

theorem writeLoopNat_total {cs : Nat} (hcs : 0 < cs) (malloc : Nat → Option Chunk)
    (buf : Nat → Byte) :
    ∀ (fuel size chunk pos nwritten k : Nat) (v : ChunkVec),
      size ≤ fuel → pos < cs → chunk * cs + pos + size ≤ v.size * cs →
      ∃ v' ret, writeLoopNat cs malloc buf fuel size chunk pos nwritten k v = some (v', ret) := by
  intro fuel
  induction fuel with
  | zero =>
    intro size chunk pos nwritten k v hf _ _
    have h0 : size = 0 := by omega
    subst h0
    exact ⟨v, (nwritten : Int), by simp [writeLoopNat]⟩
  | succ fuel ih =>
    intro size chunk pos nwritten k v hf hpos hin
    by_cases hs : 0 < size
    · have hs' : size > 0 := hs
      have hchunk : chunk < v.size := by
        apply lt_of_mul_lt cs
        omega
      have hsucc : (chunk + 1) * cs = chunk * cs + cs := by
        rw [Nat.add_mul, Nat.one_mul]
      have hvs : chunk * cs + cs ≤ v.size * cs := mul_succ_le_of_lt cs hchunk
      have hrec : ∀ c : Chunk, ∃ v' ret,
          writeLoopNat cs malloc buf fuel (size - if cs - pos > size then size else cs - pos)
            (chunk + 1) 0 (nwritten + if cs - pos > size then size else cs - pos)
            (k + if cs - pos > size then size else cs - pos)
            (v.set chunk (some (memcpy c pos buf k
              (if cs - pos > size then size else cs - pos)))) = some (v', ret) := by
        intro c
        apply ih
        · split <;> omega
        · exact hcs
        · show (chunk + 1) * cs + 0 + _ ≤ v.size * cs
          rw [hsucc]
          split <;> omega
      simp only [writeLoopNat, if_pos hs', ChunkVec.get?, if_pos hchunk]
      cases v.slot chunk with
      | none =>
        simp only
        cases malloc chunk with
        | none => exact ⟨v, _, rfl⟩
        | some c => exact hrec c
      | some c => exact hrec c
    · have h0 : size = 0 := by omega
      subst h0
      exact ⟨v, (nwritten : Int), by simp [writeLoopNat]⟩

theorem writeLoopNat_fail {cs : Nat} (hcs : 0 < cs) (malloc : Nat → Option Chunk)
    (buf : Nat → Byte) :
    ∀ (fuel size chunk pos nwritten k : Nat) (v : ChunkVec) (kf : Nat),
      size ≤ fuel → pos < cs → chunk * cs + pos + size ≤ v.size * cs →
      failsAt cs malloc v (chunk * cs + pos) size kf →
      ∃ v', writeLoopNat cs malloc buf fuel size chunk pos nwritten k v = some (v', - EIO) ∧
        v'.size = v.size ∧
        (∀ j, (¬ touched cs (chunk * cs + pos) size j ∨ kf ≤ j) → v'.slot j = v.slot j) ∧
        (∀ j, touched cs (chunk * cs + pos) size j → j < kf →
          ∃ c0 c', baseOf malloc v j c0 ∧ v'.slot j = some c' ∧
            ∀ i, i < cs → c' i =
              if chunk * cs + pos ≤ j * cs + i ∧ j * cs + i < chunk * cs + pos + size
              then buf (k + (j * cs + i - (chunk * cs + pos))) else c0 i) := by
  intro fuel
  induction fuel with
  | zero =>
    intro size chunk pos nwritten k v kf hf _ _ hfail
    exact absurd hfail.1.1 (by omega)
  | succ fuel ih =>
    intro size chunk pos nwritten k v kf hf hpos hin hfail
    obtain ⟨hkt, hknone, hkm, hkfirst⟩ := hfail
    have hs : 0 < size := hkt.1
    have hs' : size > 0 := hs
    have hchunk : chunk < v.size := by
      apply lt_of_mul_lt cs
      omega
    have htc : touched cs (chunk * cs + pos) size chunk := ⟨hs, by omega, by omega⟩
    have hck : chunk ≤ kf := by
      rcases Nat.lt_or_ge kf chunk with h | h
      · have := mul_succ_le_of_lt cs h
        obtain ⟨_, h2, _⟩ := hkt
        omega
      · exact h
    rcases Nat.eq_or_lt_of_le hck with heq | hlt
    · -- the allocation for this slot fails
      subst heq
      refine ⟨v, ?_, rfl, fun _ _ => rfl, ?_⟩
      · simp only [writeLoopNat, if_pos hs', ChunkVec.get?, if_pos hchunk, hknone, hkm]
      · intro j hj hjk
        have := mul_succ_le_of_lt cs hjk
        obtain ⟨_, h2, _⟩ := hj
        omega
    · -- one round of the loop, the failure comes later
      have hb : ∃ c0, baseOf malloc v chunk c0 := by
        cases hsl : v.slot chunk with
        | none =>
          obtain ⟨c, hc⟩ := hkfirst chunk hlt htc hsl
          exact ⟨c, Or.inr ⟨hsl, hc⟩⟩
        | some c => exact ⟨c, Or.inl hsl⟩
      obtain ⟨c0, hc0⟩ := hb
      rw [writeLoopNat_unfold malloc buf fuel size chunk pos nwritten k v c0 hs hchunk hc0]
      generalize hw : (if cs - pos > size then size else cs - pos) = w
      have hwv : (cs - pos > size ∧ w = size) ∨ (¬ cs - pos > size ∧ w = cs - pos) := by
        by_cases hgt : cs - pos > size
        · rw [if_pos hgt] at hw; exact Or.inl ⟨hgt, hw.symm⟩
        · rw [if_neg hgt] at hw; exact Or.inr ⟨hgt, hw.symm⟩
      clear hw
      have hw1 : w ≤ size := by omega
      have hw2 : w ≤ cs - pos := by omega
      have hw3 : 0 < w := by omega
      have hw4 : w < size → w = cs - pos := by omega
      clear hwv
      have hsucc : (chunk + 1) * cs = chunk * cs + cs := by
        rw [Nat.add_mul, Nat.one_mul]
      have hvs : chunk * cs + cs ≤ v.size * cs := mul_succ_le_of_lt cs hchunk
      have hsub : ∀ j, touched cs ((chunk + 1) * cs + 0) (size - w) j →
          touched cs (chunk * cs + pos) size j ∧ chunk < j := by
        intro j ⟨h1, h2, h3⟩
        rw [hsucc] at h2 h3
        have hw5 := hw4 (by omega)
        have hcj : chunk < j := by
          rcases Nat.lt_or_ge chunk j with h | h
          · exact h
          · rcases Nat.eq_or_lt_of_le h with h | h
            · subst h; omega
            · have := mul_succ_le_of_lt cs h; omega
        exact ⟨⟨hs, by omega, by omega⟩, hcj⟩
      have hsup : ∀ j, touched cs (chunk * cs + pos) size j → chunk < j →
          touched cs ((chunk + 1) * cs + 0) (size - w) j ∧ w = cs - pos := by
        intro j ⟨_, h2, h3⟩ hcj
        have hjcs : chunk * cs + cs ≤ j * cs := mul_succ_le_of_lt cs hcj
        have hw5 : w = cs - pos := hw4 (by omega)
        refine ⟨⟨by omega, ?_, ?_⟩, hw5⟩ <;> rw [hsucc] <;> omega
      have hne : kf ≠ chunk := by omega
      obtain ⟨v', hv1, hv2, hv3, hv4⟩ :=
        ih (size - w) (chunk + 1) 0 (nwritten + w) (k + w)
          (v.set chunk (some (memcpy c0 pos buf k w))) kf (by omega) hcs
          (by
            show (chunk + 1) * cs + 0 + (size - w) ≤ v.size * cs
            rw [hsucc]
            rcases Nat.eq_or_lt_of_le hw1 with h | h
            · omega
            · have := hw4 h; omega)
          ⟨(hsup kf hkt hlt).1, by simp only [ChunkVec.set, if_neg hne]; exact hknone, hkm,
            by
              intro j hjk hj hnone
              have hj' := hsub j hj
              have hne' : j ≠ chunk := by omega
              simp only [ChunkVec.set, if_neg hne'] at hnone
              exact hkfirst j hjk hj'.1 hnone⟩
      refine ⟨v', hv1, by rw [hv2]; rfl, ?_, ?_⟩
      · intro j hj
        have hne' : j ≠ chunk := by
          rcases hj with h | h
          · exact fun e => h (e ▸ htc)
          · omega
        have hnt : ¬ touched cs ((chunk + 1) * cs + 0) (size - w) j ∨ kf ≤ j := by
          rcases hj with h | h
          · exact Or.inl (fun h' => h (hsub j h').1)
          · exact Or.inr h
        rw [hv3 j hnt]
        simp only [ChunkVec.set, if_neg hne']
      · intro j hj hjk
        by_cases hjc : j = chunk
        · subst hjc
          have hnt : ¬ touched cs ((j + 1) * cs + 0) (size - w) j := by
            intro ⟨_, h2, _⟩
            rw [hsucc] at h2
            omega
          refine ⟨c0, memcpy c0 pos buf k w, hc0, ?_, ?_⟩
          · rw [hv3 j (Or.inl hnt)]
            simp [ChunkVec.set]
          · intro i hi
            simp only [memcpy]
            by_cases hc : pos ≤ i ∧ i < pos + w
            · have hc' : j * cs + pos ≤ j * cs + i ∧ j * cs + i < j * cs + pos + size := by
                omega
              rw [if_pos hc, if_pos hc']
              congr 1
              omega
            · have hc' : ¬ (j * cs + pos ≤ j * cs + i ∧ j * cs + i < j * cs + pos + size) := by
                intro h
                apply hc
                rcases Nat.eq_or_lt_of_le hw1 with h' | h'
                · omega
                · have := hw4 h'; omega
              rw [if_neg hc, if_neg hc']
        · have hcj : chunk < j := by
            obtain ⟨_, h2, _⟩ := hj
            rcases Nat.lt_or_ge chunk j with h | h
            · exact h
            · rcases Nat.eq_or_lt_of_le h with h | h
              · exact absurd h hjc
              · have := mul_succ_le_of_lt cs h; omega
          have hjcs : chunk * cs + cs ≤ j * cs := mul_succ_le_of_lt cs hcj
          obtain ⟨ht, hw5⟩ := hsup j hj hcj
          obtain ⟨c1, c', hb1, hsl, hbytes⟩ := hv4 j ht hjk
          refine ⟨c1, c', ?_, hsl, ?_⟩
          · simpa only [baseOf, ChunkVec.set, if_neg hjc] using hb1
          · intro i hi
            rw [hbytes i hi, hsucc]
            by_cases hc : chunk * cs + pos ≤ j * cs + i ∧ j * cs + i < chunk * cs + pos + size
            · have hc' : chunk * cs + cs + 0 ≤ j * cs + i ∧
                  j * cs + i < chunk * cs + cs + 0 + (size - w) := by omega
              rw [if_pos hc, if_pos hc']
              congr 1
              omega
            · have hc' : ¬ (chunk * cs + cs + 0 ≤ j * cs + i ∧
                  j * cs + i < chunk * cs + cs + 0 + (size - w)) := by
                intro h; apply hc; omega
              rw [if_neg hc, if_neg hc']

theorem exists_failsAt (cs : Nat) (malloc : Nat → Option Chunk) (v : ChunkVec) (a size : Nat)
    (h : ∃ k, touched cs a size k ∧ v.slot k = none ∧ malloc k = none) :
    ∃ k, failsAt cs malloc v a size k := by
  classical
  refine ⟨Nat.find h, (Nat.find_spec h).1, (Nat.find_spec h).2.1, (Nat.find_spec h).2.2, ?_⟩
  intro j hj ht hnone
  have hmin := Nat.find_min h hj
  cases hm : malloc j with
  | none => exact absurd ⟨ht, hnone, hm⟩ hmin
  | some c => exact ⟨c, rfl⟩

/-! ## The copy loops of the program and the loops on natural numbers -/

/-- When the slot indices the loop of `read` uses stay below `K < 2^31` and `pos < 2^31`,
the loop stores the bytes the loop on natural numbers stores, and counts them in an
`int`. -/
theorem readLoop_of_nat {cs : Nat} (hcs : 0 < cs) (v : ChunkVec) (K : Nat) (hK : K < 2 ^ 31) :
    ∀ (fuel size chunk pos nread : Nat) (dst : List Byte) (m : Nat) (d : List Byte) (n32 : Int),
      readLoopNat cs v fuel size chunk pos nread dst = some (m, d) → pos < 2 ^ 31 →
      pos < cs → chunk * cs + pos + size ≤ K * cs →
      toInt32 n32 = n32 →
      readLoop cs v fuel size (chunk : Int) pos n32 dst
        = some (toInt32 (n32 + ((m : Int) - (nread : Int))), d) := by
  intro fuel
  induction fuel with
  | zero =>
    intro size chunk pos nread dst m d n32 h hpos hpc hin hn
    simp only [readLoopNat] at h
    simp only [readLoop]
    split at h
    · exact absurd h (by simp)
    · rename_i hs
      simp only [Option.some.injEq, Prod.mk.injEq] at h
      obtain ⟨h1, h2⟩ := h
      subst h1 h2
      rw [if_neg hs, Int.sub_self, Int.add_zero, hn]
  | succ fuel ih =>
    intro size chunk pos nread dst m d n32 h hpos hpc hin hn
    by_cases hs : size > 0
    · simp only [readLoopNat, if_pos hs] at h
      simp only [readLoop, if_pos hs, getInt?_natCast]
      have hchunk : chunk < K := by
        apply lt_of_mul_lt cs
        omega
      have hvs : chunk * cs + cs ≤ K * cs := mul_succ_le_of_lt cs hchunk
      have hsucc : (chunk + 1) * cs = chunk * cs + cs := by
        rw [Nat.add_mul, Nat.one_mul]
      have hin' : (chunk + 1) * cs + 0 +
          (size - if cs - pos > size then size else cs - pos) ≤ K * cs := by
        rw [hsucc]
        split <;> omega
      generalize hw : (if cs - pos > size then size else cs - pos) = r at h hin' ⊢
      have hcast : ((chunk : Int) + 1) = ((chunk + 1 : Nat) : Int) := by omega
      have hfin : ∀ m : Nat, toInt32 (toInt32 (n32 + (r : Int)) + ((m : Int) - ((nread + r : Nat) : Int)))
          = toInt32 (n32 + ((m : Int) - (nread : Int))) := by
        intro m
        rw [toInt32_add_left]
        congr 1
        omega
      simp only [ChunkVec.get?] at h ⊢
      by_cases hc : chunk < v.size
      · rw [if_pos hc] at h ⊢
        have hck : (chunk : Int) < INT_MAX := by unfold INT_MAX; omega
        cases hsl : v.slot chunk with
        | none =>
          rw [hsl] at h
          simp only at h ⊢
          rw [if_pos hck, hcast,
            ih _ _ _ _ _ _ _ (toInt32 (n32 + (r : Int))) h (by omega) hcs hin'
              (toInt32_idem _), hfin]
        | some c =>
          rw [hsl] at h
          simp only at h ⊢
          rw [if_pos (And.intro hpos hck), hcast,
            ih _ _ _ _ _ _ _ (toInt32 (n32 + (r : Int))) h (by omega) hcs hin'
              (toInt32_idem _), hfin]
      · rw [if_neg hc] at h
        exact absurd h (by simp)
    · simp only [readLoopNat, if_neg hs, Option.some.injEq, Prod.mk.injEq] at h
      obtain ⟨h1, h2⟩ := h
      subst h1 h2
      simp only [readLoop, if_neg hs]
      rw [Int.sub_self, Int.add_zero, hn]

/-- When the slot indices the loop of `write` uses stay below `K < 2^31` and
`pos < 2^31`, the loop leaves the vector the loop on natural numbers leaves, and returns
`-EIO` or the number of bytes counted in an `int`. -/
theorem writeLoop_of_nat {cs : Nat} (hcs : 0 < cs) (malloc : Nat → Option Chunk)
    (buf : Nat → Byte) (K : Nat) (hK : K < 2 ^ 31) :
    ∀ (fuel size chunk pos nwritten k : Nat) (v v' : ChunkVec) (ret n32 : Int),
      writeLoopNat cs malloc buf fuel size chunk pos nwritten k v = some (v', ret) →
      pos < 2 ^ 31 → pos < cs → chunk * cs + pos + size ≤ K * cs → toInt32 n32 = n32 →
      writeLoop cs malloc buf fuel size (chunk : Int) pos n32 k v
        = some (v', if ret < 0 then ret else toInt32 (n32 + (ret - (nwritten : Int)))) := by
  intro fuel
  induction fuel with
  | zero =>
    intro size chunk pos nwritten k v v' ret n32 h hpos hpc hin hn
    simp only [writeLoopNat] at h
    simp only [writeLoop]
    split at h
    · exact absurd h (by simp)
    · rename_i hs
      simp only [Option.some.injEq, Prod.mk.injEq] at h
      obtain ⟨h1, h2⟩ := h
      subst h1 h2
      have hnn : ¬ ((nwritten : Int) < 0) := by omega
      rw [if_neg hs, if_neg hnn, Int.sub_self, Int.add_zero, hn]
  | succ fuel ih =>
    intro size chunk pos nwritten k v v' ret n32 h hpos hpc hin hn
    by_cases hs : size > 0
    · simp only [writeLoopNat, if_pos hs] at h
      simp only [writeLoop, if_pos hs, getInt?_natCast, Int.toNat_ofNat]
      have hchunk : chunk < K := by
        apply lt_of_mul_lt cs
        omega
      have hvs : chunk * cs + cs ≤ K * cs := mul_succ_le_of_lt cs hchunk
      have hsucc : (chunk + 1) * cs = chunk * cs + cs := by
        rw [Nat.add_mul, Nat.one_mul]
      have hin' : (chunk + 1) * cs + 0 +
          (size - if cs - pos > size then size else cs - pos) ≤ K * cs := by
        rw [hsucc]
        split <;> omega
      generalize hw : (if cs - pos > size then size else cs - pos) = w at h hin' ⊢
      have hcast : ((chunk : Int) + 1) = ((chunk + 1 : Nat) : Int) := by omega
      have hfin : (if ret < 0 then ret
            else toInt32 (toInt32 (n32 + (w : Int)) + (ret - ((nwritten + w : Nat) : Int))))
          = if ret < 0 then ret else toInt32 (n32 + (ret - (nwritten : Int))) := by
        by_cases hr : ret < 0
        · rw [if_pos hr, if_pos hr]
        · rw [if_neg hr, if_neg hr, toInt32_add_left]
          congr 1
          omega
      simp only [ChunkVec.get?] at h ⊢
      by_cases hc : chunk < v.size
      · rw [if_pos hc] at h ⊢
        have hck : (chunk : Int) < INT_MAX := by unfold INT_MAX; omega
        cases hsl : v.slot chunk with
        | none =>
          rw [hsl] at h
          simp only at h ⊢
          cases hm : malloc chunk with
          | none =>
            rw [hm] at h
            simp only [Option.some.injEq, Prod.mk.injEq] at h
            obtain ⟨h1, h2⟩ := h
            subst h1 h2
            simp [ EIO]
          | some c =>
            rw [hm] at h
            simp only at h ⊢
            rw [if_pos (And.intro hpos hck), hcast,
              ih _ _ _ _ _ _ _ _ (toInt32 (n32 + (w : Int))) h (by omega) hcs hin'
                (toInt32_idem _), hfin]
        | some c =>
          rw [hsl] at h
          simp only at h ⊢
          rw [if_pos (And.intro hpos hck), hcast,
            ih _ _ _ _ _ _ _ _ (toInt32 (n32 + (w : Int))) h (by omega) hcs hin'
              (toInt32_idem _), hfin]
      · rw [if_neg hc] at h
        exact absurd h (by simp)
    · simp only [writeLoopNat, if_neg hs, Option.some.injEq, Prod.mk.injEq] at h
      obtain ⟨h1, h2⟩ := h
      subst h1 h2
      have hnn : ¬ ((nwritten : Int) < 0) := by omega
      simp only [writeLoop, if_neg hs]
      rw [if_neg hnn, Int.sub_self, Int.add_zero, hn]

/-- Whenever the loop of `write` returns, the loop on natural numbers returns the same
vector, and the value returned is `-EIO` or the number of bytes counted in an `int`. -/
theorem writeLoop_to_nat (cs : Nat) (malloc : Nat → Option Chunk) (buf : Nat → Byte) :
    ∀ (fuel size chunk pos nwritten k : Nat) (v v' : ChunkVec) (ret n32 : Int),
      writeLoop cs malloc buf fuel size (chunk : Int) pos n32 k v = some (v', ret) →
      toInt32 n32 = n32 →
      ∃ ret' : Int, writeLoopNat cs malloc buf fuel size chunk pos nwritten k v = some (v', ret') ∧
        ret = if ret' < 0 then ret' else toInt32 (n32 + (ret' - (nwritten : Int))) := by
  intro fuel
  induction fuel with
  | zero =>
    intro size chunk pos nwritten k v v' ret n32 h hn
    simp only [writeLoop] at h
    simp only [writeLoopNat]
    split at h
    · exact absurd h (by simp)
    · rename_i hs
      simp only [Option.some.injEq, Prod.mk.injEq] at h
      obtain ⟨h1, h2⟩ := h
      subst h1 h2
      have hnn : ¬ ((nwritten : Int) < 0) := by omega
      refine ⟨(nwritten : Int), by rw [if_neg hs], ?_⟩
      rw [if_neg hnn, Int.sub_self, Int.add_zero, hn]
  | succ fuel ih =>
    intro size chunk pos nwritten k v v' ret n32 h hn
    by_cases hs : size > 0
    · simp only [writeLoop, if_pos hs, getInt?_natCast, Int.toNat_ofNat] at h
      simp only [writeLoopNat, if_pos hs]
      generalize hw : (if cs - pos > size then size else cs - pos) = w at h ⊢
      have hcast : ((chunk : Int) + 1) = ((chunk + 1 : Nat) : Int) := by omega
      have hfin : ∀ ret' : Int, (if ret' < 0 then ret'
            else toInt32 (toInt32 (n32 + (w : Int)) + (ret' - ((nwritten + w : Nat) : Int))))
          = if ret' < 0 then ret' else toInt32 (n32 + (ret' - (nwritten : Int))) := by
        intro ret'
        by_cases hr : ret' < 0
        · rw [if_pos hr, if_pos hr]
        · rw [if_neg hr, if_neg hr, toInt32_add_left]
          congr 1
          omega
      simp only [ChunkVec.get?] at h ⊢
      by_cases hc : chunk < v.size
      · rw [if_pos hc] at h ⊢
        cases hsl : v.slot chunk with
        | none =>
          rw [hsl] at h
          simp only at h ⊢
          cases hm : malloc chunk with
          | none =>
            rw [hm] at h
            simp only [Option.some.injEq, Prod.mk.injEq] at h
            obtain ⟨h1, h2⟩ := h
            subst h1 h2
            exact ⟨- EIO, rfl, by simp [ EIO]⟩
          | some c =>
            rw [hm] at h
            simp only at h ⊢
            split at h
            · rw [hcast] at h
              obtain ⟨ret', g1, g2⟩ := ih _ _ _ (nwritten + w) _ _ _ _ _ h (toInt32_idem _)
              exact ⟨ret', g1, by rw [g2, hfin]⟩
            · exact absurd h (by simp)
        | some c =>
          rw [hsl] at h
          simp only at h ⊢
          split at h
          · rw [hcast] at h
            obtain ⟨ret', g1, g2⟩ := ih _ _ _ (nwritten + w) _ _ _ _ _ h (toInt32_idem _)
            exact ⟨ret', g1, by rw [g2, hfin]⟩
          · exact absurd h (by simp)
      · rw [if_neg hc] at h
        exact absurd h (by simp)
    · simp only [writeLoop, if_neg hs, Option.some.injEq, Prod.mk.injEq] at h
      obtain ⟨h1, h2⟩ := h
      subst h1 h2
      have hnn : ¬ ((nwritten : Int) < 0) := by omega
      refine ⟨(nwritten : Int), by simp only [writeLoopNat, if_neg hs], ?_⟩
      rw [if_neg hnn, Int.sub_self, Int.add_zero, hn]

theorem writeLoop_size (cs : Nat) (malloc : Nat → Option Chunk) (buf : Nat → Byte)
    (fuel size chunk pos k : Nat) (v v' : ChunkVec) (ret n32 : Int)
    (h : writeLoop cs malloc buf fuel size (chunk : Int) pos n32 k v = some (v', ret))
    (hn : toInt32 n32 = n32) : v'.size = v.size := by
  obtain ⟨ret', g, _⟩ := writeLoop_to_nat cs malloc buf fuel size chunk pos 0 k v v' ret n32 h hn
  exact writeLoopNat_size cs malloc buf _ _ _ _ _ _ _ _ _ g

/-! ## `read` as a whole -/

theorem clamped_le (len size offset : Nat) : clamped len size offset ≤ len - offset := by
  unfold clamped
  have := Nat.mod_le (len - offset) (2 ^ 32)
  split <;> omega

theorem div_le_of_le_mul {cs : Nat} (hcs : 0 < cs) {p k : Nat} (h : p ≤ k * cs) : p / cs ≤ k := by
  have h1 : p / cs < k + 1 := by
    rw [Nat.div_lt_iff_lt_mul hcs, Nat.add_mul, Nat.one_mul]
    omega
  omega

/-- `read` with `chunkSize ≤ 2^31` on a buffer whose first `K < 2^31` slots reach the last
byte asked for: the call returns the number of bytes it set out to copy, converted to
`int`, and stores the bytes the vector holds for the positions from `offset` on. -/
theorem read_spec_of_index_bound {cs : Nat} (hcs : 0 < cs) (hcs31 : cs ≤ 2 ^ 31)
    (b : BigBuffer) (size offset K : Nat) (hK : K < 2 ^ 31) (hKs : K ≤ b.chunks.size)
    (hin : offset + clamped b.len size offset ≤ K * cs) (ho : offset ≤ b.len) :
    read cs b size offset =
      some ⟨toInt32 ((clamped b.len size offset : Nat) : Int),
        (List.range (clamped b.len size offset)).map fun t => byteAt cs b.chunks (offset + t)⟩ := by
  have hno : ¬ offset > b.len := by omega
  have hco := coord_of_pos cs offset
  have hmod := Nat.mod_lt offset hcs
  have hKcs : K * cs ≤ b.chunks.size * cs := Nat.mul_le_mul_right cs hKs
  have h := readLoopNat_spec hcs b.chunks (clamped b.len size offset) (clamped b.len size offset)
    (offset / cs) (offset % cs) 0 [] (Nat.le_refl _) hmod (by omega)
  have h2 := readLoop_of_nat hcs b.chunks K hK _ _ _ _ _ _ _ _ 0 h (by omega) hmod
    (by omega) (by decide)
  rw [hco] at h2
  have hdiv : offset / cs ≤ K := div_le_of_le_mul hcs (by omega)
  have hchunk : toInt32 ((offset / cs : Nat) : Int) = ((offset / cs : Nat) : Int) :=
    toInt32_natCast (by omega)
  simp only [read, if_neg hno, hchunk]
  simp only [clamped] at h2 ⊢
  rw [h2]
  simp

theorem read_spec_of_bound {cs : Nat} (hcs : 0 < cs) (hcs31 : cs ≤ 2 ^ 31) (b : BigBuffer)
    (hv : b.chunks.size < 2 ^ 31) (size offset : Nat)
    (hin : offset + clamped b.len size offset ≤ b.chunks.size * cs) (ho : offset ≤ b.len) :
    read cs b size offset =
      some ⟨toInt32 ((clamped b.len size offset : Nat) : Int),
        (List.range (clamped b.len size offset)).map fun t => byteAt cs b.chunks (offset + t)⟩ :=
  read_spec_of_index_bound hcs hcs31 b size offset b.chunks.size hv (Nat.le_refl _) hin ho

theorem read_spec {cs : Nat} (hcs : 0 < cs) (hcs31 : cs ≤ 2 ^ 31) (b : BigBuffer)
    (hv : b.chunks.size < 2 ^ 31) (size offset : Nat)
    (hcov : Covers cs b) (ho : offset ≤ b.len) :
    read cs b size offset =
      some ⟨toInt32 ((clamped b.len size offset : Nat) : Int),
        (List.range (clamped b.len size offset)).map fun t => byteAt cs b.chunks (offset + t)⟩ := by
  have hle := clamped_le b.len size offset
  exact read_spec_of_bound hcs hcs31 b hv size offset (by unfold Covers at hcov; omega) ho

theorem range_map_getD (l : List Byte) :
    (List.range l.length).map (fun t => ofList l t) = l := by
  apply List.ext_getElem
  · simp
  · intro n h1 h2
    simp [ofList, List.getD, List.getElem?_eq_getElem h2]

theorem read_getD {cs : Nat} (hcs : 0 < cs) (hcs31 : cs ≤ 2 ^ 31) (b : BigBuffer)
    (hv : b.chunks.size < 2 ^ 31) (hcov : Covers cs b)
    (size offset : Nat) (ho : offset ≤ b.len) :
    ∃ r, read cs b size offset = some r ∧
      r.ret = toInt32 ((clamped b.len size offset : Nat) : Int) ∧
      r.dst.length = clamped b.len size offset ∧
      ∀ i, i < r.dst.length → r.dst.getD i 0 = byteAt cs b.chunks (offset + i) := by
  refine ⟨_, read_spec hcs hcs31 b hv size offset hcov ho, rfl, by simp, ?_⟩
  intro i hi
  simp only [List.length_map, List.length_range] at hi
  simp [List.getD, hi]

/-- `write` with `chunkSize ≤ 2^31` and a last slot index below `2^31 - 1`: the call
returns what the loop on natural numbers returns on the extended vector, the count
converted to `int`. -/
theorem write_of_nat {cs : Nat} (hcs : 0 < cs) (hcs31 : cs ≤ 2 ^ 31)
    (malloc : Nat → Option Chunk) (b : BigBuffer) (buf : Nat → Byte) (size offset : Nat)
    (hb : (offset + size) / cs + 1 < 2 ^ 31)
    {v' : ChunkVec} {ret : Int}
    (h : writeLoopNat cs malloc buf size size (offset / cs) (offset % cs) 0 0
      (extended cs b.chunks size offset) = some (v', ret)) :
    write cs malloc b buf size offset
      = some (⟨v', newLen b.len size offset⟩, if ret < 0 then ret else toInt32 ret) := by
  have hmod := Nat.mod_lt offset hcs
  have hco := coord_of_pos cs offset
  have hin : offset + size < ((offset + size) / cs + 1) * cs :=
    (Nat.div_lt_iff_lt_mul hcs).1 (Nat.lt_succ_self _)
  have h2 := writeLoop_of_nat hcs malloc buf ((offset + size) / cs + 1) hb
    _ _ _ _ _ _ _ _ _ 0 h (by omega) hmod (by omega) (by decide)
  have hdiv : offset / cs ≤ (offset + size) / cs := Nat.div_le_div_right (Nat.le_add_right _ _)
  have hchunk : toInt32 ((offset / cs : Nat) : Int) = ((offset / cs : Nat) : Int) :=
    toInt32_natCast (by omega)
  simp only [write, extendLoop_extended cs b.chunks size offset (by omega), hchunk,
    h2, newLen]
  simp

theorem write_spec {cs : Nat} (hcs : 0 < cs) (hcs31 : cs ≤ 2 ^ 31)
    (malloc : Nat → Option Chunk) (b : BigBuffer)
    (buf : Nat → Byte) (size offset : Nat)
    (hb : (offset + size) / cs + 1 < 2 ^ 31)
    (hm : ∀ j, touched cs offset size j → (extended cs b.chunks size offset).slot j = none →
      ∃ c, malloc j = some c) :
    ∃ v', write cs malloc b buf size offset
          = some (⟨v', newLen b.len size offset⟩, toInt32 ((size : Nat) : Int)) ∧
      v'.size = (extended cs b.chunks size offset).size ∧
      (∀ j, ¬ touched cs offset size j → v'.slot j = (extended cs b.chunks size offset).slot j) ∧
      (∀ j, touched cs offset size j →
        ∃ c0 c', baseOf malloc (extended cs b.chunks size offset) j c0 ∧ v'.slot j = some c' ∧
          ∀ i, i < cs → c' i =
            if offset ≤ j * cs + i ∧ j * cs + i < offset + size
            then buf (j * cs + i - offset) else c0 i) := by
  have hco := coord_of_pos cs offset
  have hcov := extended_covers hcs
    (extendLoop_extended cs b.chunks size offset (by omega))
  have h := writeLoopNat_spec hcs malloc buf size size (offset / cs) (offset % cs) 0 0
    (extended cs b.chunks size offset) (Nat.le_refl _) (Nat.mod_lt _ hcs)
    (by omega) (by rw [hco]; exact hm)
  rw [hco] at h
  obtain ⟨v', h1, h2, h3, h4⟩ := h
  refine ⟨v', ?_, ?_, h3, ?_⟩
  · rw [write_of_nat hcs hcs31 malloc b buf size offset hb h1]
    have hnn : ¬ (((0 + size : Nat) : Int) < 0) := by omega
    rw [if_neg hnn, Nat.zero_add]
  · exact h2
  · intro j hj
    obtain ⟨c0, c', hb, hs, hbytes⟩ := h4 j hj
    refine ⟨c0, c', hb, hs, ?_⟩
    intro i hi
    rw [hbytes i hi, Nat.zero_add]

theorem clamped_newLen (len size offset : Nat) :
    clamped (newLen len size offset) size offset = size := by
  unfold clamped newLen
  by_cases h : len < offset ∨ size > (len - offset) % 2 ^ 32
  · rw [if_pos h]
    have h1 : size + offset - offset = size := by omega
    rw [h1]
    split <;> rfl
  · rw [if_neg h]
    have h2 : ¬ size > (len - offset) % 2 ^ 32 := fun h' => h (Or.inr h')
    rw [if_neg h2]

theorem le_newLen (len size offset : Nat) : offset + size ≤ newLen len size offset := by
  unfold newLen
  have := Nat.mod_le (len - offset) (2 ^ 32)
  split
  · omega
  · rename_i h
    have h1 : ¬ len < offset := fun h' => h (Or.inl h')
    have h2 : ¬ size > (len - offset) % 2 ^ 32 := fun h' => h (Or.inr h')
    omega

theorem touched_of_pos {cs : Nat} (hcs : 0 < cs) (offset size t : Nat) (ht : t < size) :
    touched cs offset size ((offset + t) / cs) := by
  have hco := coord_of_pos cs (offset + t)
  have hlt := Nat.mod_lt (offset + t) hcs
  exact ⟨by omega, by omega, by omega⟩

theorem touched_lt_size {cs : Nat} {a size j n : Nat} (ht : touched cs a size j)
    (hin : a + size ≤ n * cs) : j < n := by
  apply lt_of_mul_lt cs
  obtain ⟨_, _, h3⟩ := ht
  omega

theorem touched_iff {cs : Nat} (hcs : 0 < cs) (offset size j : Nat) :
    touched cs offset size j ↔
      (0 < size ∧ offset / cs ≤ j ∧ j ≤ (offset + size - 1) / cs) := by
  unfold touched
  have h1 : offset / cs ≤ j ↔ offset < j * cs + cs := by
    have : offset / cs < j + 1 ↔ offset < (j + 1) * cs := Nat.div_lt_iff_lt_mul hcs
    rw [Nat.add_mul, Nat.one_mul] at this
    omega
  have h2 : j ≤ (offset + size - 1) / cs ↔ j * cs ≤ offset + size - 1 :=
    Nat.le_div_iff_mul_le hcs
  constructor
  · intro ⟨hs, ha, hb⟩
    exact ⟨hs, h1.2 ha, h2.2 (by omega)⟩
  · intro ⟨hs, ha, hb⟩
    exact ⟨hs, h1.1 ha, by have := h2.1 hb; omega⟩

theorem extended_present (cs : Nat) (v : ChunkVec) (size offset j : Nat) :
    Present (extended cs v size offset) j ↔
      (j < (extended cs v size offset).size ∧ Present v j) := by
  unfold Present
  constructor
  · intro ⟨h1, h2⟩
    by_cases hj : j < v.size
    · rw [extended_slot_old cs v size offset j hj] at h2
      exact ⟨h1, hj, h2⟩
    · exact absurd (extended_slot_new cs v size offset j (by omega) h1) h2
  · intro ⟨h1, hj, h2⟩
    rw [← extended_slot_old cs v size offset j hj] at h2
    exact ⟨h1, h2⟩

theorem extended_slot_none_iff (cs : Nat) (v : ChunkVec) (size offset j : Nat)
    (hj : j < (extended cs v size offset).size) :
    (extended cs v size offset).slot j = none ↔ ¬ Present v j := by
  have h := extended_present cs v size offset j
  unfold Present at h ⊢
  constructor
  · intro hn hp
    exact (h.2 ⟨hj, hp⟩).2 hn
  · intro hn
    by_contra hne
    exact hn (h.1 ⟨hj, hne⟩).2

theorem write_fail {cs : Nat} (hcs : 0 < cs) (hcs31 : cs ≤ 2 ^ 31)
    (malloc : Nat → Option Chunk) (b : BigBuffer)
    (buf : Nat → Byte) (size offset kf : Nat)
    (hb : (offset + size) / cs + 1 < 2 ^ 31)
    (hfail : failsAt cs malloc (extended cs b.chunks size offset) offset size kf) :
    ∃ v', write cs malloc b buf size offset
          = some (⟨v', newLen b.len size offset⟩, - EIO) ∧
      v'.size = (extended cs b.chunks size offset).size ∧
      (∀ j, (¬ touched cs offset size j ∨ kf ≤ j) →
        v'.slot j = (extended cs b.chunks size offset).slot j) ∧
      (∀ j, touched cs offset size j → j < kf →
        ∃ c0 c', baseOf malloc (extended cs b.chunks size offset) j c0 ∧ v'.slot j = some c' ∧
          ∀ i, i < cs → c' i =
            if offset ≤ j * cs + i ∧ j * cs + i < offset + size
            then buf (j * cs + i - offset) else c0 i) := by
  have hco := coord_of_pos cs offset
  have hcov := extended_covers hcs
    (extendLoop_extended cs b.chunks size offset (by omega))
  have h := writeLoopNat_fail hcs malloc buf size size (offset / cs) (offset % cs) 0 0
    (extended cs b.chunks size offset) kf (Nat.le_refl _) (Nat.mod_lt _ hcs)
    (by omega) (by rw [hco]; exact hfail)
  rw [hco] at h
  obtain ⟨v', h1, h2, h3, h4⟩ := h
  refine ⟨v', ?_, ?_, h3, ?_⟩
  · rw [write_of_nat hcs hcs31 malloc b buf size offset hb h1]
    simp [ EIO]
  · exact h2
  · intro j hj hjk
    obtain ⟨c0, c', hb, hs, hbytes⟩ := h4 j hj hjk
    refine ⟨c0, c', hb, hs, ?_⟩
    intro i hi
    rw [hbytes i hi, Nat.zero_add]

/-- Whether `write` succeeds is decided by the allocations it needs: it returns `size`
(as an `int`) when every `NULL` slot of the range gets a block, and `-EIO` when one does
not. -/
theorem write_ret_cases {cs : Nat} (hcs : 0 < cs) (hcs31 : cs ≤ 2 ^ 31)
    (malloc : Nat → Option Chunk)
    (b : BigBuffer) (buf : Nat → Byte) (size offset : Nat)
    (hb : (offset + size) / cs + 1 < 2 ^ 31) :
    ((∀ j, touched cs offset size j → (extended cs b.chunks size offset).slot j = none →
        ∃ c, malloc j = some c) ∧
      ∃ b', write cs malloc b buf size offset = some (b', toInt32 ((size : Nat) : Int))) ∨
    ((∃ k, failsAt cs malloc (extended cs b.chunks size offset) offset size k) ∧
      ∃ b', write cs malloc b buf size offset = some (b', - EIO)) := by
  by_cases hm : ∀ j, touched cs offset size j →
      (extended cs b.chunks size offset).slot j = none → ∃ c, malloc j = some c
  · obtain ⟨v', h1, _⟩ := write_spec hcs hcs31 malloc b buf size offset hb hm
    exact Or.inl ⟨hm, _, h1⟩
  · have hex : ∃ k, touched cs offset size k ∧
        (extended cs b.chunks size offset).slot k = none ∧ malloc k = none := by
      by_contra hne
      apply hm
      intro j hj hnone
      cases hmj : malloc j with
      | none => exact absurd ⟨j, hj, hnone, hmj⟩ hne
      | some c => exact ⟨c, rfl⟩
    obtain ⟨k, hk⟩ := exists_failsAt cs malloc _ offset size hex
    obtain ⟨v', h1, _⟩ := write_fail hcs hcs31 malloc b buf size offset k hb hk
    exact Or.inr ⟨⟨k, hk⟩, _, h1⟩

/-- `write` returns whenever `chunkSize ≤ 2^31` and the last slot index asked for is below
`2^31 - 1`; on a vector of less than `2^32` slots it leaves
`max(old count, floor((offset + size) / chunkSize) + 1)` slots. -/
theorem write_total {cs : Nat} (hcs : 0 < cs) (hcs31 : cs ≤ 2 ^ 31)
    (malloc : Nat → Option Chunk) (b : BigBuffer)
    (buf : Nat → Byte) (size offset : Nat)
    (hb : (offset + size) / cs + 1 < 2 ^ 31) :
    ∃ b' ret, write cs malloc b buf size offset = some (b', ret) ∧
      b'.len = newLen b.len size offset ∧
      (b.chunks.size < 2 ^ 32 →
        b'.chunks.size = max b.chunks.size ((offset + size) / cs + 1)) := by
  rcases write_ret_cases hcs hcs31 malloc b buf size offset hb with ⟨hm, _⟩ | ⟨⟨k, hk⟩, _⟩
  · obtain ⟨v', h1, h2, _⟩ := write_spec hcs hcs31 malloc b buf size offset hb hm
    exact ⟨_, _, h1, rfl, fun hv => by
      show v'.size = _
      rw [h2, extended_size cs b.chunks size offset (by omega) hv]⟩
  · obtain ⟨v', h1, h2, _⟩ := write_fail hcs hcs31 malloc b buf size offset k hb hk
    exact ⟨_, _, h1, rfl, fun hv => by
      show v'.size = _
      rw [h2, extended_size cs b.chunks size offset (by omega) hv]⟩

/-! ## What follows from the mere fact that `write` returned -/

theorem writeLoop_neg (cs : Nat) (malloc : Nat → Option Chunk) (buf : Nat → Byte)
    (fuel size pos k : Nat) (chunk n32 : Int) (v : ChunkVec) (hs : 0 < size) (hc : chunk < 0) :
    writeLoop cs malloc buf fuel size chunk pos n32 k v = none := by
  have hs' : size > 0 := hs
  cases fuel with
  | zero => simp only [writeLoop, if_pos hs']
  | succ fuel => simp only [writeLoop, if_pos hs', getInt?_neg v hc]

/-- Whenever `write` returns, its slot loop has ended, and its copy loop has done what the
loop on natural numbers does on the extended vector; the value returned is `-EIO` or the
count converted to `int`. -/
theorem write_inv {cs : Nat} {malloc : Nat → Option Chunk} {b b' : BigBuffer}
    {buf : Nat → Byte} {size offset : Nat} {ret : Int}
    (h : write cs malloc b buf size offset = some (b', ret)) :
    ∃ (v1 : ChunkVec) (ret' : Int),
      extendLoop ((offset + size) / cs) ((offset + size) / cs + 1) (toUInt32 b.chunks.size)
        b.chunks = some v1 ∧
      writeLoopNat cs malloc buf size size (offset / cs) (offset % cs) 0 0 v1
        = some (b'.chunks, ret') ∧
      ret = (if ret' < 0 then ret' else toInt32 ret') ∧
      b'.len = newLen b.len size offset := by
  simp only [write] at h
  cases hx : extendLoop ((offset + size) / cs) ((offset + size) / cs + 1)
      (toUInt32 b.chunks.size) b.chunks with
  | none =>
    rw [hx] at h
    exact absurd h (by simp)
  | some v1 =>
    rw [hx] at h
    simp only at h
    cases hwl : writeLoop cs malloc buf size size (toInt32 ((offset / cs : Nat) : Int))
        (offset % cs) 0 0 v1 with
    | none =>
      rw [hwl] at h
      exact absurd h (by simp)
    | some r =>
      obtain ⟨v, r32⟩ := r
      rw [hwl] at h
      simp only [Option.some.injEq, Prod.mk.injEq] at h
      obtain ⟨hb', hr⟩ := h
      subst hb' hr
      -- the slot loop ended, so the last slot index is below `2^32 - 1`
      have hbound : (offset + size) / cs < 2 ^ 32 - 1 := by
        by_contra hge
        have := extendLoop_none ((offset + size) / cs) (by omega)
          ((offset + size) / cs + 1) (toUInt32 b.chunks.size) b.chunks
          (Nat.mod_lt _ (by decide))
        rw [this] at hx
        exact absurd hx (by simp)
      have hdiv : offset / cs ≤ (offset + size) / cs :=
        Nat.div_le_div_right (Nat.le_add_right _ _)
      refine ⟨v1, ?_⟩
      rcases Nat.eq_zero_or_pos size with h0 | hpos
      · subst h0
        simp only [writeLoop, Nat.lt_irrefl, gt_iff_lt, if_false, Option.some.injEq,
          Prod.mk.injEq] at hwl
        obtain ⟨h1, h2⟩ := hwl
        subst h1 h2
        exact ⟨0, rfl, by simp [writeLoopNat], by decide, rfl⟩
      · -- the first round indexes the vector with `chunk`, which is not negative
        have hchunk : toInt32 ((offset / cs : Nat) : Int) = ((offset / cs : Nat) : Int) := by
          by_contra hne
          have hneg : toInt32 ((offset / cs : Nat) : Int) < 0 := by
            generalize offset / cs = q at hne hdiv
            generalize (offset + size) / cs = q' at hbound hdiv
            unfold toInt32 at hne ⊢
            omega
          rw [writeLoop_neg cs malloc buf size size _ 0 _ 0 v1 hpos hneg] at hwl
          exact absurd hwl (by simp)
        rw [hchunk] at hwl
        obtain ⟨ret', g1, g2⟩ :=
          writeLoop_to_nat cs malloc buf _ _ _ _ 0 _ _ _ _ _ hwl (by decide)
        refine ⟨ret', rfl, g1, ?_, rfl⟩
        rw [g2]
        simp

theorem write_eq {cs : Nat} {malloc : Nat → Option Chunk} {b b' : BigBuffer}
    {buf : Nat → Byte} {size offset : Nat} {ret : Int}
    (h : write cs malloc b buf size offset = some (b', ret)) :
    b'.len = newLen b.len size offset ∧ b.chunks.size ≤ b'.chunks.size ∧
      (offset + size) / cs < b'.chunks.size ∧
      (b.chunks.size < 2 ^ 32 →
        b'.chunks.size = max b.chunks.size ((offset + size) / cs + 1)) := by
  obtain ⟨v1, ret', hx, hwl, _, hlen⟩ := write_inv h
  have hsz := writeLoopNat_size cs malloc buf _ _ _ _ _ _ _ _ _ hwl
  obtain ⟨h1, h2, _⟩ := extendLoop_sound _ _ _ _ _ hx rfl
  refine ⟨hlen, by omega, by omega, ?_⟩
  intro hv
  rw [hsz]
  exact extendLoop_size _ _ _ _ _ hx (toUInt32_of_lt hv) hv

/-- What a `write` that returned no negative value has done: every `NULL` slot of the
range got a block, the slots outside the range are those of the extended vector, and
every slot of the range holds its block with the bytes of `buf` copied in. -/
theorem write_spec_of_some {cs : Nat} (hcs : 0 < cs) {malloc : Nat → Option Chunk}
    {b b' : BigBuffer} {buf : Nat → Byte} {size offset : Nat} {ret : Int}
    (h : write cs malloc b buf size offset = some (b', ret)) (hret : 0 ≤ ret) :
    (∀ j, touched cs offset size j → (extended cs b.chunks size offset).slot j = none →
      ∃ c, malloc j = some c) ∧
    b'.chunks.size = (extended cs b.chunks size offset).size ∧
    offset + size < (extended cs b.chunks size offset).size * cs ∧
    (∀ j, ¬ touched cs offset size j →
      b'.chunks.slot j = (extended cs b.chunks size offset).slot j) ∧
    (∀ j, touched cs offset size j →
      ∃ c0 c', baseOf malloc (extended cs b.chunks size offset) j c0 ∧
        b'.chunks.slot j = some c' ∧
        ∀ i, i < cs → c' i =
          if offset ≤ j * cs + i ∧ j * cs + i < offset + size
          then buf (j * cs + i - offset) else c0 i) := by
  obtain ⟨v1, ret', hx, hwl, hr, _⟩ := write_inv h
  have hcov := extended_covers hcs hx
  have hext := extended_of_some hx
  rw [← hext] at hwl
  have hco := coord_of_pos cs offset
  have hnn : ¬ ret' < 0 := by
    intro hneg
    rw [if_pos hneg] at hr
    omega
  have hm : ∀ j, touched cs offset size j → (extended cs b.chunks size offset).slot j = none →
      ∃ c, malloc j = some c := by
    by_contra hm
    have hex : ∃ k, touched cs offset size k ∧
        (extended cs b.chunks size offset).slot k = none ∧ malloc k = none := by
      by_contra hne
      apply hm
      intro j hj hnone
      cases hmj : malloc j with
      | none => exact absurd ⟨j, hj, hnone, hmj⟩ hne
      | some c => exact ⟨c, rfl⟩
    obtain ⟨k, hk⟩ := exists_failsAt cs malloc _ offset size hex
    obtain ⟨v', g1, _⟩ := writeLoopNat_fail hcs malloc buf size size (offset / cs) (offset % cs)
      0 0 (extended cs b.chunks size offset) k (Nat.le_refl _) (Nat.mod_lt _ hcs)
      (by omega) (by rw [hco]; exact hk)
    rw [g1] at hwl
    simp only [Option.some.injEq, Prod.mk.injEq] at hwl
    apply hnn
    rw [← hwl.2]
    decide
  have hs := writeLoopNat_spec hcs malloc buf size size (offset / cs) (offset % cs) 0 0
    (extended cs b.chunks size offset) (Nat.le_refl _) (Nat.mod_lt _ hcs)
    (by omega) (by rw [hco]; exact hm)
  rw [hco] at hs
  obtain ⟨v', h1, h2, h3, h4⟩ := hs
  rw [h1] at hwl
  simp only [Option.some.injEq, Prod.mk.injEq] at hwl
  obtain ⟨hv, _⟩ := hwl
  subst hv
  refine ⟨hm, h2, hcov, h3, ?_⟩
  intro j hj
  obtain ⟨c0, c', hb, hs, hbytes⟩ := h4 j hj
  refine ⟨c0, c', hb, hs, ?_⟩
  intro i hi
  rw [hbytes i hi, Nat.zero_add]

theorem write_success {cs : Nat} (hcs : 0 < cs) {malloc : Nat → Option Chunk}
    {b b' : BigBuffer} {buf : Nat → Byte} {size offset : Nat} {ret : Int}
    (h : write cs malloc b buf size offset = some (b', ret)) (hret : 0 ≤ ret) :
    ∀ j, touched cs offset size j → (extended cs b.chunks size offset).slot j = none →
      ∃ c, malloc j = some c :=
  (write_spec_of_some hcs h hret).1

theorem write_present {cs : Nat} (hcs : 0 < cs) {malloc : Nat → Option Chunk}
    {b b' : BigBuffer} {buf : Nat → Byte} {size offset : Nat} {ret : Int}
    (h : write cs malloc b buf size offset = some (b', ret)) (hret : 0 ≤ ret) (j : Nat) :
    Present b'.chunks j ↔ (Present b.chunks j ∨ touched cs offset size j) := by
  obtain ⟨_, h2, hcov, h3, h4⟩ := write_spec_of_some hcs h hret
  have hle := extended_size_le cs b.chunks size offset
  have hep := extended_present cs b.chunks size offset j
  by_cases ht : touched cs offset size j
  · obtain ⟨c0, c', _, hs, _⟩ := h4 j ht
    have hlt : j < b'.chunks.size := by
      rw [h2]
      exact touched_lt_size ht (by omega)
    constructor
    · intro _; exact Or.inr ht
    · intro _; exact ⟨hlt, by rw [hs]; simp⟩
  · have hs := h3 j ht
    constructor
    · intro ⟨hj1, hj2⟩
      rw [hs] at hj2
      rw [h2] at hj1
      exact Or.inl (hep.1 ⟨hj1, hj2⟩).2
    · intro hp
      rcases hp with hp | hp
      · have hj1 : j < (extended cs b.chunks size offset).size := by
          have := hp.1
          omega
        have := hep.2 ⟨hj1, hp⟩
        exact ⟨by rw [h2]; exact this.1, by rw [hs]; exact this.2⟩
      · exact absurd hp ht

/-- With a last slot index of `2^32 - 1` or more the slot loop of `write` does not end:
the call does not return. -/
theorem write_slot_loop_endless (cs : Nat) (malloc : Nat → Option Chunk) (b : BigBuffer)
    (buf : Nat → Byte) (size offset : Nat) (h : 2 ^ 32 - 1 ≤ (offset + size) / cs) :
    write cs malloc b buf size offset = none := by
  simp only [write, extendLoop_none ((offset + size) / cs) h ((offset + size) / cs + 1)
    (toUInt32 b.chunks.size) b.chunks (Nat.mod_lt _ (by decide))]

/-! ## `truncate` as a whole -/

theorem ceil_div_covers {cs : Nat} (hcs : 0 < cs) (n : Nat) : n ≤ (n + cs - 1) / cs * cs := by
  have h1 := coord_of_pos cs (n + cs - 1)
  have h2 := Nat.mod_lt (n + cs - 1) hcs
  omega

theorem ceil_div_le_of_covers {cs : Nat} (hcs : 0 < cs) {n k : Nat} (h : n ≤ k * cs) :
    (n + cs - 1) / cs ≤ k := by
  have h1 : (n + cs - 1) / cs < k + 1 := by
    rw [Nat.div_lt_iff_lt_mul hcs, Nat.add_mul, Nat.one_mul]
    omega
  omega

theorem div_lt_ceil_div {cs : Nat} (hcs : 0 < cs) {len n : Nat} (h : len < n) :
    len / cs < (n + cs - 1) / cs := by
  have h1 := coord_of_pos cs len
  have h2 : len / cs + 1 ≤ (n + cs - 1) / cs := by
    rw [Nat.le_div_iff_mul_le hcs, Nat.add_mul, Nat.one_mul]
    omega
  omega

/-- The `free` loop ends, and releases only blocks of slots that `resize` drops, when it
starts at `keep` or beyond on a vector of less than `2^32` slots. -/
theorem freeLoop_spec (v : ChunkVec) (keep : Nat) (hv : v.size < 2 ^ 32) :
    ∀ (fuel i : Nat), keep ≤ i → v.size - i ≤ fuel → freeLoop v keep fuel i = some () := by
  intro fuel
  induction fuel with
  | zero =>
    intro i _ hf
    have hlt : ¬ i < v.size := by omega
    simp only [freeLoop, if_neg hlt]
  | succ fuel ih =>
    intro i hk hf
    by_cases hlt : i < v.size
    · have hnk : ¬ (i < keep ∧ (v.slot i).isSome = true) := fun h => by omega
      simp only [freeLoop, if_pos hlt, if_neg hnk]
      rw [toUInt32_of_lt (by omega)]
      exact ih (i + 1) (by omega) (by omega)
    · simp only [freeLoop, if_neg hlt]

/-- Whenever `truncate` returns, it returns 0 and leaves length `n` and `ceil(n / chunkSize)`
slots. -/
theorem truncate_eq {cs : Nat} {b b' : BigBuffer} {n : Nat} {ret : Int}
    (h : truncate cs b n = some (b', ret)) :
    ret = 0 ∧ b'.len = n ∧ b'.chunks.size = (n + cs - 1) / cs := by
  simp only [truncate] at h
  split at h
  · exact absurd h (by simp)
  · split at h
    · split at h
      · exact absurd h (by simp)
      · simp only [Option.some.injEq, Prod.mk.injEq] at h
        obtain ⟨hb, hr⟩ := h
        subst hb
        exact ⟨hr.symm, rfl, rfl⟩
      · simp only [Option.some.injEq, Prod.mk.injEq] at h
        obtain ⟨hb, hr⟩ := h
        subst hb
        exact ⟨hr.symm, rfl, rfl⟩
    · simp only [Option.some.injEq, Prod.mk.injEq] at h
      obtain ⟨hb, hr⟩ := h
      subst hb
      exact ⟨hr.symm, rfl, rfl⟩

/-- Whenever `truncate` returns, every slot that holds a block afterwards held one
before. -/
theorem truncate_present_of_some {cs : Nat} {b b' : BigBuffer} {n : Nat} {ret : Int}
    (h : truncate cs b n = some (b', ret)) :
    ∀ j, Present b'.chunks j → Present b.chunks j := by
  have hres : ∀ j, (b.chunks.resize ((n + cs - 1) / cs) none).slot j ≠ none →
      Present b.chunks j := by
    intro j hj
    simp only [ChunkVec.resize] at hj
    split at hj
    · rename_i hin
      exact ⟨hin.1, hj⟩
    · exact absurd rfl hj
  simp only [truncate] at h
  split at h
  · exact absurd h (by simp)
  · split at h
    · split at h
      · exact absurd h (by simp)
      · simp only [Option.some.injEq, Prod.mk.injEq] at h
        obtain ⟨hb, _⟩ := h
        subst hb
        intro j ⟨_, hj2⟩
        exact hres j hj2
      · rename_i c hget
        simp only [Option.some.injEq, Prod.mk.injEq] at h
        obtain ⟨hb, _⟩ := h
        subst hb
        intro j ⟨_, hj2⟩
        simp only [ChunkVec.get?] at hget
        split at hget
        · simp only [Option.some.injEq] at hget
          by_cases hj : j = toUInt32 (b.len / cs)
          · subst hj
            exact hres _ (by rw [hget]; simp)
          · simp only [ChunkVec.set, if_neg hj] at hj2
            exact hres j hj2
        · exact absurd hget (by simp)
    · simp only [Option.some.injEq, Prod.mk.injEq] at h
      obtain ⟨hb, _⟩ := h
      subst hb
      intro j ⟨_, hj2⟩
      exact hres j hj2

theorem truncate_shrink_eq {cs : Nat} (hcs : 0 < cs) (b : BigBuffer) (hcov : Covers cs b)
    (hv : b.chunks.size < 2 ^ 32) (n : Nat) (h : n ≤ b.len) :
    truncate cs b n = some (⟨b.chunks.resize ((n + cs - 1) / cs) none, n⟩, 0) := by
  have hn : ¬ n > b.len := by omega
  have hceil : (n + cs - 1) / cs ≤ b.chunks.size :=
    ceil_div_le_of_covers hcs (by unfold Covers at hcov; omega)
  have hfree : (if n < b.len then
      freeLoop b.chunks ((n + cs - 1) / cs) b.chunks.size (toUInt32 ((n + cs - 1) / cs))
      else some ()) = some () := by
    split
    · rw [toUInt32_of_lt (by omega)]
      exact freeLoop_spec b.chunks _ hv _ _ (Nat.le_refl _) (Nat.sub_le _ _)
    · rfl
  simp only [truncate, hfree, if_neg hn]

theorem truncate_grow_slots {cs : Nat} (hcs : 0 < cs) (b : BigBuffer) (n : Nat)
    (hgrow : b.len < n) (hpos32 : b.len / cs < 2 ^ 32) :
    ∃ b', truncate cs b n = some (b', 0) ∧ b'.len = n ∧
      b'.chunks.size = (n + cs - 1) / cs ∧
      (∀ j, j ≠ b.len / cs →
        b'.chunks.slot j = (b.chunks.resize ((n + cs - 1) / cs) none).slot j) ∧
      (∀ c, (b.chunks.resize ((n + cs - 1) / cs) none).slot (b.len / cs) = some c →
        b'.chunks.slot (b.len / cs) = some (memset0 c (b.len % cs)
          ((if n / cs > b.len / cs then cs - 1 else n % cs) - b.len % cs + 1))) ∧
      ((b.chunks.resize ((n + cs - 1) / cs) none).slot (b.len / cs) = none →
        b'.chunks.slot (b.len / cs) = none) := by
  have hg : n > b.len := hgrow
  have hng : ¬ n < b.len := by omega
  have hpos : b.len / cs < (b.chunks.resize ((n + cs - 1) / cs) none).size :=
    div_lt_ceil_div hcs hgrow
  simp only [truncate, if_neg hng, if_pos hg, toUInt32_of_lt hpos32, ChunkVec.get?, if_pos hpos]
  cases hsl : (b.chunks.resize ((n + cs - 1) / cs) none).slot (b.len / cs) with
  | none =>
    refine ⟨_, rfl, rfl, rfl, fun j _ => rfl, fun c hc => by simp at hc, fun _ => hsl⟩
  | some c =>
    refine ⟨_, rfl, rfl, rfl, ?_, ?_, fun h => by simp at h⟩
    · intro j hj
      simp only [ChunkVec.set, if_neg hj]
    · intro c' hc'
      simp only [Option.some.injEq] at hc'
      subst hc'
      simp only [ChunkVec.set, if_pos]

/-- `truncate` returns on every buffer whose slots reach its length and number less than
`2^32`. -/
theorem truncate_spec {cs : Nat} (hcs : 0 < cs) (b : BigBuffer) (hcov : Covers cs b)
    (hv : b.chunks.size < 2 ^ 32) (n : Nat) :
    ∃ b', truncate cs b n = some (b', 0) ∧ b'.len = n ∧
      b'.chunks.size = (n + cs - 1) / cs := by
  by_cases hgrow : b.len < n
  · have hpos32 : b.len / cs < 2 ^ 32 := by
      have := div_le_of_le_mul hcs hcov
      omega
    obtain ⟨b', h1, h2, h3, _⟩ := truncate_grow_slots hcs b n hgrow hpos32
    exact ⟨b', h1, h2, h3⟩
  · exact ⟨_, truncate_shrink_eq hcs b hcov hv n (by omega), rfl, rfl⟩

theorem truncate_present {cs : Nat} (hcs : 0 < cs) (b : BigBuffer) (hcov : Covers cs b)
    (hv : b.chunks.size < 2 ^ 32) (n : Nat) :
    ∃ b', truncate cs b n = some (b', 0) ∧ ∀ j, Present b'.chunks j → Present b.chunks j := by
  obtain ⟨b', h1, _⟩ := truncate_spec hcs b hcov hv n
  exact ⟨b', h1, truncate_present_of_some h1⟩

/-- On a vector of `2^32` slots or more the `free` loop does not come to an end. -/
theorem freeLoop_none (v : ChunkVec) (keep : Nat) (hv : 2 ^ 32 ≤ v.size) :
    ∀ (fuel i : Nat), i < 2 ^ 32 → freeLoop v keep fuel i = none := by
  intro fuel
  induction fuel with
  | zero =>
    intro i hi
    have hlt : i < v.size := by omega
    simp only [freeLoop, if_pos hlt]
  | succ fuel ih =>
    intro i hi
    have hlt : i < v.size := by omega
    simp only [freeLoop, if_pos hlt]
    split
    · rfl
    · exact ih _ (Nat.mod_lt _ (by decide))

/-- A shrinking `truncate` on a vector of `2^32` slots or more does not return. -/
theorem truncate_free_loop_endless (cs : Nat) (b : BigBuffer) (n : Nat) (hn : n < b.len)
    (hv : 2 ^ 32 ≤ b.chunks.size) : truncate cs b n = none := by
  have hfree := freeLoop_none b.chunks ((n + cs - 1) / cs) hv b.chunks.size
    (toUInt32 ((n + cs - 1) / cs)) (Nat.mod_lt _ (by decide))
  simp only [truncate, if_pos hn, hfree]

/-! ## Reachable states -/

theorem covers_write {cs : Nat} (hcs : 0 < cs) {malloc : Nat → Option Chunk} {b b' : BigBuffer}
    {buf : Nat → Byte} {size offset : Nat} {ret : Int} (hcov : Covers cs b)
    (h : write cs malloc b buf size offset = some (b', ret)) : Covers cs b' := by
  obtain ⟨h1, h2, h3, _⟩ := write_eq h
  have hext : offset + size < b'.chunks.size * cs := (Nat.div_lt_iff_lt_mul hcs).1 h3
  have hmono : b.chunks.size * cs ≤ b'.chunks.size * cs := Nat.mul_le_mul_right _ h2
  unfold Covers at *
  rw [h1]
  unfold newLen
  split <;> omega

theorem covers_truncate {cs : Nat} (hcs : 0 < cs) {b b' : BigBuffer} {n : Nat} {ret : Int}
    (h : truncate cs b n = some (b', ret)) : Covers cs b' := by
  obtain ⟨_, h2, h3⟩ := truncate_eq h
  unfold Covers
  rw [h2, h3]
  exact ceil_div_covers hcs n

theorem covers_step {cs : Nat} (hcs : 0 < cs) {b b' : BigBuffer} {op : Op}
    (hcov : Covers cs b) (h : step cs b op = some b') : Covers cs b' := by
  cases op with
  | write malloc buf size offset =>
    simp only [step] at h
    split at h
    · rename_i b1 ret hw
      split at h
      · simp only [Option.some.injEq] at h
        subst h
        exact covers_write hcs hcov hw
      · exact absurd h (by simp)
    · exact absurd h (by simp)
  | truncate offset =>
    simp only [step] at h
    split at h
    · rename_i b1 ret ht
      simp only [Option.some.injEq] at h
      subst h
      exact covers_truncate hcs ht
    · exact absurd h (by simp)

theorem covers_run {cs : Nat} (hcs : 0 < cs) :
    ∀ (ops : List Op) (b b' : BigBuffer), Covers cs b → run cs ops b = some b' → Covers cs b' := by
  intro ops
  induction ops with
  | nil =>
    intro b b' hcov h
    simp only [run, Option.some.injEq] at h
    subst h
    exact hcov
  | cons op ops ih =>
    intro b b' hcov h
    simp only [run] at h
    split at h
    · rename_i b1 hs
      exact ih b1 b' (covers_step hcs hcov hs) h
    · exact absurd h (by simp)

theorem reachable_covers {cs : Nat} (hcs : 0 < cs) {b : BigBuffer} (h : Reachable cs b) :
    Covers cs b := by
  obtain ⟨ops, hops⟩ := h
  exact covers_run hcs ops empty b (by simp [Covers, empty]) hops

/-! ## The two comparisons below `2^32` -/

theorem clamped_eq_min {len size offset : Nat}
    (hsmall : len - offset < 2 ^ 32) : clamped len size offset = min size (len - offset) := by
  unfold clamped
  rw [Nat.mod_eq_of_lt hsmall]
  split <;> omega

theorem newLen_eq_max {len size offset : Nat} (hsmall : len - offset < 2 ^ 32) :
    newLen len size offset = max len (offset + size) := by
  unfold newLen
  rw [Nat.mod_eq_of_lt hsmall]
  split <;> omega

/-! ## Growth by `truncate` on a buffer without chunks beyond its end -/

theorem div_le_of_lt_mul_succ {cs : Nat} (hcs : 0 < cs) {j len : Nat} (h : j * cs < len) :
    j ≤ len / cs := by
  rw [Nat.le_div_iff_mul_le hcs]
  omega

theorem truncate_grow_byteAt {cs : Nat} (hcs : 0 < cs) (b : BigBuffer) (hns : NoStale cs b)
    (n : Nat) (hgrow : b.len < n) (hpos32 : b.len / cs < 2 ^ 32) :
    ∃ b', truncate cs b n = some (b', 0) ∧ b'.len = n ∧
      ∀ p, b.len ≤ p → p < n → byteAt cs b'.chunks p = 0 := by
  obtain ⟨b', h1, h2, _, h4, h5, h6⟩ := truncate_grow_slots hcs b n hgrow hpos32
  refine ⟨b', h1, h2, ?_⟩
  intro p hp1 hp2
  have hj : b.len / cs ≤ p / cs := Nat.div_le_div_right hp1
  have hcp := coord_of_pos cs p
  have hcl := coord_of_pos cs b.len
  have hcn := coord_of_pos cs n
  have hmp := Nat.mod_lt p hcs
  have hml := Nat.mod_lt b.len hcs
  have hmn := Nat.mod_lt n hcs
  rcases Nat.eq_or_lt_of_le hj with heq | hlt
  · -- the chunk of the old end
    cases hsl : (b.chunks.resize ((n + cs - 1) / cs) none).slot (b.len / cs) with
    | none =>
      have := h6 hsl
      rw [heq] at this
      simp only [byteAt, this]
    | some c =>
      have := h5 c hsl
      rw [heq] at this
      simp only [byteAt, this, memset0]
      have hstart : b.len % cs ≤ p % cs := by
        rw [heq] at hcl; omega
      have hend : p % cs < b.len % cs +
          ((if n / cs > p / cs then cs - 1 else n % cs) - b.len % cs + 1) := by
        by_cases hc : n / cs > p / cs
        · rw [if_pos hc]; omega
        · rw [if_neg hc]
          have hle : p / cs ≤ n / cs := Nat.div_le_div_right (Nat.le_of_lt hp2)
          have heq2 : n / cs = p / cs := by omega
          rw [heq2] at hcn
          omega
      rw [if_pos ⟨hstart, hend⟩]
  · -- a later chunk: it is absent
    have hne : p / cs ≠ b.len / cs := by omega
    have hnone : (b.chunks.resize ((n + cs - 1) / cs) none).slot (p / cs) = none := by
      simp only [ChunkVec.resize]
      split
      · rename_i hin
        cases hs : b.chunks.slot (p / cs) with
        | none => rfl
        | some c =>
          have := hns (p / cs) hin.1 (by rw [hs]; simp)
          have := div_le_of_lt_mul_succ hcs this
          omega
      · rfl
    simp only [byteAt, h4 _ hne, hnone]

/-- Growth by `truncate` reads as zeros on a buffer in which no slot that holds a block
starts at or beyond `len`, as long as `chunkSize ≤ 2^31` and the new number of slots is
below `2^31`. -/
theorem truncate_grow_reads_zero {cs : Nat} (hcs : 0 < cs) (hcs31 : cs ≤ 2 ^ 31)
    (b : BigBuffer) (hns : NoStale cs b) (n : Nat) (hgrow : b.len < n)
    (hn31 : (n + cs - 1) / cs < 2 ^ 31) :
    ∃ b', truncate cs b n = some (b', 0) ∧
      ∀ size offset : Nat, offset ≤ n →
        ∃ r, read cs b' size offset = some r ∧
          ∀ i, i < r.dst.length → b.len ≤ offset + i → r.dst.getD i 1 = 0 := by
  have hpos32 : b.len / cs < 2 ^ 32 := by
    have := div_lt_ceil_div hcs hgrow
    omega
  obtain ⟨b', h1, h2, h3⟩ := truncate_grow_byteAt hcs b hns n hgrow hpos32
  refine ⟨b', h1, ?_⟩
  intro size offset ho
  have hcov : Covers cs b' := covers_truncate hcs h1
  have hv : b'.chunks.size < 2 ^ 31 := by rw [(truncate_eq h1).2.2]; exact hn31
  have hle := clamped_le b'.len size offset
  refine ⟨_, read_spec hcs hcs31 b' hv size offset hcov (by omega), ?_⟩
  intro i hi hp
  simp only [List.length_map, List.length_range] at hi
  have hz := h3 (offset + i) hp (by omega)
  simp [List.getD, hi, hz]

/-! ## The constructor on a stream of full blocks -/

theorem fullPulls_cons {cs : Nat} (hcs : 0 < cs) {p : List Byte} {rest : List (List Byte)}
    (h : FullPulls cs (p :: rest)) :
    0 < p.length ∧ p.length ≤ cs ∧ (rest ≠ [] → p.length = cs) ∧ FullPulls cs rest := by
  cases rest with
  | nil =>
    simp only [FullPulls] at h
    exact ⟨h.1, h.2, fun hne => absurd rfl hne, trivial⟩
  | cons q rest =>
    simp only [FullPulls] at h
    exact ⟨by omega, by omega, fun _ => h.1, h.2⟩

theorem ctorLoop_full {cs : Nat} (hcs : 0 < cs) (malloc : Nat → Option Chunk)
    (hmalloc : ∀ j, ∃ c, malloc j = some c) :
    ∀ (pulls : List (List Byte)) (k : Nat) (buf : Chunk) (v : ChunkVec),
      FullPulls cs pulls →
      ∃ v', ctorLoop malloc pulls k buf v = Except.ok v' ∧
        v'.size = v.size + pulls.length ∧
        (∀ j, j < v.size → v'.slot j = v.slot j) ∧
        pulls.flatten.length ≤ pulls.length * cs ∧
        ∀ t, t < pulls.flatten.length →
          byteAt cs v' (v.size * cs + t) = pulls.flatten.getD t 0 := by
  intro pulls
  induction pulls with
  | nil =>
    intro k buf v _
    refine ⟨v, rfl, rfl, fun _ _ => rfl, by simp, ?_⟩
    intro t ht
    simp at ht
  | cons p rest ih =>
    intro k buf v hfull
    obtain ⟨hp1, hp2, hp3, hrest⟩ := fullPulls_cons hcs hfull
    obtain ⟨nb, hnb⟩ := hmalloc (k + 1)
    obtain ⟨v', hv1, hv2, hv3, hv4, hv5⟩ :=
      ih (k + 1) nb (v.push_back (some (fread buf p))) hrest
    have hsz : (v.push_back (some (fread buf p))).size = v.size + 1 := rfl
    rw [hsz] at hv2 hv3 hv5
    have hp1' : p.length > 0 := hp1
    refine ⟨v', ?_, ?_, ?_, ?_, ?_⟩
    · simp only [ctorLoop, if_pos hp1', hnb]
      exact hv1
    · rw [hv2, List.length_cons]; omega
    · intro j hj
      rw [hv3 j (by omega)]
      simp only [ChunkVec.push_back, if_neg (Nat.ne_of_lt hj)]
    · rw [List.flatten_cons, List.length_append, List.length_cons, Nat.add_mul, Nat.one_mul]
      omega
    · intro t ht
      rw [List.flatten_cons, List.length_append] at ht
      rw [List.flatten_cons]
      by_cases htp : t < p.length
      · have hslot : v'.slot v.size = some (fread buf p) := by
          rw [hv3 v.size (by omega)]
          simp [ChunkVec.push_back]
        have hd : (v.size * cs + t) / cs = v.size := div_of_coord (by omega)
        have hm : (v.size * cs + t) % cs = t := mod_of_coord (by omega)
        simp only [byteAt, hd, hm, hslot, fread, if_pos htp]
        simp [List.getD, List.getElem?_append_left htp]
      · have hne : rest ≠ [] := by
          intro h
          subst h
          simp at ht
          omega
        have hpc := hp3 hne
        have ht' : t - p.length < rest.flatten.length := by omega
        have h5 := hv5 (t - p.length) ht'
        have hpos : (v.size + 1) * cs + (t - p.length) = v.size * cs + t := by
          rw [Nat.add_mul, Nat.one_mul]; omega
        rw [hpos] at h5
        rw [h5]
        simp [List.getD, List.getElem?_append_right (Nat.le_of_not_lt htp)]

theorem fullPulls_length {cs : Nat} (hcs : 0 < cs) :
    ∀ pulls : List (List Byte), FullPulls cs pulls → pulls.length ≤ pulls.flatten.length := by
  intro pulls
  induction pulls with
  | nil => intro _; simp
  | cons p rest ih =>
    intro h
    obtain ⟨hp1, _, _, hrest⟩ := fullPulls_cons hcs h
    have := ih hrest
    rw [List.flatten_cons, List.length_append, List.length_cons]
    omega

/-- When every block of the stream but the last fills a whole chunk, no allocation fails,
`chunkSize ≤ 2^31` and the entry has less than `2^31` bytes, the constructor reproduces the
entry: `read(dst, L, 0)` returns `L` and the bytes of the entry. -/
theorem ofEntry_full_pulls {cs : Nat} (hcs : 0 < cs) (hcs31 : cs ≤ 2 ^ 31)
    (malloc : Nat → Option Chunk)
    (hmalloc : ∀ j, ∃ c, malloc j = some c) (pulls : List (List Byte))
    (hfull : FullPulls cs pulls) (hL : pulls.flatten.length < 2 ^ 31) :
    ∃ b, ofEntry malloc pulls 0 pulls.flatten.length = Except.ok b ∧
      read cs b pulls.flatten.length 0
        = some ⟨(pulls.flatten.length : Int), pulls.flatten⟩ := by
  obtain ⟨buf, hbuf⟩ := hmalloc 0
  obtain ⟨v', h1, h2, _, h4, h5⟩ := ctorLoop_full hcs malloc hmalloc pulls 0 buf ChunkVec.nil hfull
  have hnil : ChunkVec.nil.size = 0 := rfl
  rw [hnil, Nat.zero_add] at h2
  have hlen := fullPulls_length hcs pulls hfull
  refine ⟨⟨v', pulls.flatten.length⟩, ?_, ?_⟩
  · simp only [ofEntry, hbuf, h1]
    simp
  · have hcl : clamped pulls.flatten.length pulls.flatten.length 0 = pulls.flatten.length := by
      unfold clamped
      split <;> omega
    rw [read_spec_of_bound hcs hcs31 ⟨v', pulls.flatten.length⟩
      (by show v'.size < 2 ^ 31
          rw [h2]; omega) pulls.flatten.length 0
      (by show 0 + clamped pulls.flatten.length pulls.flatten.length 0 ≤ v'.size * cs
          rw [hcl, h2]; omega)
      (Nat.zero_le _)]
    show some (ReadResult.mk _ _) = _
    have hbytes : ((List.range (clamped pulls.flatten.length pulls.flatten.length 0)).map
        fun t => byteAt cs v' (0 + t)) = pulls.flatten := by
      rw [hcl]
      conv => rhs; rw [← range_map_getD pulls.flatten]
      apply List.map_congr_left
      intro t ht
      have ht' : t < pulls.flatten.length := List.mem_range.1 ht
      have := h5 t ht'
      rw [hnil, Nat.zero_mul] at this
      rw [this]
      rfl
    rw [hcl] at hbytes
    simp only [hbytes, hcl, toInt32_natCast hL]

/-! ## `truncate` and the bytes below the cut -/

/-- What `write` leaves when an allocation fails.  For `0 < chunkSize ≤ 2^31`, on a buffer
whose slot vector reaches its length and has less than `2^31` slots, and for a range whose
last slot index is below `2^31 - 1`: `write` returns; it returns `-EIO` when some slot of
the written range holds no block and gets none from `malloc`, and only then as long as
`size` is less than `2^31`; the length is the one its length test computes and the slots
are extended, whatever it returns; and when the first such slot is `k`, every position of
the written range below `k * chunkSize` is read back with the byte of `buf` that was
destined for it. -/
theorem write_eio_spec {cs : Nat} (hcs : 0 < cs) (hcs31 : cs ≤ 2 ^ 31)
    (malloc : Nat → Option Chunk) (b : BigBuffer)
    (hcov : Covers cs b) (buf : Nat → Byte) (size offset : Nat)
    (hv : b.chunks.size < 2 ^ 31) (hb : (offset + size) / cs + 1 < 2 ^ 31) :
    ∃ b' ret, write cs malloc b buf size offset = some (b', ret) ∧
      ((∃ k, touched cs offset size k ∧ ¬ Present b.chunks k ∧ malloc k = none) →
        ret = - EIO) ∧
      (size < 2 ^ 31 → ret = - EIO →
        ∃ k, touched cs offset size k ∧ ¬ Present b.chunks k ∧ malloc k = none) ∧
      b'.len = newLen b.len size offset ∧
      b'.chunks.size = max b.chunks.size ((offset + size) / cs + 1) ∧
      ∀ k, failsAt cs malloc (extended cs b.chunks size offset) offset size k →
        ∀ p, offset ≤ p → p < offset + size → p < k * cs →
          ∀ rsize roff : Nat, roff ≤ b'.len →
            ∃ r, read cs b' rsize roff = some r ∧
              ∀ i, i < r.dst.length → roff + i = p → r.dst.getD i 0 = buf (p - offset) := by
  obtain ⟨b', ret, hw, hlen, hsz⟩ := write_total hcs hcs31 malloc b buf size offset hb
  have hsz := hsz (by omega)
  have hcov' : Covers cs b' := covers_write hcs hcov hw
  have hv' : b'.chunks.size < 2 ^ 31 := by rw [hsz]; omega
  have hext := extended_covers hcs
    (extendLoop_extended cs b.chunks size offset (by omega))
  have hnone : ∀ k, touched cs offset size k →
      ((extended cs b.chunks size offset).slot k = none ↔ ¬ Present b.chunks k) := by
    intro k hk
    exact extended_slot_none_iff cs b.chunks size offset k (touched_lt_size hk (by omega))
  refine ⟨b', ret, hw, ?_, ?_, hlen, hsz, ?_⟩
  · intro ⟨k, hk1, hk2, hk3⟩
    rcases write_ret_cases hcs hcs31 malloc b buf size offset hb with
      ⟨hm, b1, h1⟩ | ⟨⟨k', hk'⟩, b1, h1⟩
    · obtain ⟨c, hc⟩ := hm k hk1 ((hnone k hk1).2 hk2)
      rw [hk3] at hc
      exact absurd hc (by simp)
    · rw [h1] at hw
      simp only [Option.some.injEq, Prod.mk.injEq] at hw
      exact hw.2.symm
  · intro hs hret
    rcases write_ret_cases hcs hcs31 malloc b buf size offset hb with
      ⟨hm, b1, h1⟩ | ⟨⟨k, hk⟩, b1, h1⟩
    · rw [h1] at hw
      simp only [Option.some.injEq, Prod.mk.injEq] at hw
      rw [← hw.2, toInt32_natCast hs] at hret
      simp only [ EIO] at hret
      omega
    · exact ⟨k, hk.1, (hnone k hk.1).1 hk.2.1, hk.2.2.1⟩
  · intro k hk p hp1 hp2 hp3 rsize roff hroff
    obtain ⟨v', h1, _, _, h4⟩ := write_fail hcs hcs31 malloc b buf size offset k hb hk
    rw [h1] at hw
    simp only [Option.some.injEq, Prod.mk.injEq] at hw
    obtain ⟨hb', _⟩ := hw
    subst hb'
    obtain ⟨r, hr1, _, _, hr3⟩ := read_getD hcs hcs31 _ hv' hcov' rsize roff hroff
    refine ⟨r, hr1, ?_⟩
    intro i hi hip
    rw [hr3 i hi, hip]
    have hpo : offset + (p - offset) = p := by omega
    have ht := touched_of_pos hcs offset size (p - offset) (by omega)
    rw [hpo] at ht
    have hjk : p / cs < k := (Nat.div_lt_iff_lt_mul hcs).2 hp3
    obtain ⟨c0, c', _, hs, hbytes⟩ := h4 (p / cs) ht hjk
    have hco := coord_of_pos cs p
    have hlt := Nat.mod_lt p hcs
    have hcond : offset ≤ p / cs * cs + p % cs ∧ p / cs * cs + p % cs < offset + size := by
      omega
    show byteAt cs v' p = _
    simp only [byteAt, hs]
    rw [hbytes _ hlt, if_pos hcond, hco]

/-! ## What a successful `write` leaves outside the written range -/

theorem write_frame_byteAt {cs : Nat} (hcs : 0 < cs) {malloc : Nat → Option Chunk}
    {b b' : BigBuffer} {buf : Nat → Byte} {size offset : Nat} {ret : Int}
    (h : write cs malloc b buf size offset = some (b', ret)) (hret : 0 ≤ ret)
    (hcov : Covers cs b) (p : Nat) (hp : p < b.len) (hout : p < offset ∨ offset + size ≤ p)
    (hpres : Present b.chunks (p / cs) ∨ ¬ touched cs offset size (p / cs) ∨
      ∀ c, malloc (p / cs) = some c → c (p % cs) = 0) :
    byteAt cs b'.chunks p = byteAt cs b.chunks p := by
  obtain ⟨_, _, _, h3, h4⟩ := write_spec_of_some hcs h hret
  have hj : p / cs < b.chunks.size := by
    rw [Nat.div_lt_iff_lt_mul hcs]
    unfold Covers at hcov
    omega
  have hold := extended_slot_old cs b.chunks size offset (p / cs) hj
  have hco := coord_of_pos cs p
  have hlt := Nat.mod_lt p hcs
  by_cases ht : touched cs offset size (p / cs)
  · obtain ⟨c0, c', hbase, hs, hbytes⟩ := h4 (p / cs) ht
    have hcond : ¬ (offset ≤ p / cs * cs + p % cs ∧ p / cs * cs + p % cs < offset + size) := by
      omega
    simp only [byteAt, hs]
    rw [hbytes _ hlt, if_neg hcond]
    rcases hbase with hb1 | ⟨hb1, hb2⟩
    · rw [hold] at hb1
      rw [hb1]
    · rw [hold] at hb1
      rw [hb1]
      rcases hpres with hp1 | hp1 | hp1
      · exact absurd hb1 hp1.2
      · exact absurd ht hp1
      · exact hp1 c0 hb2
  · simp only [byteAt, h3 _ ht, hold]

/-! ## Buffers on which no `write` met the 32-bit conversion -/

theorem noStale_truncate {cs : Nat} (hcs : 0 < cs) {b b' : BigBuffer} {n : Nat} {ret : Int}
    (h : truncate cs b n = some (b', ret)) : NoStale cs b' := by
  obtain ⟨_, h2, h3⟩ := truncate_eq h
  intro j hj _
  rw [h3] at hj
  rw [h2]
  have h4 : j + 1 ≤ (n + cs - 1) / cs := hj
  rw [Nat.le_div_iff_mul_le hcs, Nat.add_mul, Nat.one_mul] at h4
  omega

theorem noStale_write {cs : Nat} (hcs : 0 < cs) {malloc : Nat → Option Chunk}
    {b b' : BigBuffer} {buf : Nat → Byte} {size offset : Nat} {ret : Int}
    (h : write cs malloc b buf size offset = some (b', ret)) (hret : 0 ≤ ret)
    (hns : NoStale cs b) (hlen : b.len ≤ b'.len) : NoStale cs b' := by
  intro j hj1 hj2
  have hl := (write_eq h).1
  have hle := le_newLen b.len size offset
  rcases (write_present hcs h hret j).1 ⟨hj1, hj2⟩ with hp | ht
  · have := hns j hp.1 hp.2
    omega
  · obtain ⟨_, _, h3⟩ := ht
    omega

theorem count_upper_truncate {cs : Nat} (hcs : 0 < cs) (n : Nat) :
    (n + cs - 1) / cs ≤ n / cs + 1 := by
  have h : (n + cs - 1) / cs < n / cs + 1 + 1 := by
    rw [Nat.div_lt_iff_lt_mul hcs, Nat.add_mul, Nat.add_mul, Nat.one_mul]
    have h1 := coord_of_pos cs n
    have h2 := Nat.mod_lt n hcs
    omega
  omega

theorem count_upper_write {cs : Nat} {malloc : Nat → Option Chunk}
    {b b' : BigBuffer} {buf : Nat → Byte} {size offset : Nat} {ret : Int}
    (h : write cs malloc b buf size offset = some (b', ret)) (hv : b.chunks.size < 2 ^ 32)
    (hup : b.chunks.size ≤ b.len / cs + 1) (hlen : b.len ≤ b'.len) :
    b'.chunks.size ≤ b'.len / cs + 1 := by
  obtain ⟨h1, _, _, h2⟩ := write_eq h
  have h2 := h2 hv
  have hle := le_newLen b.len size offset
  rw [← h1] at hle
  have hd1 : b.len / cs ≤ b'.len / cs := Nat.div_le_div_right hlen
  have hd2 : (offset + size) / cs ≤ b'.len / cs := Nat.div_le_div_right hle
  rw [h2]
  omega

theorem runNoWrap_inv {cs : Nat} (hcs : 0 < cs) :
    ∀ (ops : List Op) (b b' : BigBuffer),
      NoStale cs b → b.chunks.size ≤ b.len / cs + 1 → runNoWrap cs ops b = some b' →
      NoStale cs b' ∧ b'.chunks.size ≤ b'.len / cs + 1 ∧ run cs ops b = some b' := by
  intro ops
  induction ops with
  | nil =>
    intro b b' hns hup h
    simp only [runNoWrap, Option.some.injEq] at h
    subst h
    exact ⟨hns, hup, rfl⟩
  | cons op ops ih =>
    intro b b' hns hup h
    cases op with
    | write malloc buf size offset =>
      simp only [runNoWrap] at h
      split at h
      · rename_i hsmall
        split at h
        · rename_i b1 hs
          have hs' := hs
          simp only [step] at hs'
          split at hs'
          · rename_i b2 ret hw
            split at hs'
            · rename_i hret
              simp only [Option.some.injEq] at hs'
              subst hs'
              have hl := (write_eq hw).1
              have hlen : b.len ≤ b2.len := by
                rw [hl, newLen_eq_max hsmall.1]
                exact Nat.le_max_left _ _
              obtain ⟨g1, g2, g3⟩ := ih b2 b' (noStale_write hcs hw hret hns hlen)
                (count_upper_write hw hsmall.2 hup hlen) h
              refine ⟨g1, g2, ?_⟩
              simp only [run, hs]
              exact g3
            · exact absurd hs' (by simp)
          · exact absurd hs' (by simp)
        · exact absurd h (by simp)
      · exact absurd h (by simp)
    | truncate offset =>
      simp only [runNoWrap] at h
      split at h
      · rename_i b1 hs
        have hs' := hs
        simp only [step] at hs'
        split at hs'
        · rename_i b2 ret ht
          simp only [Option.some.injEq] at hs'
          subst hs'
          obtain ⟨_, t2, t3⟩ := truncate_eq ht
          have hup' : b2.chunks.size ≤ b2.len / cs + 1 := by
            rw [t3, t2]
            exact count_upper_truncate hcs offset
          obtain ⟨g1, g2, g3⟩ := ih b2 b' (noStale_truncate hcs ht) hup' h
          refine ⟨g1, g2, ?_⟩
          simp only [run, hs]
          exact g3
        · exact absurd hs' (by simp)
      · exact absurd h (by simp)

/-- As long as no `write` has met the conversion `unsigned(len - offset)` with a difference
of `2^32` or more, nor a vector of `2^32` slots or more, the buffer is reachable in the
ordinary sense, no slot that holds a block starts at or beyond `len`, and the number of
slots lies between `ceil(len / chunkSize)` and `floor(len / chunkSize) + 1`. -/
theorem reachableNoWrap_inv {cs : Nat} (hcs : 0 < cs) {b : BigBuffer}
    (h : ReachableNoWrap cs b) :
    Reachable cs b ∧ NoStale cs b ∧
      (b.len + cs - 1) / cs ≤ b.chunks.size ∧ b.chunks.size ≤ b.len / cs + 1 := by
  obtain ⟨ops, hops⟩ := h
  have hns : NoStale cs empty := by
    intro j hj
    exact absurd hj (by simp [empty, ChunkVec.nil])
  have hup : empty.chunks.size ≤ empty.len / cs + 1 := by simp [empty, ChunkVec.nil]
  obtain ⟨g1, g2, g3⟩ := runNoWrap_inv hcs ops empty b hns hup hops
  have hr : Reachable cs b := ⟨ops, g3⟩
  exact ⟨hr, g1, ceil_div_le_of_covers hcs (reachable_covers hcs hr), g2⟩

/-- The range `[start, end]` that `truncate` fills with zeroes on growth lies inside one
chunk: `start ≤ end < chunkSize`. -/
theorem truncate_fill_range {cs : Nat} (hcs : 0 < cs) (len n : Nat) (hgrow : len < n) :
    len % cs ≤ (if n / cs > len / cs then cs - 1 else n % cs) ∧
      (if n / cs > len / cs then cs - 1 else n % cs) < cs := by
  have h1 := coord_of_pos cs len
  have h2 := coord_of_pos cs n
  have h3 := Nat.mod_lt len hcs
  have h4 := Nat.mod_lt n hcs
  have h5 : len / cs ≤ n / cs := Nat.div_le_div_right (Nat.le_of_lt hgrow)
  by_cases hc : n / cs > len / cs
  · rw [if_pos hc]; omega
  · rw [if_neg hc]
    have h6 : n / cs = len / cs := by omega
    rw [h6] at h2
    omega

/-- Growth by `truncate` reads as zeros on every buffer on which no `write` met the 32-bit
conversion, as long as `chunkSize ≤ 2^31` and the new number of slots is below `2^31`. -/
theorem truncate_grow_reads_zero_noWrap {cs : Nat} (hcs : 0 < cs) (hcs31 : cs ≤ 2 ^ 31)
    (b : BigBuffer) (hr : ReachableNoWrap cs b) (n : Nat) (hgrow : b.len < n)
    (hn31 : (n + cs - 1) / cs < 2 ^ 31) :
    ∃ b', truncate cs b n = some (b', 0) ∧
      ∀ size offset : Nat, offset ≤ n →
        ∃ r, read cs b' size offset = some r ∧
          ∀ i, i < r.dst.length → b.len ≤ offset + i → r.dst.getD i 1 = 0 :=
  truncate_grow_reads_zero hcs hcs31 b (reachableNoWrap_inv hcs hr).2.1 n hgrow hn31

/-! ## The write-back adapter on a buffer of less than `2^31` bytes -/

theorem advance_ofNat (pos r : Nat) (h : pos + r < 2 ^ 64) :
    advance pos ((r : Nat) : Int) = pos + r := by
  unfold advance
  omega

theorem ceil_div_step {n x : Nat} (hn : 0 < n) (hx : 0 < x) :
    (x - min n x + n - 1) / n + 1 = (x + n - 1) / n := by
  rcases Nat.lt_or_ge x n with h | h
  · have h1 : min n x = x := by omega
    have h2 : x - x + n - 1 = n - 1 := by omega
    rw [h1, h2, Nat.div_eq_of_lt (by omega)]
    have h3 : x + n - 1 = (x - 1) + n := by omega
    rw [h3, Nat.add_div_right _ hn, Nat.div_eq_of_lt (by omega)]
  · have h1 : min n x = n := by omega
    have h2 : x + n - 1 = (x - n + n - 1) + n := by omega
    rw [h1, h2, Nat.add_div_right _ hn]

theorem read_small {cs : Nat} (hcs : 0 < cs) (hcs31 : cs ≤ 2 ^ 31) (b : BigBuffer)
    (hv : b.chunks.size < 2 ^ 31) (hcov : Covers cs b)
    (hsmall : b.len < 2 ^ 31) (n pos : Nat) (hpos : pos ≤ b.len) :
    read cs b n pos = some ⟨((min n (b.len - pos) : Nat) : Int),
      (List.range (min n (b.len - pos))).map fun t => byteAt cs b.chunks (pos + t)⟩ := by
  rw [read_spec hcs hcs31 b hv n pos hcov hpos, clamped_eq_min (by omega),
    toInt32_natCast (by omega)]

theorem pullLoop_spec {cs : Nat} (hcs : 0 < cs) (hcs31 : cs ≤ 2 ^ 31) (b : BigBuffer)
    (hv : b.chunks.size < 2 ^ 31) (hcov : Covers cs b)
    (hsmall : b.len < 2 ^ 31) (sizeofStat : Int) (n : Nat) (hn : 0 < n) (mtime : Int) :
    ∀ (fuel pos : Nat), pos ≤ b.len → b.len - pos < fuel →
      ∃ calls : List (Int × List Byte),
        pullLoop cs sizeofStat n fuel ⟨pos, b, mtime⟩ = some (calls ++ [(0, [])], b.len) ∧
        calls.length = (b.len - pos + n - 1) / n ∧
        (∀ k, k < calls.length →
          (calls.getD k (0, [])).1 = ((min n (b.len - pos - k * n) : Nat) : Int) ∧
          (calls.getD k (0, [])).2.length = min n (b.len - pos - k * n) ∧
          pos + k * n < b.len) ∧
        (calls.map fun c => c.2).flatten
          = (List.range (b.len - pos)).map fun t => byteAt cs b.chunks (pos + t) := by
  intro fuel
  induction fuel with
  | zero => intro pos _ h; omega
  | succ fuel ih =>
    intro pos hpos hfuel
    have hread := read_small hcs hcs31 b hv hcov hsmall n pos hpos
    rcases Nat.eq_or_lt_of_le hpos with heq | hlt
    · -- the cursor is at the end: the call returns 0
      have hmin : min n (b.len - pos) = 0 := by omega
      rw [hmin] at hread
      have hadv : advance pos ((0 : Nat) : Int) = pos := by
        rw [advance_ofNat pos 0 (by omega)]; rfl
      refine ⟨[], ?_, ?_, ?_, ?_⟩
      · simp only [pullLoop, zipUserFunctionCallback, hread, hadv]
        simp [heq]
      · have : b.len - pos + n - 1 = n - 1 := by omega
        rw [this, Nat.div_eq_of_lt (by omega)]
        rfl
      · intro k hk
        simp at hk
      · have : b.len - pos = 0 := by omega
        rw [this]
        rfl
    · -- a block of `min n (len - pos)` bytes, then the rest
      have hr : 0 < min n (b.len - pos) := by omega
      have hrle : min n (b.len - pos) ≤ b.len - pos := Nat.min_le_right _ _
      have hadv : advance pos ((min n (b.len - pos) : Nat) : Int) = pos + min n (b.len - pos) :=
        advance_ofNat pos _ (by omega)
      obtain ⟨calls, h1, h2, h3, h4⟩ := ih (pos + min n (b.len - pos)) (by omega) (by omega)
      have hgt : ((min n (b.len - pos) : Nat) : Int) > 0 := by omega
      refine ⟨(((min n (b.len - pos) : Nat) : Int),
        (List.range (min n (b.len - pos))).map fun t => byteAt cs b.chunks (pos + t)) :: calls,
        ?_, ?_, ?_, ?_⟩
      · simp only [pullLoop, zipUserFunctionCallback, hread, hadv, if_pos hgt, h1]
        simp
      · rw [List.length_cons, h2]
        have hx : b.len - (pos + min n (b.len - pos)) = (b.len - pos) - min n (b.len - pos) := by
          omega
        rw [hx]
        exact ceil_div_step hn (by omega)
      · intro k hk
        cases k with
        | zero =>
          simp only [List.getD_cons_zero, Nat.zero_mul, Nat.sub_zero, List.length_map,
            List.length_range, Nat.add_zero]
          exact ⟨trivial, trivial, hlt⟩
        | succ k =>
          rw [List.length_cons] at hk
          have hk' : k < calls.length := by omega
          obtain ⟨g1, g2, g3⟩ := h3 k hk'
          have hfull : min n (b.len - pos) = n := by
            rcases Nat.lt_or_ge (b.len - pos) n with h | h
            · have : min n (b.len - pos) = b.len - pos := by omega
              rw [this] at g3
              omega
            · omega
          rw [hfull] at g1 g2 g3
          have hsm : (k + 1) * n = k * n + n := by rw [Nat.add_mul, Nat.one_mul]
          have hidx : b.len - (pos + n) - k * n = b.len - pos - (k + 1) * n := by omega
          rw [hidx] at g1 g2
          simp only [List.getD_cons_succ]
          exact ⟨g1, g2, by omega⟩
      · rw [List.map_cons, List.flatten_cons, h4]
        rw [range_map_split (fun t => byteAt cs b.chunks (pos + t)) (min n (b.len - pos))
          (b.len - pos) hrle]
        congr 1
        have hx : b.len - (pos + min n (b.len - pos)) = (b.len - pos) - min n (b.len - pos) := by
          omega
        rw [hx]
        apply List.map_congr_left
        intro t _
        congr 1
        omega

/-- On a reachable buffer of less than `2^31` bytes and less than `2^31` slots, with
`chunkSize ≤ 2^31`, `ZIP_SOURCE_OPEN` followed by `ZIP_SOURCE_READ` requests of `n > 0`
bytes drains the buffer once, whatever the cursor was before: the pull loop ends with a
call that returns 0, after `ceil(len / n)` calls that return `min(n, len - cursor) > 0`
with the cursor at `k * n < len` for the `k`-th of them; the cursor ends at `len`, and the
blocks returned, put together, are what `read(dst, len, 0)` returns. -/
theorem drain_spec {cs : Nat} (hcs : 0 < cs) (hcs31 : cs ≤ 2 ^ 31) (b : BigBuffer)
    (hr : Reachable cs b) (hv : b.chunks.size < 2 ^ 31)
    (hsmall : b.len < 2 ^ 31) (sizeofStat : Int) (n : Nat) (hn : 0 < n) (pos0 : Nat)
    (mtime : Int) :
    ∃ calls : List (Int × List Byte),
      drain cs sizeofStat n (b.len + 1) ⟨pos0, b, mtime⟩ = some (calls ++ [(0, [])], b.len) ∧
      calls.length = (b.len + n - 1) / n ∧
      (∀ k, k < calls.length →
        (calls.getD k (0, [])).1 = ((min n (b.len - k * n) : Nat) : Int) ∧
        (calls.getD k (0, [])).2.length = min n (b.len - k * n) ∧
        k * n < b.len) ∧
      read cs b b.len 0 = some ⟨(b.len : Int), (calls.map fun c => c.2).flatten⟩ := by
  have hcov := reachable_covers hcs hr
  obtain ⟨calls, h1, h2, h3, h4⟩ :=
    pullLoop_spec hcs hcs31 b hv hcov hsmall sizeofStat n hn mtime (b.len + 1) 0
      (Nat.zero_le _) (by omega)
  refine ⟨calls, ?_, ?_, ?_, ?_⟩
  · simp only [drain, zipUserFunctionCallback]
    exact h1
  · rw [h2, Nat.sub_zero]
  · intro k hk
    obtain ⟨g1, g2, g3⟩ := h3 k hk
    rw [Nat.sub_zero] at g1 g2
    rw [Nat.zero_add] at g3
    exact ⟨g1, g2, g3⟩
  · rw [h4, read_small hcs hcs31 b hv hcov hsmall b.len 0 (Nat.zero_le _)]
    simp

/-! ## The scenario of the specification (`chunkSize = 4`) -/

/-- `write("hello", 5, 0)` returns 5 and leaves length 5; `truncate(2)` leaves length 2 and
`read(10, 0)` returns the 2 bytes "he"; `truncate(6)` leaves length 6 and `read(6, 0)`
returns `'h','e',0,0,0,0`, whatever the fresh blocks held (here `0xaa`). -/
theorem spec_scenario :
    (write 4 (mallocFill 170) empty (ofList hello) 5 0).map (fun r => (r.2, r.1.len))
      = some (5, 5) ∧
    (match run 4 [Op.write (mallocFill 170) (ofList hello) 5 0, Op.truncate 2] empty with
      | some b => some (b.len, read 4 b 10 0)
      | none => none) = some (2, some ⟨2, [104, 101]⟩) ∧
    (match run 4 [Op.write (mallocFill 170) (ofList hello) 5 0, Op.truncate 2,
        Op.truncate 6] empty with
      | some b => some (b.len, read 4 b 6 0)
      | none => none) = some (6, some ⟨6, [104, 101, 0, 0, 0, 0]⟩) := by
  decide

/-- The adapter on the buffer left by `write("hello", 5, 0)` (`chunkSize = 4`), with a
prior cursor of 7 and requests of 2 bytes: three non-zero reads, then 0. -/
theorem drain_hello :
    (match run 4 [Op.write (mallocFill 170) (ofList hello) 5 0] empty with
      | some b => drain 4 88 2 10 ⟨7, b, 0⟩
      | none => none)
      = some ([(2, [104, 101]), (2, [108, 108]), (1, [111]), (0, [])], 5) := by
  decide


/-- C1, as stated, fails where a 32-bit variable of `write` or `read` runs over.  With
allocations that succeed: (1) `chunkSize = 4096`, `write(B, 2^31, 0)` of `2^31` bytes `'A'`
on the empty buffer stores them and returns `-2147483648` (the `int` counter wraps), not
`|B| = 2^31`, and the `read(dst, 2^31, 0)` that follows stores `2^31` bytes and returns
`-2147483648`; (2) `chunkSize = 4096`, on the buffer of length `2^43` left by
`truncate(2^43)`, `write("A", 1, 2^43)` indexes the vector with
`int chunk = 2^43 / 4096 = 2^31`, that is `-2^31`, and does not return a result; (3)
`chunkSize = 2^32 - 1`, on the buffer of length `2^31` left by `truncate(2^31)`,
`write("A", 1, 2^31)` copies to `chunks[0] + pos` with `int pos = 2^31`, that is `-2^31`,
and does not return a result. -/
theorem roundtrip_count_wraps :
    (write 4096 (mallocFill 0) empty (fun _ => 65) (2 ^ 31) 0).map
        (fun r => (r.2, (read 4096 r.1 (2 ^ 31) 0).map fun q => (q.ret, q.dst.length)))
      = some (-2147483648, some (-2147483648, 2 ^ 31)) ∧
    (match run 4096 [Op.truncate (2 ^ 43)] empty with
      | some b => some (b.len, (write 4096 (mallocFill 0) b (ofList [65]) 1 (2 ^ 43)).isSome)
      | none => none) = some (2 ^ 43, false) ∧
    (match run (2 ^ 32 - 1) [Op.truncate (2 ^ 31)] empty with
      | some b =>
        some (b.len, (write (2 ^ 32 - 1) (mallocFill 0) b (ofList [65]) 1 (2 ^ 31)).isSome)
      | none => none) = some (2 ^ 31, false) := by
  refine ⟨?_, by decide, by decide⟩
  obtain ⟨v', hw, hsz, _⟩ := write_spec (by decide : 0 < 4096) (by decide) (mallocFill 0) empty
    (fun _ => 65) (2 ^ 31) 0 (by decide) (fun j _ _ => ⟨_, rfl⟩)
  have hret : toInt32 ((2 ^ 31 : Nat) : Int) = -2147483648 := by decide
  have hnl : newLen empty.len (2 ^ 31) 0 = 2 ^ 31 := by decide
  have hcl : clamped (2 ^ 31) (2 ^ 31) 0 = 2 ^ 31 := by decide
  have hcov := extended_covers (by decide : 0 < 4096)
    (extendLoop_extended 4096 empty.chunks (2 ^ 31) 0 (by decide))
  rw [← hsz] at hcov
  rw [hret, hnl] at hw
  rw [hw]
  simp only [Option.map_some']
  rw [read_spec_of_index_bound (by decide : 0 < 4096) (by decide) ⟨v', 2 ^ 31⟩ (2 ^ 31) 0
    (2 ^ 19 + 1) (by decide)
    (by show 2 ^ 19 + 1 ≤ v'.size
        omega)
    (by show 0 + clamped (2 ^ 31) (2 ^ 31) 0 ≤ (2 ^ 19 + 1) * 4096
        rw [hcl]; decide)
    (Nat.zero_le _)]
  show some (_, some (toInt32 ((clamped (2 ^ 31) (2 ^ 31) 0 : Nat) : Int), _)) = _
  rw [hcl, hret]
  simp

/-- C1, amended.  Write/read round trip within the range of `int`: for
`0 < chunkSize ≤ 2^31`, an allocator that does not fail, every buffer, every byte
sequence `B` of less than `2^31` bytes and every offset `O` with
`floor((O + |B|) / chunkSize) + 1 < 2^31`, `write(B, |B|, O)` returns `|B|`, and the
`read(dst, |B|, O)` that follows returns `|B|` and stores exactly `B`. -/
theorem write_read_roundtrip (cs : Nat) (hcs : 0 < cs) (hcs31 : cs ≤ 2 ^ 31)
    (malloc : Nat → Option Chunk) (hmalloc : ∀ j, ∃ c, malloc j = some c) (b : BigBuffer)
    (B : List Byte) (O : Nat) (hB : B.length < 2 ^ 31)
    (hO : (O + B.length) / cs + 1 < 2 ^ 31) :
    ∃ b', write cs malloc b (ofList B) B.length O = some (b', (B.length : Int)) ∧
      read cs b' B.length O = some ⟨(B.length : Int), B⟩ := by
  obtain ⟨v', hw, hsz, _, htouch⟩ :=
    write_spec hcs hcs31 malloc b (ofList B) B.length O hO (fun j _ _ => hmalloc j)
  rw [toInt32_natCast hB] at hw
  refine ⟨⟨v', newLen b.len B.length O⟩, hw, ?_⟩
  have hle := le_newLen b.len B.length O
  have hcl := clamped_newLen b.len B.length O
  have hx := extendLoop_extended cs b.chunks B.length O (by omega)
  have hK : (O + B.length) / cs < v'.size := by
    rw [hsz]
    exact (extendLoop_sound _ _ _ _ _ hx rfl).2.1
  have hin : O + B.length < ((O + B.length) / cs + 1) * cs :=
    (Nat.div_lt_iff_lt_mul hcs).1 (Nat.lt_succ_self _)
  rw [read_spec_of_index_bound hcs hcs31 ⟨v', newLen b.len B.length O⟩ B.length O
    ((O + B.length) / cs + 1) hO hK
    (by show O + clamped (newLen b.len B.length O) B.length O ≤ _
        rw [hcl]; omega)
    (by show O ≤ newLen b.len B.length O
        omega)]
  show some (ReadResult.mk _ _) = _
  have hbytes : ((List.range (clamped (newLen b.len B.length O) B.length O)).map
      fun t => byteAt cs v' (O + t)) = B := by
    rw [hcl]
    conv => rhs; rw [← range_map_getD B]
    apply List.map_congr_left
    intro t ht
    have ht' : t < B.length := List.mem_range.1 ht
    obtain ⟨c0, c', _, hs, hb⟩ := htouch _ (touched_of_pos hcs O B.length t ht')
    have hco := coord_of_pos cs (O + t)
    have hlt := Nat.mod_lt (O + t) hcs
    have hcond : O ≤ (O + t) / cs * cs + (O + t) % cs ∧
        (O + t) / cs * cs + (O + t) % cs < O + B.length := by omega
    have hidx : (O + t) / cs * cs + (O + t) % cs - O = t := by omega
    simp only [byteAt, hs]
    rw [hb _ hlt, if_pos hcond, hidx]
  rw [hcl] at hbytes
  simp only [hbytes, hcl, toInt32_natCast hB]

/-- The scenario of C1 with `chunkSize = 4` and fresh blocks filled with `0xaa`: on the
empty buffer, `write("hello", 5, 0)` returns 5 and `read(5, 0)` then returns 5 and the
bytes of "hello". -/
theorem write_read_roundtrip_witness :
    0 < 4 ∧ 4 ≤ 2 ^ 31 ∧ (∀ j, ∃ c, mallocFill 170 j = some c) ∧
    hello.length < 2 ^ 31 ∧ (0 + hello.length) / 4 + 1 < 2 ^ 31 ∧
    ∃ b', write 4 (mallocFill 170) empty (ofList hello) hello.length 0
        = some (b', (hello.length : Int)) ∧
      read 4 b' hello.length 0 = some ⟨(hello.length : Int), hello⟩ :=
  ⟨by decide, by decide, fun _ => ⟨_, rfl⟩, by decide, by decide,
    write_read_roundtrip 4 (by decide) (by decide) (mallocFill 170) (fun _ => ⟨_, rfl⟩) empty
      hello 0 (by decide) (by decide)⟩

/-- C2. Loading an entry whose stream delivers a short block mid-way does not reproduce
the entry.  With `chunkSize = 4`, the entry "abcde" delivered as "ab" then "cde", and
fresh blocks filled with `0xff`: the constructor succeeds with `len = 5`, and `read(5, 0)`
returns 5 bytes `'a','b',0xff,0xff,'c'` instead of `'a','b','c','d','e'`.  Every block goes
to the start of a chunk of its own, whatever its length. -/
theorem ofEntry_short_pull :
    (match ofEntry (mallocFill 255) [[97, 98], [99, 100, 101]] 0 5 with
      | Except.ok b => read 4 b 5 0
      | Except.error _ => none) = some ⟨5, [97, 98, 255, 255, 99]⟩ := by
  decide

/-- C3. A byte that was never written is read back as allocator garbage.  With
`chunkSize = 4` and fresh blocks filled with `0xaa`: after `write("x", 1, 1)` on the empty
buffer, `read(1, 0)` returns the byte `0xaa` at position 0, not 0. -/
theorem read_unwritten_byte_garbage :
    (match run 4 [Op.write (mallocFill 170) (ofList [120]) 1 1] empty with
      | some b => read 4 b 1 0
      | none => none) = some ⟨1, [170]⟩ := by
  decide

/-- C4. Growth by `truncate` brings stale bytes back after a `write` hit the 32-bit
conversion.  With `chunkSize = 4096` and zero-filled fresh blocks: `write("A", 1, 4096)`,
`truncate(2^32)`, `write("h", 1, 0)` leave `len = 1` (the last `write` shrinks the buffer);
`truncate(4097)` then grows it to 4097, and `read(1, 4096)` returns `'A'` at position 4096,
inside `[1, 4097)`. -/
theorem truncate_grow_stale_after_wrapped_write :
    (run 4096 [Op.write (mallocFill 0) (ofList [65]) 1 4096, Op.truncate (2 ^ 32),
        Op.write (mallocFill 0) (ofList [104]) 1 0] empty).map (fun b => b.len) = some 1 ∧
    (match run 4096 [Op.write (mallocFill 0) (ofList [65]) 1 4096, Op.truncate (2 ^ 32),
        Op.write (mallocFill 0) (ofList [104]) 1 0, Op.truncate 4097] empty with
      | some b => some (b.len, read 4096 b 1 4096)
      | none => none) = some (4097, some ⟨1, [65]⟩) := by
  decide

/-- C5. A `write` past the end does not clear the gap.  With `chunkSize = 8` and
zero-filled fresh blocks: `write("hello", 5, 0)`, `truncate(2)` leave `len = 2`;
after `write("x", 1, 4)` the length is 5 and `read(2, 2)` returns `'l','l'` at positions
2 and 3, the bytes cut off by the `truncate`. -/
theorem write_past_end_gap_stale :
    (run 8 [Op.write (mallocFill 0) (ofList hello) 5 0, Op.truncate 2] empty).map
      (fun b => b.len) = some 2 ∧
    (match run 8 [Op.write (mallocFill 0) (ofList hello) 5 0, Op.truncate 2,
        Op.write (mallocFill 0) (ofList [120]) 1 4] empty with
      | some b => some (b.len, read 8 b 2 2)
      | none => none) = some (5, some ⟨2, [108, 108]⟩) := by
  decide

/-- C7. `read` copies more than it was asked for once `len - offset` reaches `2^32`.
With `chunkSize = 4096`: after `truncate(2^32 + 1)` on the empty buffer, `read(dst, 2, 0)`
compares `2 > unsigned(2^32 + 1) = 1`, replaces `size` by `len - offset` and stores
`2^32 + 1` bytes at `dst`, where `min(size, len - offset)` is 2; the `int` it returns is
`2^32 + 1` wrapped to 32 bits, that is 1. -/
theorem read_clamp_wraps :
    (match run 4096 [Op.truncate (2 ^ 32 + 1)] empty with
      | some b => (read 4096 b 2 0).map fun r => (r.ret, r.dst.length)
      | none => none) = some (1, 2 ^ 32 + 1) := by
  have hlen : (run 4096 [Op.truncate (2 ^ 32 + 1)] empty).map (fun b => (b.len, b.chunks.size))
      = some (2 ^ 32 + 1, 2 ^ 20 + 1) := by decide
  cases hrun : run 4096 [Op.truncate (2 ^ 32 + 1)] empty with
  | none => rw [hrun] at hlen; exact absurd hlen (by simp)
  | some b =>
    rw [hrun] at hlen
    simp only [Option.map_some', Option.some.injEq, Prod.mk.injEq] at hlen
    obtain ⟨hlen, hsz⟩ := hlen
    have hcov : Covers 4096 b := reachable_covers (by decide) ⟨_, hrun⟩
    have hcl : clamped b.len 2 0 = 2 ^ 32 + 1 := by rw [hlen]; decide
    have hret : toInt32 ((2 ^ 32 + 1 : Nat) : Int) = 1 := by decide
    simp only [read_spec (by decide) (by decide) b (by rw [hsz]; decide) 2 0 hcov
      (Nat.zero_le _), hcl, hret, Option.map_some', List.length_map, List.length_range]

/-- C8. `write` shrinks the buffer once `len - offset` reaches `2^32`.  With
`chunkSize = 4096`: after `truncate(2^32)` on the empty buffer, `write("h", 1, 0)`
compares `1 > unsigned(2^32) = 0`, returns 1 and leaves `len = 1`, where
`max(len, offset + size)` is `2^32`. -/
theorem write_len_wraps :
    (match run 4096 [Op.truncate (2 ^ 32)] empty with
      | some b => (write 4096 (mallocFill 0) b (ofList [104]) 1 0).map fun r => (r.1.len, r.2)
      | none => none) = some (1, 1) := by
  decide

/-- C9, as stated, fails: with `chunkSize = 4`, `write` of 4 bytes at offset 0 on the empty
buffer leaves `len = 4` and 2 slots, while `ceil(4 / 4) = 1`. -/
theorem chunk_count_aligned_write :
    (match run 4 [Op.write (mallocFill 0) (ofList hello) 4 0] empty with
      | some b => some (b.len, b.chunks.size, (b.len + 4 - 1) / 4)
      | none => none) = some (4, 2, 1) := by
  decide

/-- C9, amended.  For `chunkSize > 0`, in every state reachable from the empty buffer by
successful `write` and `truncate` calls the number of slots is at least
`ceil(len / chunkSize)`.  A `write` on it with `chunkSize ≤ 2^31` and
`floor((offset + size) / chunkSize) + 1 < 2^31` returns, and when the state has less than
`2^32` slots it leaves `max(old count, floor((offset + size) / chunkSize) + 1)` slots.  A
`truncate(n)` on a state of less than `2^32` slots returns 0 and leaves exactly
`ceil(n / chunkSize)` slots, and so does every `truncate(n)` that returns. -/
theorem chunk_count_bounds (cs : Nat) (hcs : 0 < cs) (b : BigBuffer) (hr : Reachable cs b) :
    (b.len + cs - 1) / cs ≤ b.chunks.size ∧
    (∀ (malloc : Nat → Option Chunk) (buf : Nat → Byte) (size offset : Nat),
      cs ≤ 2 ^ 31 → (offset + size) / cs + 1 < 2 ^ 31 →
      ∃ b' ret, write cs malloc b buf size offset = some (b', ret) ∧
        (b.chunks.size < 2 ^ 32 →
          b'.chunks.size = max b.chunks.size ((offset + size) / cs + 1))) ∧
    (b.chunks.size < 2 ^ 32 →
      ∀ n : Nat, ∃ b', truncate cs b n = some (b', 0) ∧
        b'.chunks.size = (n + cs - 1) / cs) ∧
    (∀ (n : Nat) (b' : BigBuffer) (ret : Int), truncate cs b n = some (b', ret) →
      ret = 0 ∧ b'.chunks.size = (n + cs - 1) / cs) := by
  have hcov := reachable_covers hcs hr
  refine ⟨ceil_div_le_of_covers hcs hcov, ?_, ?_, ?_⟩
  · intro malloc buf size offset hcs31 hb
    obtain ⟨b', ret, h1, _, h3⟩ := write_total hcs hcs31 malloc b buf size offset hb
    exact ⟨b', ret, h1, h3⟩
  · intro hv n
    obtain ⟨b', h1, _, h3⟩ := truncate_spec hcs b hcov hv n
    exact ⟨b', h1, h3⟩
  · intro n b' ret ht
    exact ⟨(truncate_eq ht).1, (truncate_eq ht).2.2⟩

/-- C9 amended, on the buffer left by the aligned `write` (`chunkSize = 4`, `len = 4`,
2 slots); a `write` of 1 byte at offset 9 then leaves 3 slots and `truncate(9)` leaves 3
slots. -/
theorem chunk_count_bounds_witness :
    0 < 4 ∧ Reachable 4 afterAlignedWrite ∧
    ((afterAlignedWrite.len + 4 - 1) / 4 ≤ afterAlignedWrite.chunks.size ∧
    (∀ (malloc : Nat → Option Chunk) (buf : Nat → Byte) (size offset : Nat),
      4 ≤ 2 ^ 31 → (offset + size) / 4 + 1 < 2 ^ 31 →
      ∃ b' ret, write 4 malloc afterAlignedWrite buf size offset = some (b', ret) ∧
        (afterAlignedWrite.chunks.size < 2 ^ 32 →
          b'.chunks.size = max afterAlignedWrite.chunks.size ((offset + size) / 4 + 1))) ∧
    (afterAlignedWrite.chunks.size < 2 ^ 32 →
      ∀ n : Nat, ∃ b', truncate 4 afterAlignedWrite n = some (b', 0) ∧
        b'.chunks.size = (n + 4 - 1) / 4) ∧
    (∀ (n : Nat) (b' : BigBuffer) (ret : Int), truncate 4 afterAlignedWrite n = some (b', ret) →
      ret = 0 ∧ b'.chunks.size = (n + 4 - 1) / 4)) ∧
    afterAlignedWrite.chunks.size < 2 ^ 32 ∧
    (write 4 (mallocFill 0) afterAlignedWrite (ofList [120]) 1 9).map
      (fun r => (r.2, r.1.chunks.size)) = some (1, 3) ∧
    (truncate 4 afterAlignedWrite 9).map (fun r => (r.2, r.1.chunks.size)) = some (0, 3) :=
  ⟨by decide, ⟨[Op.write (mallocFill 0) (ofList hello) 4 0], rfl⟩,
    chunk_count_bounds 4 (by decide) afterAlignedWrite
      ⟨[Op.write (mallocFill 0) (ofList hello) 4 0], rfl⟩,
    by decide, by decide, by decide⟩

/-- C10. After a `truncate` to `2^32` bytes a `read` at offset 0 stores more than it was
asked for.  With `chunkSize = 4096` and zero-filled fresh blocks: after
`write("hello", 5, 0)` and `truncate(2^32)` the length is `2^32` and there are
`2^32 / 4096 = 2^20` slots, and `read(dst, 5, 0)` compares `5 > unsigned(2^32) = 0` and
stores `2^32` bytes at `dst`, where `min(size, n)` is 5; the `int` it returns is `2^32`
wrapped to 32 bits, that is 0. -/
theorem truncate_then_read_wraps :
    (match run 4096 [Op.write (mallocFill 0) (ofList hello) 5 0, Op.truncate (2 ^ 32)] empty with
      | some b => (read 4096 b 5 0).map fun r => (b.len, b.chunks.size, r.ret, r.dst.length)
      | none => none) = some (2 ^ 32, 2 ^ 20, 0, 2 ^ 32) := by
  have hlen : (run 4096 [Op.write (mallocFill 0) (ofList hello) 5 0, Op.truncate (2 ^ 32)]
      empty).map (fun b => (b.len, b.chunks.size)) = some (2 ^ 32, 2 ^ 20) := by decide
  cases hrun : run 4096 [Op.write (mallocFill 0) (ofList hello) 5 0, Op.truncate (2 ^ 32)]
      empty with
  | none => rw [hrun] at hlen; exact absurd hlen (by simp)
  | some b =>
    rw [hrun] at hlen
    simp only [Option.map_some', Option.some.injEq, Prod.mk.injEq] at hlen
    obtain ⟨hlen, hsz⟩ := hlen
    have hcov : Covers 4096 b := reachable_covers (by decide) ⟨_, hrun⟩
    have hcl : clamped b.len 5 0 = 2 ^ 32 := by rw [hlen]; decide
    have hret : toInt32 ((2 ^ 32 : Nat) : Int) = 0 := by decide
    simp only [read_spec (by decide) (by decide) b (by rw [hsz]; decide) 5 0 hcov
      (Nat.zero_le _), hcl, hret, Option.map_some', List.length_map, List.length_range]
    rw [hlen, hsz]

/-- C12. A `write` whose allocation fails does not leave the length at
`max(old length, offset + size)` once `len - offset` reaches `2^32`.  With
`chunkSize = 4096`, after `truncate(2^32)` on the empty buffer, `write(buf, 8192, 0)` of
bytes `'A'` with an allocator that serves slot 0 and fails for slot 1 returns `-EIO`
and leaves `len = 8192` and `2^20` slots; the bytes stored in chunk 0 are read back
(`read(2, 0)` returns `'A','A'`). -/
theorem write_eio_len_wraps :
    (match run 4096 [Op.truncate (2 ^ 32)] empty with
      | some b =>
        (write 4096 (mallocUpTo 1 0) b (fun _ => 65) 8192 0).map fun r =>
          (r.2, r.1.len, r.1.chunks.size, read 4096 r.1 2 0)
      | none => none) = some (- EIO, 8192, 2 ^ 20, some ⟨2, [65, 65]⟩) := by
  decide

/-- C13. The write-back adapter hands the archive library more bytes than it asked for
once the buffer holds `2^32` bytes or more.  With `chunkSize = 4096`, on the buffer left
by `truncate(2^32 + 1)` and a prior cursor of 7: after `ZIP_SOURCE_OPEN`, the first
`ZIP_SOURCE_READ` of 2 bytes compares `2 > unsigned(2^32 + 1) = 1`, stores `2^32 + 1`
bytes and returns 1 (the `int` wraps), which moves the cursor to 1; the second compares
`2 > unsigned(2^32) = 0`, stores `2^32` bytes and returns 0, which ends the pull loop with
the cursor at 1.  There is one non-zero read, where `ceil(length / n)` is `2^31 + 1`; it
returns 1, stores `2^32 + 1` bytes and advances the cursor by 1, where
`min(n, length - cursor)` is 2. -/
theorem drain_read_wraps :
    (match run 4096 [Op.truncate (2 ^ 32 + 1)] empty with
      | some b =>
        (drain 4096 88 2 2 ⟨7, b, 0⟩).map fun r =>
          (r.1.map fun c => (c.1, c.2.length), r.2)
      | none => none)
      = some ([(1, 2 ^ 32 + 1), (0, 2 ^ 32)], 1) := by
  have hlen : (run 4096 [Op.truncate (2 ^ 32 + 1)] empty).map (fun b => (b.len, b.chunks.size))
      = some (2 ^ 32 + 1, 2 ^ 20 + 1) := by decide
  cases hrun : run 4096 [Op.truncate (2 ^ 32 + 1)] empty with
  | none => rw [hrun] at hlen; exact absurd hlen (by simp)
  | some b =>
    rw [hrun] at hlen
    simp only [Option.map_some', Option.some.injEq, Prod.mk.injEq] at hlen
    obtain ⟨hlen, hsz⟩ := hlen
    have hcov : Covers 4096 b := reachable_covers (by decide) ⟨_, hrun⟩
    have hv : b.chunks.size < 2 ^ 31 := by rw [hsz]; decide
    have hcl1 : clamped b.len 2 0 = 2 ^ 32 + 1 := by rw [hlen]; decide
    have hcl2 : clamped b.len 2 1 = 2 ^ 32 := by rw [hlen]; decide
    have hret1 : toInt32 ((2 ^ 32 + 1 : Nat) : Int) = 1 := by decide
    have hret2 : toInt32 ((2 ^ 32 : Nat) : Int) = 0 := by decide
    have hadv : advance 0 1 = 1 := by decide
    have hadv2 : advance 1 0 = 1 := by decide
    have hr1 := read_spec (by decide : 0 < 4096) (by decide) b hv 2 0 hcov (Nat.zero_le _)
    have hr2 := read_spec (by decide : 0 < 4096) (by decide) b hv 2 1 hcov (by omega)
    rw [hcl1, hret1] at hr1
    rw [hcl2, hret2] at hr2
    simp only [drain, zipUserFunctionCallback, pullLoop, hr1, hadv, hr2, hadv2]
    simp

/-- C17. Lazy allocation.  For `chunkSize > 0` and every buffer: whenever a `write`
returns a value that is not negative, the slots that hold a block are those that held
one before together with, when `size > 0`, the slots `floor(offset / chunkSize)` to
`floor((offset + size - 1) / chunkSize)` (none is added when `size = 0`); whenever
`truncate(n)` returns, it returns 0 and every slot that holds a block after it held one
before.  Both calls do return: with `chunkSize ≤ 2^31`, a `write` of less than `2^31`
bytes with `floor((offset + size) / chunkSize) + 1 < 2^31` whose absent slots all get a
block returns `size` and leaves exactly those slots with a block, and on a buffer whose
slots reach its length and number less than `2^32`, `truncate(n)` returns 0 for every `n`
and leaves no slot with a block that had none. -/
theorem lazy_allocation (cs : Nat) (hcs : 0 < cs) (b : BigBuffer) :
    (∀ (malloc : Nat → Option Chunk) (buf : Nat → Byte) (size offset : Nat) (b' : BigBuffer)
        (ret : Int), write cs malloc b buf size offset = some (b', ret) → 0 ≤ ret →
      ∀ j, Present b'.chunks j ↔
        (Present b.chunks j ∨
          (0 < size ∧ offset / cs ≤ j ∧ j ≤ (offset + size - 1) / cs))) ∧
    (∀ (n : Nat) (b' : BigBuffer) (ret : Int), truncate cs b n = some (b', ret) →
      ret = 0 ∧ ∀ j, Present b'.chunks j → Present b.chunks j) ∧
    (cs ≤ 2 ^ 31 →
      ∀ (malloc : Nat → Option Chunk) (buf : Nat → Byte) (size offset : Nat),
        size < 2 ^ 31 → (offset + size) / cs + 1 < 2 ^ 31 →
        (∀ j, 0 < size → offset / cs ≤ j → j ≤ (offset + size - 1) / cs →
          ¬ Present b.chunks j → ∃ c, malloc j = some c) →
        ∃ b', write cs malloc b buf size offset = some (b', (size : Int)) ∧
          ∀ j, Present b'.chunks j ↔
            (Present b.chunks j ∨
              (0 < size ∧ offset / cs ≤ j ∧ j ≤ (offset + size - 1) / cs))) ∧
    (Covers cs b → b.chunks.size < 2 ^ 32 →
      ∀ n : Nat, ∃ b', truncate cs b n = some (b', 0) ∧
        ∀ j, Present b'.chunks j → Present b.chunks j) := by
  have hA : ∀ (malloc : Nat → Option Chunk) (buf : Nat → Byte) (size offset : Nat)
      (b' : BigBuffer) (ret : Int), write cs malloc b buf size offset = some (b', ret) →
      0 ≤ ret → ∀ j, Present b'.chunks j ↔
        (Present b.chunks j ∨
          (0 < size ∧ offset / cs ≤ j ∧ j ≤ (offset + size - 1) / cs)) := by
    intro malloc buf size offset b' ret hw hret j
    rw [write_present hcs hw hret j, touched_iff hcs]
  refine ⟨hA, ?_, ?_, ?_⟩
  · intro n b' ret ht
    exact ⟨(truncate_eq ht).1, truncate_present_of_some ht⟩
  · intro hcs31 malloc buf size offset hs hb hm
    have hcov := extended_covers hcs (extendLoop_extended cs b.chunks size offset (by omega))
    obtain ⟨v', h1, _⟩ := write_spec hcs hcs31 malloc b buf size offset hb (by
      intro j hj hnone
      have hj' := (touched_iff hcs offset size j).1 hj
      exact hm j hj'.1 hj'.2.1 hj'.2.2
        ((extended_slot_none_iff cs b.chunks size offset j
          (touched_lt_size hj (by omega))).1 hnone))
    rw [toInt32_natCast hs] at h1
    exact ⟨_, h1, hA malloc buf size offset _ _ h1 (Int.ofNat_nonneg _)⟩
  · intro hcov hv n
    obtain ⟨b', h1, _⟩ := truncate_spec hcs b hcov hv n
    exact ⟨b', h1, truncate_present_of_some h1⟩

/-- C17 on the buffer left by `write("hello", 5, 0)` with `chunkSize = 4` (2 slots, both
holding a block): `write("x", 1, 9)` returns 1 and leaves 3 slots that all hold a block;
`truncate(12)` returns 0 and leaves 3 slots of which the last holds none. -/
theorem lazy_allocation_witness :
    0 < 4 ∧
    ((∀ (malloc : Nat → Option Chunk) (buf : Nat → Byte) (size offset : Nat) (b' : BigBuffer)
        (ret : Int), write 4 malloc afterHello buf size offset = some (b', ret) → 0 ≤ ret →
      ∀ j, Present b'.chunks j ↔
        (Present afterHello.chunks j ∨
          (0 < size ∧ offset / 4 ≤ j ∧ j ≤ (offset + size - 1) / 4))) ∧
    (∀ (n : Nat) (b' : BigBuffer) (ret : Int), truncate 4 afterHello n = some (b', ret) →
      ret = 0 ∧ ∀ j, Present b'.chunks j → Present afterHello.chunks j) ∧
    (4 ≤ 2 ^ 31 →
      ∀ (malloc : Nat → Option Chunk) (buf : Nat → Byte) (size offset : Nat),
        size < 2 ^ 31 → (offset + size) / 4 + 1 < 2 ^ 31 →
        (∀ j, 0 < size → offset / 4 ≤ j → j ≤ (offset + size - 1) / 4 →
          ¬ Present afterHello.chunks j → ∃ c, malloc j = some c) →
        ∃ b', write 4 malloc afterHello buf size offset = some (b', (size : Int)) ∧
          ∀ j, Present b'.chunks j ↔
            (Present afterHello.chunks j ∨
              (0 < size ∧ offset / 4 ≤ j ∧ j ≤ (offset + size - 1) / 4))) ∧
    (Covers 4 afterHello → afterHello.chunks.size < 2 ^ 32 →
      ∀ n : Nat, ∃ b', truncate 4 afterHello n = some (b', 0) ∧
        ∀ j, Present b'.chunks j → Present afterHello.chunks j)) ∧
    4 ≤ 2 ^ 31 ∧ Covers 4 afterHello ∧ afterHello.chunks.size < 2 ^ 32 ∧
    (afterHello.chunks.size, (List.range 2).map fun j => (afterHello.chunks.slot j).isSome)
      = (2, [true, true]) ∧
    (write 4 (mallocFill 0) afterHello (ofList [120]) 1 9).map
      (fun r => (r.2, r.1.chunks.size, (List.range 3).map fun j => (r.1.chunks.slot j).isSome))
      = some (1, 3, [true, true, true]) ∧
    (truncate 4 afterHello 12).map
      (fun r => (r.2, r.1.chunks.size, (List.range 3).map fun j => (r.1.chunks.slot j).isSome))
      = some (0, 3, [true, true, false]) :=
  ⟨by decide, lazy_allocation 4 (by decide) afterHello, by decide,
    by show afterHello.len ≤ afterHello.chunks.size * 4; decide, by decide, by decide,
    by decide, by decide⟩

/-- C18. The number of slots exceeds `floor(len / chunkSize) + 1` after a `write` hit the
32-bit conversion.  With `chunkSize = 4096`: after `truncate(2^32)` and `write("h", 1, 0)`
on the empty buffer the length is 1 and there are `2^20` slots, while
`floor(1 / 4096) + 1 = 1`. -/
theorem slot_count_above_upper_bound :
    (match run 4096 [Op.truncate (2 ^ 32), Op.write (mallocFill 0) (ofList [104]) 1 0] empty with
      | some b => some (b.len, b.chunks.size, b.len / 4096 + 1)
      | none => none) = some (1, 2 ^ 20, 1) := by
  decide

/-- C19. A `write` changes a byte outside the range it writes.  With `chunkSize = 4` and
fresh blocks filled with `0xaa`: after `truncate(4)` on the empty buffer the length is 4
and `read(1, 0)` returns the byte 0; after `write("x", 1, 1)`, which returns 1,
`read(1, 0)` returns the byte `0xaa` for position 0, which is below the old length and
below `offset`. -/
theorem write_changes_byte_outside_range :
    (match run 4 [Op.truncate 4] empty with
      | some b => some (b.len, read 4 b 1 0,
          (write 4 (mallocFill 170) b (ofList [120]) 1 1).map fun r => (r.2, read 4 r.1 1 0))
      | none => none)
      = some (4, some ⟨1, [0]⟩, some (1, some ⟨1, [170]⟩)) := by
  decide

/-- C20. A chunk lies wholly beyond the end after a `write` hit the 32-bit conversion.
With `chunkSize = 4096` and zero-filled fresh blocks: after `write("A", 1, 4096)`,
`truncate(2^32)` and `write("h", 1, 0)` the length is 1 and slot 1 (of `2^20`) holds a
block, while `1 * 4096 < 1` is false. -/
theorem chunk_beyond_end_after_wrapped_write :
    (match run 4096 [Op.write (mallocFill 0) (ofList [65]) 1 4096, Op.truncate (2 ^ 32),
        Op.write (mallocFill 0) (ofList [104]) 1 0] empty with
      | some b => some (b.len, b.chunks.size, (b.chunks.slot 1).isSome, decide (1 * 4096 < b.len))
      | none => none) = some (1, 2 ^ 20, true, false) := by
  decide

end BigBuffer

namespace FuseZipData

theorem buildLoop_eq (name : Int → Option String) :
    ∀ (k i : Nat), buildLoop ((i + k : Nat) : Int) name k (i : Int) =
      (List.range k).flatMap fun t =>
        [Event.zip_get_name ((i + t : Nat) : Int), Event.newFileNode (name ((i + t : Nat) : Int))
          ((i + t : Nat) : Int)] := by
  intro k
  induction k with
  | zero => intro i; rfl
  | succ k ih =>
    intro i
    have hlt : (i : Int) < ((i + (k + 1) : Nat) : Int) := by omega
    have hk : i + (k + 1) = (i + 1) + k := by omega
    have hi : ((i : Int) + 1) = ((i + 1 : Nat) : Int) := by omega
    simp only [buildLoop, if_pos hlt]
    rw [hk, hi, ih (i + 1)]
    rw [List.range_succ_eq_map, List.flatMap_cons, List.flatMap_map]
    simp only [Nat.add_zero, List.cons_append, List.nil_append, List.cons.injEq, true_and]
    congr 1
    funext t
    have : i + 1 + t = i + (t + 1) := by omega
    simp [this]

theorem nodesOf_flatMap (name : Int → Option String) (n : Nat) :
    nodesOf ((List.range n).flatMap fun (t : Nat) =>
        [Event.zip_get_name (t : Int), Event.newFileNode (name (t : Int)) (t : Int)])
      = (List.range n).map fun (t : Nat) => (name (t : Int), (t : Int)) := by
  induction n with
  | zero => rfl
  | succ n ih =>
    rw [List.range_succ, List.flatMap_append, List.map_append]
    have happ : ∀ l1 l2 : List Event, nodesOf (l1 ++ l2) = nodesOf l1 ++ nodesOf l2 := by
      intro l1 l2
      induction l1 with
      | nil => rfl
      | cons e l1 ih1 =>
        cases e <;> simp [nodesOf, ih1]
    rw [happ, ih]
    simp [nodesOf]

/-- C14. Tree construction at open.  With `cwd == NULL` the constructor throws
`std::bad_alloc` and has made no call.  With `cwd != NULL` and an archive reporting `n`
entries it makes exactly these calls: it constructs the root node (empty name, index
`-1`), marks it `is_dir`, asks for the number of entries and then, for `i = 0 .. n-1` in
increasing order, asks for the name of entry `i` and constructs a node with that name
and index `i`; it throws nothing.  The nodes it constructs are the root followed by the
`n` entry nodes, `n + 1` in all. -/
theorem ctor_builds_tree (n : Nat) (name : Int → Option String) :
    FuseZipData none (n : Int) name = ([], some BigBuffer.CtorExn.bad_alloc) ∧
    ∀ cwd : String,
      FuseZipData (some cwd) (n : Int) name =
        (Event.newFileNode (some "") (-1) :: Event.setIsDir (-1) :: Event.zip_get_num_files ::
          (List.range n).flatMap fun (i : Nat) =>
            [Event.zip_get_name (i : Int), Event.newFileNode (name (i : Int)) (i : Int)],
          none) ∧
      nodesOf (FuseZipData (some cwd) (n : Int) name).1 =
        (some "", -1) :: (List.range n).map (fun (i : Nat) => (name (i : Int), (i : Int))) ∧
      (nodesOf (FuseZipData (some cwd) (n : Int) name).1).length = n + 1 := by
  refine ⟨rfl, ?_⟩
  intro cwd
  have h := buildLoop_eq name n 0
  simp only [Nat.zero_add, Nat.cast_zero] at h
  have htrace : FuseZipData (some cwd) (n : Int) name =
      (Event.newFileNode (some "") (-1) :: Event.setIsDir (-1) :: Event.zip_get_num_files ::
        (List.range n).flatMap fun (i : Nat) =>
          [Event.zip_get_name (i : Int), Event.newFileNode (name (i : Int)) (i : Int)],
        none) := by
    simp only [FuseZipData, build_tree, ROOT_NODE_INDEX, Int.toNat_ofNat, h]
  have hnodes : nodesOf (FuseZipData (some cwd) (n : Int) name).1 =
      (some "", -1) :: (List.range n).map fun (i : Nat) => (name (i : Int), (i : Int)) := by
    rw [htrace]
    simp only [nodesOf, nodesOf_flatMap]
  refine ⟨htrace, hnodes, ?_⟩
  rw [hnodes]
  simp

/-- C15, as stated, fails: when all three `chdir` attempts fail (original directory
"/gone", `TMP=/var/tmp`, then "/tmp") the destructor makes three `chdir` calls and writes
one log message before closing the archive; the failures of the second and of the third
attempt are not logged. -/
theorem chdir_failures_not_all_logged :
    destroy "/gone" (some "/var/tmp") (fun _ => -1) 0 [7] =
      [Event.chdir (some "/gone"), Event.syslog msgChdir, Event.getenv "TMP",
        Event.chdir (some "/var/tmp"), Event.chdir (some "/tmp"), Event.zip_close,
        Event.deleteNode 7, Event.free_cwd] ∧
    ((destroy "/gone" (some "/var/tmp") (fun _ => -1) 0 [7]).filter isChdir).length = 3 ∧
    ((destroy "/gone" (some "/var/tmp") (fun _ => -1) 0 [7]).filter isSyslog).length = 1 := by
  refine ⟨rfl, rfl, rfl⟩

/-- C15, amended.  The calls the destructor makes before it closes the archive are:
`chdir` on the captured directory alone when that call returns 0, whatever the
environment; otherwise, `TMP` being set to `d`, that `chdir`, one log message, `getenv("TMP")`
and `chdir(d)`, followed by `chdir("/tmp")` exactly when `chdir(d)` fails too.  Only the
failure of the first attempt is logged, and the result of the third attempt is not
inspected. -/
theorem chdir_chain (cwd d : String) (tmp : Option String) (chdirRes : Nat → Int)
    (closeRes : Int) (files : List Nat) :
    (chdirRes 0 = 0 →
      ∃ post, destroy cwd tmp chdirRes closeRes files
          = [Event.chdir (some cwd)] ++ Event.zip_close :: post ∧
        ∀ e ∈ post, isChdir e = false ∧ e ≠ Event.getenv "TMP") ∧
    (chdirRes 0 ≠ 0 → chdirRes 1 = 0 →
      ∃ post, destroy cwd (some d) chdirRes closeRes files
          = [Event.chdir (some cwd), Event.syslog msgChdir, Event.getenv "TMP",
              Event.chdir (some d)] ++ Event.zip_close :: post ∧
        ∀ e ∈ post, isChdir e = false ∧ e ≠ Event.getenv "TMP") ∧
    (chdirRes 0 ≠ 0 → chdirRes 1 ≠ 0 →
      ∃ post, destroy cwd (some d) chdirRes closeRes files
          = [Event.chdir (some cwd), Event.syslog msgChdir, Event.getenv "TMP",
              Event.chdir (some d), Event.chdir (some "/tmp")] ++ Event.zip_close :: post ∧
        ∀ e ∈ post, isChdir e = false ∧ e ≠ Event.getenv "TMP") := by
  have hpost : ∀ e ∈ (if closeRes ≠ 0 then [Event.zip_strerror, Event.syslog msgClose] else [])
      ++ files.map Event.deleteNode ++ [Event.free_cwd],
      isChdir e = false ∧ e ≠ Event.getenv "TMP" := by
    intro e he
    simp only [List.mem_append, List.mem_map, List.mem_singleton] at he
    rcases he with (he | ⟨x, _, rfl⟩) | rfl
    · split at he
      · simp only [List.mem_cons, List.mem_singleton, List.not_mem_nil, or_false] at he
        rcases he with rfl | rfl <;> exact ⟨rfl, by simp⟩
      · simp at he
    · exact ⟨rfl, by simp⟩
    · exact ⟨rfl, by simp⟩
  refine ⟨?_, ?_, ?_⟩
  · intro h0
    refine ⟨_, ?_, hpost⟩
    simp [destroy, h0]
  · intro h0 h1
    refine ⟨_, ?_, hpost⟩
    simp [destroy, h0, h1]
  · intro h0 h1
    refine ⟨_, ?_, hpost⟩
    simp [destroy, h0, h1]

/-- C15 amended, in an environment where the first two attempts fail: the original
directory is "/gone", `TMP=/var/tmp`, and only `chdir("/tmp")` would succeed. -/
theorem chdir_chain_witness :
    ∃ post, destroy "/gone" (some "/var/tmp") (fun k => if k = 2 then 0 else -1) 0 [7]
        = [Event.chdir (some "/gone"), Event.syslog msgChdir, Event.getenv "TMP",
            Event.chdir (some "/var/tmp"), Event.chdir (some "/tmp")]
          ++ Event.zip_close :: post ∧
      ∀ e ∈ post, isChdir e = false ∧ e ≠ Event.getenv "TMP" :=
  (chdir_chain "/gone" "/var/tmp" (some "/var/tmp") (fun k => if k = 2 then 0 else -1) 0
    [7]).2.2 (by decide) (by decide)

/-- C16. Close ordering.  Whatever the directory calls, the environment and `zip_close`
return, the calls of the destructor are: a first part that holds every `chdir` call and
neither the archive close nor a node release; then `zip_close`, once; then, when
`zip_close` returned non-zero, `zip_strerror` and one log message; then the release of
every node of the registry, each once, in registry order; then `free(m_cwd)`.  The
release steps are the same for every result of `zip_close`, and the destructor has no
path that throws. -/
theorem close_ordering (cwd : String) (tmp : Option String) (chdirRes : Nat → Int)
    (closeRes : Int) (files : List Nat) :
    ∃ pre, destroy cwd tmp chdirRes closeRes files =
        pre ++ Event.zip_close ::
          ((if closeRes ≠ 0 then [Event.zip_strerror, Event.syslog msgClose] else []) ++
            files.map Event.deleteNode ++ [Event.free_cwd]) ∧
      (∀ e ∈ pre, e ≠ Event.zip_close ∧ isDelete e = false) ∧
      ((destroy cwd tmp chdirRes closeRes files).filter isChdir = pre.filter isChdir) ∧
      ((destroy cwd tmp chdirRes closeRes files).filter (fun e => e = Event.zip_close)).length
        = 1 ∧
      (destroy cwd tmp chdirRes closeRes files).filter isDelete
        = files.map Event.deleteNode := by
  have hfd : ∀ l : List Nat, (l.map Event.deleteNode).filter isDelete = l.map Event.deleteNode := by
    intro l
    induction l with
    | nil => rfl
    | cons x l ih => simp [List.filter, isDelete, ih]
  have hfc : ∀ l : List Nat, (l.map Event.deleteNode).filter isChdir = [] := by
    intro l
    induction l with
    | nil => rfl
    | cons x l ih => simp [List.filter, isChdir, ih]
  have hfz : ∀ l : List Nat,
      (l.map Event.deleteNode).filter (fun e => e = Event.zip_close) = [] := by
    intro l
    induction l with
    | nil => rfl
    | cons x l ih => simp [List.filter, ih]
  refine ⟨Event.chdir (some cwd) ::
    (if chdirRes 0 ≠ 0 then
      Event.syslog msgChdir :: Event.getenv "TMP" :: Event.chdir tmp ::
        (if chdirRes 1 ≠ 0 then [Event.chdir (some "/tmp")] else [])
    else []), ?_, ?_, ?_, ?_, ?_⟩
  · simp [destroy, List.append_assoc]
  · intro e he
    by_cases h0 : chdirRes 0 = 0 <;> by_cases h1 : chdirRes 1 = 0 <;>
      simp [h0, h1] at he <;> rcases he with rfl | rfl | rfl | rfl | rfl <;>
      simp [isDelete]
  · by_cases h0 : chdirRes 0 = 0 <;> by_cases h1 : chdirRes 1 = 0 <;>
      by_cases hc : closeRes = 0 <;>
      simp [destroy, h0, h1, hc, List.filter_append, List.filter, isChdir, hfc]
  · by_cases h0 : chdirRes 0 = 0 <;> by_cases h1 : chdirRes 1 = 0 <;>
      by_cases hc : closeRes = 0 <;>
      simp [destroy, h0, h1, hc, List.filter_append, List.filter, hfz]
  · by_cases h0 : chdirRes 0 = 0 <;> by_cases h1 : chdirRes 1 = 0 <;>
      by_cases hc : closeRes = 0 <;>
      simp [destroy, h0, h1, hc, List.filter_append, List.filter, isDelete, hfd]

end FuseZipData
